import Mathlib

/-!
Verification development for the diff-match-patch C++17 port
(towel42-com/diff-match-patch).

The repository ships the public header `diff_match_patch.h` (declarations),
a CMake list naming `diff_match_patch.cpp` / `diff_match_patch_utils.cpp`,
and the unit-test harness `diff_match_patch_test.cpp`.  The two
implementation translation units are not part of the source tree that was
made available, so every operation below is *modelled from the spec*
(sections 3, 4.1-4.4, 6 and 7 of the specification), with the behaviour
pinned down wherever possible by the golden values asserted in the test
harness.

Text is modelled as a list of code units.  The port stores text in
`std::wstring`; the spec (section 9) fixes the unit of operation to code
units, so a string is a `List Nat` of unbounded code-unit values (the
idealisation of the machine's `wchar_t`).
-/

/-- A text: a sequence of code units (`std::wstring` in the source). -/
abbrev Str := List Nat

/-- Modelled from the spec: the three edit-operation tags of the data
model (section 3), matching `enum class EOperation` in the header. -/
inductive EOperation
  | eDELETE
  | eINSERT
  | eEQUAL
deriving DecidableEq, Repr

/-- Modelled from the spec: one edit operation, a tag with a text
payload (class `Diff` in the header). -/
structure Diff where
  fOperation : EOperation
  fText : Str
deriving DecidableEq, Repr

/-- Shorthand for building a `Diff`. -/
def mkDiff (op : EOperation) (t : Str) : Diff := ⟨op, t⟩

/-- Modelled from the spec (section 4.2.8): concatenate the payloads of
all non-INSERT operations, recovering the source text. -/
def diff_text1 : List Diff → Str
  | [] => []
  | d :: ds =>
      (if d.fOperation = EOperation.eINSERT then [] else d.fText) ++ diff_text1 ds

/-- Modelled from the spec (section 4.2.8): concatenate the payloads of
all non-DELETE operations, recovering the destination text. -/
def diff_text2 : List Diff → Str
  | [] => []
  | d :: ds =>
      (if d.fOperation = EOperation.eDELETE then [] else d.fText) ++ diff_text2 ds

/-- Modelled from the spec (section 4.1): the length of the longest
common prefix of two texts (the header's `diff_commonPrefix`; the spec's
binary search computes the same longest shared length). -/
def commonPrefixLength : Str → Str → Nat
  | a :: as, b :: bs => if a = b then commonPrefixLength as bs + 1 else 0
  | _, _ => 0

/-- Modelled from the spec (section 4.1): the length of the longest
common suffix of two texts (the header's `diff_commonSuffix`). -/
def commonSuffixLength (a b : Str) : Nat :=
  commonPrefixLength a.reverse b.reverse

/-- Push an operation onto a reversed diff accumulator, merging with the
head when it carries the same tag and dropping empty payloads.  This is
the coalescing step of `diff_cleanupMerge` (spec section 4.2.6). -/
def pushOp (acc : List Diff) (op : EOperation) (t : Str) : List Diff :=
  if t = [] then acc
  else
    match acc with
    | d :: rest => if d.fOperation = op then ⟨op, d.fText ++ t⟩ :: rest else ⟨op, t⟩ :: d :: rest
    | [] => [⟨op, t⟩]

/-- One flushed group of `diff_cleanupMerge`'s first pass: the
accumulated deletion and insertion texts followed by an equality.  When
both edits are present their common prefix and suffix are factored into
the surrounding equalities (spec section 4.2.6).  `acc` is the reversed
output so far. -/
def flushGroup (acc : List Diff) (td ti t : Str) : List Diff :=
  if td ≠ [] ∧ ti ≠ [] then
    let p := commonPrefixLength ti td
    let td1 := td.drop p
    let ti1 := ti.drop p
    let s := commonSuffixLength ti1 td1
    let td2 := td1.take (td1.length - s)
    let ti2 := ti1.take (ti1.length - s)
    let sfx := ti1.drop (ti1.length - s)
    pushOp (pushOp (pushOp (pushOp acc EOperation.eEQUAL (ti.take p))
      EOperation.eDELETE td2) EOperation.eINSERT ti2) EOperation.eEQUAL (sfx ++ t)
  else
    pushOp (pushOp (pushOp acc EOperation.eDELETE td) EOperation.eINSERT ti)
      EOperation.eEQUAL t

/-- First pass of `diff_cleanupMerge` (spec section 4.2.6): coalesce
adjacent same-tag operations, delete empty equalities, and factor the
common prefix/suffix of adjacent insert/delete runs into the surrounding
equalities.  Walks the list accumulating deletion text `td` and insertion
text `ti`, flushing at each nonempty equality and at the end. -/
def mergePass (acc : List Diff) (td ti : Str) : List Diff → List Diff
  | [] => (flushGroup acc td ti []).reverse
  | d :: rest =>
      match d.fOperation with
      | EOperation.eDELETE => mergePass acc (td ++ d.fText) ti rest
      | EOperation.eINSERT => mergePass acc td (ti ++ d.fText) rest
      | EOperation.eEQUAL =>
          if d.fText = [] then mergePass acc td ti rest
          else mergePass (flushGroup acc td ti d.fText) [] [] rest

/-- Second pass of `diff_cleanupMerge` (spec section 4.2.6): look for a
single edit surrounded on both sides by equalities which can be shifted
sideways (left or right) to eliminate one of the equalities.  Returns the
rewritten list and whether anything changed. -/
def slideGo : Nat → List Diff → List Diff × Bool
  | fuel + 1, a :: x :: b :: rest =>
      if a.fOperation = EOperation.eEQUAL ∧ b.fOperation = EOperation.eEQUAL ∧
          x.fOperation ≠ EOperation.eEQUAL then
        if a.fText.isSuffixOf x.fText then
          -- Shift the edit left over `a`, merging `a` into the right equality.
          let x' : Diff := ⟨x.fOperation, a.fText ++ x.fText.take (x.fText.length - a.fText.length)⟩
          let m : Diff := ⟨EOperation.eEQUAL, a.fText ++ b.fText⟩
          let res := slideGo fuel (m :: rest)
          (x' :: res.1, true)
        else if b.fText.isPrefixOf x.fText then
          -- Shift the edit right over `b`, merging `b` into the left equality.
          let a' : Diff := ⟨EOperation.eEQUAL, a.fText ++ b.fText⟩
          let x' : Diff := ⟨x.fOperation, x.fText.drop b.fText.length ++ b.fText⟩
          let res := slideGo fuel (a' :: x' :: rest)
          (res.1, true)
        else
          let res := slideGo fuel (x :: b :: rest)
          (a :: res.1, res.2)
      else
        let res := slideGo fuel (x :: b :: rest)
        (a :: res.1, res.2)
  | _, l => (l, false)

/-- The slide pass proper: the fuel (one unit per inspected window, each
recursive call shortens the list) is the list length, which always
suffices. -/
def slidePass (l : List Diff) : List Diff × Bool := slideGo l.length l

/-- Iterate `mergePass` and `slidePass` until the slide pass makes no
further change (spec section 4.2.6: "repeat until a second pass finds no
single-edit sandwich between EQUALs that can be slid").  The fuel bounds
the number of restarts; each restart follows a slide that shortened the
list, so the initial fuel below always suffices. -/
def cleanupMergeLoop : Nat → List Diff → List Diff
  | 0, diffs => mergePass [] [] [] diffs
  | fuel + 1, diffs =>
      let m := mergePass [] [] [] diffs
      let res := slidePass m
      if res.2 then cleanupMergeLoop fuel res.1 else m

/-- Modelled from the spec (section 4.2.6): `diff_cleanupMerge`.
Reorder and merge like edit sections; merge equalities. -/
def diff_cleanupMerge (diffs : List Diff) : List Diff :=
  cleanupMergeLoop (diffs.length + (diffs.map (fun d => d.fText.length)).sum + 1) diffs

/-- Modelled from the spec (section 4.1): UTF-8 byte sequence of one code
unit, as produced by the missing `diff_match_patch_utils` conversion used
by the percent codec (pinned by the golden delta `+%DA%82 %02 %5C %7C`).
Meaningful for values below 0x110000. -/
def utf8Bytes (n : Nat) : List Nat :=
  if n < 0x80 then [n]
  else if n < 0x800 then [0xC0 + n / 0x40, 0x80 + n % 0x40]
  else if n < 0x10000 then
    [0xE0 + n / 0x1000, 0x80 + (n / 0x40) % 0x40, 0x80 + n % 0x40]
  else
    [0xF0 + n / 0x40000, 0x80 + (n / 0x1000) % 0x40, 0x80 + (n / 0x40) % 0x40,
      0x80 + n % 0x40]

/-- Decode one UTF-8 sequence from the head of a byte stream, returning
the code unit and the remaining bytes; `none` on a truncated or
ill-formed sequence. -/
def utf8DecodeOne : List Nat → Option (Nat × List Nat)
  | [] => none
  | b :: rest =>
      if b < 0x80 then some (b, rest)
      else if b < 0xC0 then none
      else if b < 0xE0 then
        match rest with
        | c1 :: r =>
            if 0x80 ≤ c1 ∧ c1 < 0xC0 then
              some ((b - 0xC0) * 0x40 + (c1 - 0x80), r)
            else none
        | [] => none
      else if b < 0xF0 then
        match rest with
        | c1 :: c2 :: r =>
            if (0x80 ≤ c1 ∧ c1 < 0xC0) ∧ (0x80 ≤ c2 ∧ c2 < 0xC0) then
              some ((b - 0xE0) * 0x1000 + (c1 - 0x80) * 0x40 + (c2 - 0x80), r)
            else none
        | _ => none
      else if b < 0xF8 then
        match rest with
        | c1 :: c2 :: c3 :: r =>
            if (0x80 ≤ c1 ∧ c1 < 0xC0) ∧ (0x80 ≤ c2 ∧ c2 < 0xC0) ∧
                (0x80 ≤ c3 ∧ c3 < 0xC0) then
              some ((b - 0xF0) * 0x40000 + (c1 - 0x80) * 0x1000 +
                (c2 - 0x80) * 0x40 + (c3 - 0x80), r)
            else none
        | _ => none
      else none

/-- Decode a whole UTF-8 byte stream; the fuel dominates the number of
decoded code units (one per step, each step strictly consumes bytes). -/
def utf8DecodeGo : Nat → List Nat → Option Str
  | _, [] => some []
  | 0, _ :: _ => none
  | fuel + 1, b :: rest =>
      match utf8DecodeOne (b :: rest) with
      | some (u, r) => Option.map (fun s => u :: s) (utf8DecodeGo fuel r)
      | none => none

/-- Inverse of `utf8Bytes` on byte streams: decode a UTF-8 byte sequence
back to code units, failing on truncated or ill-formed sequences. -/
def utf8Decode (l : List Nat) : Option Str := utf8DecodeGo l.length l

/-- Modelled from the spec (section 4.1): the percent-encoding whitelist,
"RFC 3986 style but with a fixed whitelist `!~*'();/?:@&=+$,# ` plus
alphanumerics and `-_.`" (pinned by the unchanged-characters pool test). -/
def keepChar (u : Nat) : Bool :=
  (48 ≤ u && u ≤ 57) || (65 ≤ u && u ≤ 90) || (97 ≤ u && u ≤ 122) ||
  u = 45 || u = 95 || u = 46 || u = 33 || u = 126 || u = 42 || u = 39 ||
  u = 40 || u = 41 || u = 59 || u = 47 || u = 63 || u = 58 || u = 64 ||
  u = 38 || u = 61 || u = 43 || u = 36 || u = 44 || u = 35 || u = 32

/-- Upper-case hexadecimal digit of a value below 16. -/
def hexDigit (n : Nat) : Nat := if n < 10 then 48 + n else 55 + n

/-- Hexadecimal digit value; accepts both cases (the decoder in the port
accepts `%c3` as well as `%C3`, per the `diff_fromDelta` error test). -/
def hexVal (c : Nat) : Option Nat :=
  if 48 ≤ c ∧ c ≤ 57 then some (c - 48)
  else if 65 ≤ c ∧ c ≤ 70 then some (c - 55)
  else if 97 ≤ c ∧ c ≤ 102 then some (c - 87)
  else none

/-- Modelled from the spec (section 4.1): percent-encode a text, keeping
whitelisted characters and escaping each UTF-8 byte of the rest as `%XX`. -/
def toPercentEncoding (s : Str) : Str :=
  s.flatMap (fun u =>
    if keepChar u then [u]
    else (utf8Bytes u).flatMap (fun b => [37, hexDigit (b / 16), hexDigit (b % 16)]))

/-- First phase of percent-decoding: recover the UTF-8 byte stream,
failing on a malformed `%xy` escape (a literal character contributes its
own UTF-8 bytes). -/
def percentToBytes : Str → Option (List Nat)
  | [] => some []
  | c :: rest =>
      if c = 37 then
        match rest with
        | h1 :: h2 :: rest2 =>
            match hexVal h1, hexVal h2 with
            | some a, some b => Option.map (fun l => (a * 16 + b) :: l) (percentToBytes rest2)
            | _, _ => none
        | _ => none
      else Option.map (fun l => utf8Bytes c ++ l) (percentToBytes rest)

/-- Modelled from the spec (section 4.1): percent-decoding.  "Decode
fails on malformed `%xy` with an error." -/
def fromPercentEncoding (s : Str) : Option Str :=
  (percentToBytes s).bind utf8Decode

/-- Decimal digits of a natural number, most significant first,
prepended to `acc`; the fuel dominates the number of digits. -/
def natToStrAux : Nat → Nat → Str → Str
  | 0, n, acc => (48 + n % 10) :: acc
  | fuel + 1, n, acc =>
      if n < 10 then (48 + n) :: acc
      else natToStrAux fuel (n / 10) ((48 + n % 10) :: acc)

/-- Decimal representation of a natural number. -/
def natToStr (n : Nat) : Str := natToStrAux n n []

/-- Parse a nonempty all-digit string as a natural number; `none`
otherwise (the port's `toInt` wrapper fails on anything else). -/
def parseNat (s : Str) : Option Nat :=
  if s = [] then none
  else if s.all (fun c => 48 ≤ c && c ≤ 57) then
    some (s.foldl (fun a c => a * 10 + (c - 48)) 0)
  else none

/-- The delta token of one diff (spec section 4.2.7): `=n` keeps n code
units, `-n` deletes n code units, `+text` inserts percent-encoded text. -/
def deltaToken (d : Diff) : Str :=
  match d.fOperation with
  | EOperation.eINSERT => 43 :: toPercentEncoding d.fText
  | EOperation.eDELETE => 45 :: natToStr d.fText.length
  | EOperation.eEQUAL => 61 :: natToStr d.fText.length

/-- Modelled from the spec (section 4.2.7): `diff_toDelta`.  Tokens are
tab-separated. -/
def diff_toDelta (diffs : List Diff) : Str :=
  List.intercalate [9] (diffs.map deltaToken)

/-- Worker of `diff_fromDelta`: process the tab-separated tokens,
maintaining the read pointer into `text1`.  Blank tokens (from a trailing
tab) are skipped; at the end the pointer must have consumed `text1`
exactly (underflow and overflow both surface here, as in the port where
`safeMid` clips and the final length check throws). -/
def fromDeltaTokens : List Str → Str → Nat → Option (List Diff)
  | [], text1, pointer => if pointer = text1.length then some [] else none
  | tok :: rest, text1, pointer =>
      match tok with
      | [] => fromDeltaTokens rest text1 pointer
      | op :: param =>
          if op = 43 then
            match fromPercentEncoding param with
            | some t =>
                Option.map (fun ds => ⟨EOperation.eINSERT, t⟩ :: ds)
                  (fromDeltaTokens rest text1 pointer)
            | none => none
          else if op = 45 ∨ op = 61 then
            match parseNat param with
            | some n =>
                Option.map
                  (fun ds =>
                    (⟨if op = 45 then EOperation.eDELETE else EOperation.eEQUAL,
                      (text1.drop pointer).take n⟩ : Diff) :: ds)
                  (fromDeltaTokens rest text1 (pointer + n))
            | none => none
          else none

/-- Modelled from the spec (section 4.2.7): `diff_fromDelta`.  Given the
original `text1` and a delta, recompute the full diff; `none` models the
thrown error on invalid input. -/
def diff_fromDelta (text1 delta : Str) : Option (List Diff) :=
  fromDeltaTokens (delta.splitOn 9) text1 0

/-- Well-formedness of a diff list for delta encoding: inserted payloads
hold genuine code units (below 0x110000), the domain of the UTF-8
conversion used by the percent codec.  KEEP and DELETE payloads travel as
lengths only, so they are unconstrained. -/
def deltaWF (diffs : List Diff) : Prop :=
  ∀ d ∈ diffs, d.fOperation = EOperation.eINSERT → ∀ u ∈ d.fText, u < 0x110000

instance (diffs : List Diff) : Decidable (deltaWF diffs) := by
  unfold deltaWF
  infer_instance

/-- The tab-separated tokens of a delta string (spec section 4.2.7). -/
def deltaTokens (delta : Str) : List Str := delta.splitOn 9

/-- A (non-blank) token beginning with an operator other than `+`, `-`,
`=` — the spec's "unknown operator" failure cause. -/
def tokUnknownOp : Str → Bool
  | [] => false
  | op :: _ => !(op = 43 || op = 45 || op = 61)

/-- An insert token whose payload fails percent-decoding — the spec's
"malformed percent escape" failure cause. -/
def tokBadEscape : Str → Bool
  | 43 :: param => (fromPercentEncoding param).isNone
  | _ => false

/-- A keep/delete token whose count does not parse as a number.  This
cause is **absent** from the spec's list of `diff_fromDelta` failures. -/
def tokBadCount : Str → Bool
  | [] => false
  | op :: param => (op = 45 || op = 61) && (parseNat param).isNone

/-- The number of source code units a token consumes (counts that do not
parse contribute nothing). -/
def tokCount : Str → Nat
  | [] => 0
  | op :: param => if op = 45 ∨ op = 61 then (parseNat param).getD 0 else 0

/-- The failure causes named by the spec for `diff_fromDelta` (section
4.2.7: "fails with an error on: overflow of text1, underflow, malformed
percent escape, or unknown operator"): some token has an unknown
operator, some insert token has a malformed escape, or the keep/delete
counts do not add up to exactly the length of `text1` (running past the
end is overflow, failing to consume all of it is underflow). -/
def specDeltaMalformed (text1 delta : Str) : Bool :=
  (deltaTokens delta).any tokUnknownOp ||
  (deltaTokens delta).any tokBadEscape ||
  !(((deltaTokens delta).map tokCount).sum == text1.length)

/-- The spec's failure causes plus the one the spec omits: a keep/delete
token whose count is not a well-formed number. -/
def deltaMalformedAmended (text1 delta : Str) : Bool :=
  specDeltaMalformed text1 delta || (deltaTokens delta).any tokBadCount

/-- Modelled from the spec (section 3): a patch hunk bundling a local
diff list with source/destination positions and spans (class `Patch` in
the header). -/
structure Patch where
  diffs : List Diff
  start1 : Nat
  start2 : Nat
  length1 : Nat
  length2 : Nat
deriving DecidableEq, Repr

/-- Modelled from the spec (section 4.4.6): one coordinate pair of the
hunk header.  A length of 1 omits the comma and length; a length of 0
displays the raw 0-based start (not start+1); otherwise start+1 followed
by a comma and the length (the header's `getCoordinateString`). -/
def getCoordinateString (start length : Nat) : Str :=
  if length = 0 then natToStr start ++ [44, 48]
  else if length = 1 then natToStr (start + 1)
  else natToStr (start + 1) ++ [44] ++ natToStr length

/-- The header line `@@ -c1 +c2 @@` of a patch (without the newline). -/
def patchHeader (p : Patch) : Str :=
  [64, 64, 32, 45] ++ getCoordinateString p.start1 p.length1 ++
    [32, 43] ++ getCoordinateString p.start2 p.length2 ++ [32, 64, 64]

/-- The sign character of a diff line: `+` for INSERT, `-` for DELETE,
space for EQUAL (spec section 4.4.6). -/
def opChar : EOperation → Nat
  | EOperation.eDELETE => 45
  | EOperation.eINSERT => 43
  | EOperation.eEQUAL => 32

/-- One body line of a serialized patch (without the newline): the sign
character followed by the percent-encoded payload. -/
def diffLineContent (d : Diff) : Str :=
  opChar d.fOperation :: toPercentEncoding d.fText

/-- Modelled from the spec (section 4.4.6): `Patch::toString`, the
textual form of one hunk — header line then one body line per diff, each
line terminated by a newline. -/
def Patch.toText (p : Patch) : Str :=
  patchHeader p ++ [10] ++ p.diffs.flatMap (fun d => diffLineContent d ++ [10])

/-- Modelled from the spec (section 4.4.6): `patch_toText`. -/
def patch_toText (ps : List Patch) : Str :=
  ps.flatMap Patch.toText

/-- Split a text into lines: `""` has no lines, a trailing newline does
not open a final empty line, and every other newline separates lines.
The fuel (one unit per line) is the text length. -/
def linesGo : Nat → Str → List Str
  | _, [] => []
  | 0, _ :: _ => []
  | fuel + 1, a :: t =>
      match (a :: t).dropWhile (fun c => !(c == 10)) with
      | [] => [(a :: t).takeWhile (fun c => !(c == 10))]
      | _ :: rest' => (a :: t).takeWhile (fun c => !(c == 10)) :: linesGo fuel rest'

/-- The lines of a text. -/
def linesOf (s : Str) : List Str := linesGo s.length s

/-- Is a code unit a decimal digit? -/
def isDigitU (c : Nat) : Bool := 48 ≤ c && c ≤ 57

/-- Split a string into its leading run of digits and the remainder. -/
def takeDigits (s : Str) : Str × Str :=
  (s.takeWhile isDigitU, s.dropWhile isDigitU)

/-- Strip an expected literal from the front of a string; `none` when it
is not there. -/
def stripPre (pre s : Str) : Option Str :=
  if pre.isPrefixOf s then some (s.drop pre.length) else none

/-- Parse one coordinate pair of a hunk header, per the regex group
`(\d+),?(\d*)` and the port's decoding: no comma (or an empty second
group) means start-1 with length 1; `,0` keeps the raw start with length
0; otherwise start-1 with the given length.  Returns the remainder of
the line. -/
def parseCoord (s : Str) : Option ((Nat × Nat) × Str) :=
  match parseNat (takeDigits s).1 with
  | none => none
  | some x =>
      match (takeDigits s).2 with
      | c :: rest2 =>
          if c = 44 then
            if (takeDigits rest2).1 = [] then some ((x - 1, 1), (takeDigits rest2).2)
            else
              match parseNat (takeDigits rest2).1 with
              | none => none
              | some l =>
                  if l = 0 then some ((x, 0), (takeDigits rest2).2)
                  else some ((x - 1, l), (takeDigits rest2).2)
          else some ((x - 1, 1), c :: rest2)
      | [] => some ((x - 1, 1), [])

/-- Parse a hunk header line against `^@@ -(\d+),?(\d*) \+(\d+),?(\d*) @@$`
(spec section 4.4.6), yielding `(start1, length1, start2, length2)`. -/
def parseHeaderLine (line : Str) : Option (Nat × Nat × Nat × Nat) :=
  match stripPre [64, 64, 32, 45] line with
  | none => none
  | some r1 =>
      match parseCoord r1 with
      | none => none
      | some (c1, r2) =>
          match stripPre [32, 43] r2 with
          | none => none
          | some r3 =>
              match parseCoord r3 with
              | none => none
              | some (c2, r4) =>
                  match stripPre [32, 64, 64] r4 with
                  | none => none
                  | some r5 =>
                      if r5 = [] then some (c1.1, c1.2, c2.1, c2.2) else none

/-- Parse one body line: sign character then percent-encoded payload;
`none` on an unknown sign or a malformed escape. -/
def parseBodyLine (line : Str) : Option Diff :=
  match line with
  | [] => none
  | c :: rest =>
      if c = 43 then (fromPercentEncoding rest).map (fun t => ⟨EOperation.eINSERT, t⟩)
      else if c = 45 then (fromPercentEncoding rest).map (fun t => ⟨EOperation.eDELETE, t⟩)
      else if c = 32 then (fromPercentEncoding rest).map (fun t => ⟨EOperation.eEQUAL, t⟩)
      else none

/-- Parse a run of body lines. -/
def parseBody : List Str → Option (List Diff)
  | [] => some []
  | l :: rest =>
      match parseBodyLine l with
      | some d => (parseBody rest).map (fun ds => d :: ds)
      | none => none

/-- Does a line not start a new hunk header? -/
def notAtLine (l : Str) : Bool := !(l.head? == some 64)

/-- Parse a sequence of hunks from the line list: a header line, then
body lines up to the next `@`-starting line, repeatedly.  The fuel (one
unit per hunk) is the number of lines. -/
def parsePatches : Nat → List Str → Option (List Patch)
  | _, [] => some []
  | 0, _ :: _ => none
  | fuel + 1, line :: rest =>
      match parseHeaderLine line with
      | none => none
      | some (s1, l1, s2, l2) =>
          match parseBody (rest.takeWhile notAtLine) with
          | none => none
          | some ds =>
              (parsePatches fuel (rest.dropWhile notAtLine)).map
                (fun ps => (⟨ds, s1, s2, l1, l2⟩ : Patch) :: ps)

/-- Modelled from the spec (section 4.4.6): `patch_fromText`.  Parses a
textual representation of patches; `none` models the thrown error on an
unparseable header or a malformed operator character. -/
def patch_fromText (text : Str) : Option (List Patch) :=
  parsePatches (linesOf text).length (linesOf text)

/-- The serialized lines (without their newlines) of one patch: the
header, then one body line per diff. -/
def patchLines (p : Patch) : List Str :=
  patchHeader p :: p.diffs.map diffLineContent

/-- The serialized lines of a patch list. -/
def patchesLines (ps : List Patch) : List Str :=
  ps.flatMap patchLines

/-- Well-formedness of a patch list's payloads: every diff text holds
genuine code units (below 0x110000), the domain of the UTF-8 conversion
used by the percent codec. -/
def patchesWF (ps : List Patch) : Prop :=
  ∀ p ∈ ps, ∀ d ∈ p.diffs, ∀ u ∈ d.fText, u < 0x110000

instance (ps : List Patch) : Decidable (patchesWF ps) := by
  unfold patchesWF
  infer_instance

/-- Modelled from the spec (section 4.3.2): `match_alphabet`.  The bit
mask of a code unit: bit `|pattern|-1-i` is set for each position `i`
holding that unit. -/
def match_alphabet (pattern : Str) (c : Nat) : Nat :=
  (List.zip pattern (List.range pattern.length)).foldl
    (fun m pi => if pi.1 = c then m ||| (1 <<< (pattern.length - pi.2 - 1)) else m) 0

/-- Modelled from the spec (section 4.3.2): `match_bitapScore`.
`score(e, x) = e/|pattern| + |x-loc|/match_distance`, special-cased when
`match_distance = 0` (any drift scores 1).  Scores are exact
nonnegative rationals represented as numerator/denominator pairs. -/
def match_bitapScore (dist : Nat) (e x loc plen : Nat) : Nat × Nat :=
  let proximity : Nat := if loc ≤ x then x - loc else loc - x
  if dist = 0 then (if proximity = 0 then (e, plen) else (1, 1))
  else (e * dist + proximity * plen, plen * dist)

/-- Comparison of two scores (fractions with positive denominators) by
cross multiplication. -/
def scoreLe (a b : Nat × Nat) : Bool := a.1 * b.2 ≤ b.1 * a.2

/-- The smaller of two scores. -/
def scoreMin (a b : Nat × Nat) : Nat × Nat := if scoreLe a b then a else b

/-- First index at or after `start` where `pattern` occurs in `text`
(the port's `indexOf`). -/
def indexOfFrom (text pattern : Str) (start : Nat) : Option Nat :=
  (List.range (text.length + 1)).find?
    (fun i => start ≤ i && pattern.isPrefixOf (text.drop i))

/-- Last index at or before `start` where `pattern` occurs in `text`
(the port's `lastIndexOf`). -/
def lastIndexOfFrom (text pattern : Str) (start : Nat) : Option Nat :=
  ((List.range (text.length + 1)).filter
    (fun i => i ≤ start && pattern.isPrefixOf (text.drop i))).getLast?

/-- The binary search of `match_bitap` for the widest location span
whose best possible score still beats the running threshold.  State is
`(bin_min, bin_mid, bin_max)`; the fuel bounds the halving steps. -/
def binSearchGo (dist : Nat) (thr : Nat × Nat) (d loc plen : Nat) :
    Nat → Nat → Nat → Nat → Nat
  | 0, _, bin_mid, _ => bin_mid
  | fuel + 1, bin_min, bin_mid, bin_max =>
      if bin_min < bin_mid then
        if scoreLe (match_bitapScore dist d (loc + bin_mid) loc plen) thr then
          binSearchGo dist thr d loc plen fuel bin_mid
            ((bin_max - bin_mid) / 2 + bin_mid) bin_max
        else
          binSearchGo dist thr d loc plen fuel bin_min
            ((bin_mid - bin_min) / 2 + bin_min) bin_mid
      else bin_mid

/-- The inner (descending `j`) scan of one `match_bitap` error level:
computes the bit row `rd`, records candidate matches, tightens the
threshold, and handles the early-exit and look-earlier adjustments.
State is `(j, start, rd[j+1], row-so-far, threshold, best)`; returns the
accumulated row (as an index/value list), the threshold and the best
location. -/
def scanGo (cm lrd : Nat → Nat) (first : Bool) (matchmask d loc plen dist : Nat) :
    Nat → Nat → Nat → List (Nat × Nat) → Nat × Nat → Int →
    List (Nat × Nat) × (Nat × Nat) × Int
  | 0, _, _, row, thr, best => (row, thr, best)
  | j + 1, start, rdNext, row, thr, best =>
      if j + 1 < start then (row, thr, best)
      else
        let cmv := cm (j + 1)
        let rdj :=
          if first then ((rdNext <<< 1) ||| 1) &&& cmv
          else ((((rdNext <<< 1) ||| 1) &&& cmv) |||
            (((lrd (j + 2) ||| lrd (j + 1)) <<< 1) ||| 1)) ||| lrd (j + 2)
        let row' := (j + 1, rdj) :: row
        if rdj &&& matchmask ≠ 0 then
          let score := match_bitapScore dist d j loc plen
          if scoreLe score thr then
            if loc < j then
              scanGo cm lrd first matchmask d loc plen dist j
                (max 1 (2 * loc - j)) rdj row' score j
            else (row', score, Int.ofNat j)
          else scanGo cm lrd first matchmask d loc plen dist j start rdj row' thr best
        else scanGo cm lrd first matchmask d loc plen dist j start rdj row' thr best

/-- The outer error-count loop of `match_bitap`: at each `d` a binary
search narrows the span, the row scan runs, and the loop aborts when the
best theoretical score at `d+1` already exceeds the threshold. -/
def dLoopGo (cm : Nat → Nat) (matchmask loc plen dist tlen : Nat) :
    Nat → Nat → Nat → (Nat → Nat) → Nat × Nat → Int → Int
  | 0, _, _, _, _, best => best
  | fuel + 1, d, bin_max, lrd, thr, best =>
      let bin_mid := binSearchGo dist thr d loc plen (bin_max + 2) 0 bin_max bin_max
      let start := max 1 (loc + 1 - bin_mid)
      let finish := min (loc + bin_mid) tlen + plen
      let init := (1 <<< d) - 1
      let res := scanGo cm lrd (d = 0) matchmask d loc plen dist finish start init
        [(finish + 1, init)] thr best
      if scoreLe (match_bitapScore dist (d + 1) loc loc plen) res.2.1 = false then res.2.2
      else
        dLoopGo cm matchmask loc plen dist tlen fuel (d + 1) bin_mid
          (fun j => (res.1.lookup j).getD 0) res.2.1 res.2.2

/-- Modelled from the spec (section 4.3.2): `match_bitap`, parameterized
by the configuration `Match_Threshold` (the exact fraction `tn/td`) and
`Match_Distance` (`dist`).  Locates the best fuzzy match of `pattern` in
`text` near `loc`, or the sentinel -1. -/
def match_bitap (tn td dist : Nat) (text pattern : Str) (loc : Nat) : Int :=
  let plen := pattern.length
  let s := match_alphabet pattern
  let cm : Nat → Nat := fun j =>
    if text.length ≤ j - 1 then 0
    else match text.get? (j - 1) with
      | some c => s c
      | none => 0
  let thr1 :=
    match indexOfFrom text pattern loc with
    | some bl => scoreMin (match_bitapScore dist 0 bl loc plen) (tn, td)
    | none => (tn, td)
  let thr2 :=
    match indexOfFrom text pattern loc with
    | some _ =>
        match lastIndexOfFrom text pattern (loc + plen) with
        | some bl2 => scoreMin (match_bitapScore dist 0 bl2 loc plen) thr1
        | none => thr1
    | none => thr1
  dLoopGo cm (1 <<< (plen - 1)) loc plen dist text.length plen 0 (plen + text.length)
    (fun _ => 0) thr2 (-1)

/-- Modelled from the spec (section 4.3.1): `match_main`, parameterized
by the configuration.  "If `pattern` is empty → return `loc`; if
`text == pattern` → 0; if `text.substr(loc)` begins with `pattern` →
`loc`; else → `match_bitap`." -/
def match_main (tn td dist : Nat) (text pattern : Str) (loc : Nat) : Int :=
  if pattern = [] then Int.ofNat loc
  else if text = pattern then 0
  else if pattern.isPrefixOf (text.drop loc) then Int.ofNat loc
  else match_bitap tn td dist text pattern loc

/-- Modelled from the spec (section 4.1): `commonOverlap` — the longest
`k` such that the last `k` code units of `a` equal the first `k` code
units of `b`. -/
def commonOverlapLength (a b : Str) : Nat :=
  (((List.range (min a.length b.length + 1)).reverse).find?
    (fun k => a.drop (a.length - k) == b.take k)).getD 0

/-- Split a text into lines, each keeping its trailing newline (the last
line may lack one); the munge step of `diff_linesToChars`. -/
def splitKeepGo : Nat → Str → List Str
  | _, [] => []
  | 0, _ :: _ => []
  | fuel + 1, a :: t =>
      match (a :: t).dropWhile (fun c => !(c == 10)) with
      | [] => [(a :: t).takeWhile (fun c => !(c == 10))]
      | _ :: rest' =>
          ((a :: t).takeWhile (fun c => !(c == 10)) ++ [10]) :: splitKeepGo fuel rest'

/-- The newline-keeping lines of a text. -/
def splitLinesKeep (s : Str) : List Str := splitKeepGo s.length s

/-- Index of the first occurrence of a line in the line array. -/
def idxOfStr : List Str → Str → Option Nat
  | [], _ => none
  | x :: rest, s => if x = s then some 0 else (idxOfStr rest s).map (· + 1)

/-- Modelled from the spec (section 4.2.4): hash each distinct line to
one code unit (its index in the shared line array), extending the array
with unseen lines. -/
def mungeGo : List Str → List Str → Str × List Str
  | [], arr => ([], arr)
  | seg :: rest, arr =>
      match idxOfStr arr seg with
      | some i =>
          let r := mungeGo rest arr
          (i :: r.1, r.2)
      | none =>
          let r := mungeGo rest (arr ++ [seg])
          (arr.length :: r.1, r.2)

/-- Modelled from the spec (section 4.2.4): `diff_linesToChars`.  The
shared array is indexed from 1 (index 0 holds the empty line). -/
def diff_linesToChars (t1 t2 : Str) : Str × Str × List Str :=
  let r1 := mungeGo (splitLinesKeep t1) [[]]
  let r2 := mungeGo (splitLinesKeep t2) r1.2
  (r1.1, r2.1, r2.2)

/-- Decode a hashed string back to text through the line array. -/
def decodeStr (arr : List Str) (s : Str) : Str :=
  s.flatMap (fun u => arr.getD u [])

/-- Modelled from the spec (section 4.2.4): `diff_charsToLines`
rehydrates each diff payload through the line array. -/
def diff_charsToLines (ds : List Diff) (arr : List Str) : List Diff :=
  ds.map (fun d => ⟨d.fOperation, decodeStr arr d.fText⟩)

/-- Is a code unit an ASCII letter or digit? -/
def isAlnumU (c : Nat) : Bool :=
  (48 ≤ c && c ≤ 57) || (65 ≤ c && c ≤ 90) || (97 ≤ c && c ≤ 122)

/-- Is a code unit whitespace? -/
def isSpaceU (c : Nat) : Bool :=
  c = 32 || c = 9 || c = 10 || c = 13 || c = 11 || c = 12

/-- Does a text end with a blank line (`\n\r?\n` at the end)? -/
def endsBlankLine (s : Str) : Bool :=
  ([10, 10].isSuffixOf s) || ([10, 13, 10].isSuffixOf s)

/-- Does a text start with a blank line (`^\r?\n\r?\n`)? -/
def startsBlankLine (s : Str) : Bool :=
  ([10, 10].isPrefixOf s) || ([10, 13, 10].isPrefixOf s) ||
  ([13, 10, 10].isPrefixOf s) || ([13, 10, 13, 10].isPrefixOf s)

/-- Modelled from the spec (section 4.2.6): `diff_cleanupSemanticScore`
— score 6..0 for how semantically clean the boundary between `one` and
`two` is. -/
def semanticScore (one two : Str) : Nat :=
  match one.getLast?, two.head? with
  | none, _ => 6
  | _, none => 6
  | some c1, some c2 =>
      let na1 := !(isAlnumU c1)
      let na2 := !(isAlnumU c2)
      let ws1 := na1 && isSpaceU c1
      let ws2 := na2 && isSpaceU c2
      let lb1 := ws1 && (c1 = 13 || c1 = 10)
      let lb2 := ws2 && (c2 = 13 || c2 = 10)
      let bl1 := lb1 && endsBlankLine one
      let bl2 := lb2 && startsBlankLine two
      if bl1 || bl2 then 5
      else if lb1 || lb2 then 4
      else if na1 && !ws1 && ws2 then 3
      else if ws1 || ws2 then 2
      else if na1 || na2 then 1
      else 0

/-- One right-shift candidate search of `diff_cleanupSemanticLossless`:
slide the edit right one unit at a time while the first unit of the edit
equals the first unit of the following equality, keeping the best-scoring
split.  The fuel bounds the shifts. -/
def slideBest : Nat → Str → Str → Str → Nat → (Str × Str × Str) → Str × Str × Str
  | 0, _, _, _, _, best => best
  | _ + 1, _, [], _, _, best => best
  | _ + 1, _, _ :: _, [], _, best => best
  | fuel + 1, eq1, e0 :: et, q0 :: qt, bestScore, best =>
      if e0 = q0 then
        if bestScore ≤ semanticScore (eq1 ++ [e0]) (et ++ [q0]) +
            semanticScore (et ++ [q0]) qt then
          slideBest fuel (eq1 ++ [e0]) (et ++ [q0]) qt
            (semanticScore (eq1 ++ [e0]) (et ++ [q0]) + semanticScore (et ++ [q0]) qt)
            (eq1 ++ [e0], et ++ [q0], qt)
        else slideBest fuel (eq1 ++ [e0]) (et ++ [q0]) qt bestScore best
      else best

/-- The best slide of one edit between two equalities: first shift fully
left along the common suffix, then walk right keeping the best semantic
score (ties prefer the rightmost position, as the port's `>=` update
does). -/
def bestSlide (e1 ed e2 : Str) : Str × Str × Str :=
  let k := commonSuffixLength e1 ed
  let commonStr := ed.drop (ed.length - k)
  let eq1 := e1.take (e1.length - k)
  let edit := commonStr ++ ed.take (ed.length - k)
  let eq2 := commonStr ++ e2
  let score0 := semanticScore eq1 edit + semanticScore edit eq2
  slideBest (eq2.length + 1) eq1 edit eq2 score0 (eq1, edit, eq2)

/-- Modelled from the spec (section 4.2.6): the walking pass of
`diff_cleanupSemanticLossless` over a zipper; the fuel bounds the number
of windows. -/
def losslessGo : Nat → List Diff → List Diff → List Diff
  | 0, doneRev, rest => doneRev.reverse ++ rest
  | _ + 1, doneRev, [] => doneRev.reverse
  | _ + 1, doneRev, [d] => doneRev.reverse ++ [d]
  | _ + 1, doneRev, [d, d2] => doneRev.reverse ++ [d, d2]
  | fuel + 1, doneRev, e1 :: ed :: e2 :: tail =>
      if e1.fOperation = EOperation.eEQUAL ∧ e2.fOperation = EOperation.eEQUAL then
        if (bestSlide e1.fText ed.fText e2.fText).1 = e1.fText then
          losslessGo fuel (e1 :: doneRev) (ed :: e2 :: tail)
        else
          if (bestSlide e1.fText ed.fText e2.fText).1 = [] then
            if (bestSlide e1.fText ed.fText e2.fText).2.2 = [] then
              losslessGo fuel doneRev
                ((⟨ed.fOperation, (bestSlide e1.fText ed.fText e2.fText).2.1⟩ : Diff) :: tail)
            else
              losslessGo fuel doneRev
                ((⟨ed.fOperation, (bestSlide e1.fText ed.fText e2.fText).2.1⟩ : Diff) ::
                  (⟨EOperation.eEQUAL, (bestSlide e1.fText ed.fText e2.fText).2.2⟩ : Diff) :: tail)
          else
            if (bestSlide e1.fText ed.fText e2.fText).2.2 = [] then
              losslessGo fuel
                ((⟨EOperation.eEQUAL, (bestSlide e1.fText ed.fText e2.fText).1⟩ : Diff) :: doneRev)
                ((⟨ed.fOperation, (bestSlide e1.fText ed.fText e2.fText).2.1⟩ : Diff) :: tail)
            else
              losslessGo fuel
                ((⟨EOperation.eEQUAL, (bestSlide e1.fText ed.fText e2.fText).1⟩ : Diff) :: doneRev)
                ((⟨ed.fOperation, (bestSlide e1.fText ed.fText e2.fText).2.1⟩ : Diff) ::
                  (⟨EOperation.eEQUAL, (bestSlide e1.fText ed.fText e2.fText).2.2⟩ : Diff) :: tail)
      else losslessGo fuel (e1 :: doneRev) (ed :: e2 :: tail)

/-- Modelled from the spec (section 4.2.6): `diff_cleanupSemanticLossless`. -/
def diff_cleanupSemanticLossless (ds : List Diff) : List Diff :=
  losslessGo ds.length [] ds

/-- The trivial-equality elimination pass of `diff_cleanupSemantic`
(pointer machine with a stack of equality positions and a backtracking
pointer, exactly as the port).  Returns the rewritten list and whether
anything changed. -/
def semElimGo : Nat → List Diff → Nat → List Nat → Option Str →
    Nat → Nat → Nat → Nat → Bool → List Diff × Bool
  | 0, diffs, _, _, _, _, _, _, _, changes => (diffs, changes)
  | fuel + 1, diffs, pointer, eqStack, lastEq, ins1, del1, ins2, del2, changes =>
      match diffs.get? pointer with
      | none => (diffs, changes)
      | some d =>
          if d.fOperation = EOperation.eEQUAL then
            semElimGo fuel diffs (pointer + 1) (pointer :: eqStack) (some d.fText)
              ins2 del2 0 0 changes
          else
            let ins2' := if d.fOperation = EOperation.eINSERT then ins2 + d.fText.length else ins2
            let del2' := if d.fOperation = EOperation.eDELETE then del2 + d.fText.length else del2
            match lastEq with
            | some le =>
                if le.length ≤ max ins1 del1 ∧ le.length ≤ max ins2' del2' then
                  let i := eqStack.headD 0
                  let diffs' := diffs.take i ++
                    [mkDiff EOperation.eDELETE le, mkDiff EOperation.eINSERT le] ++
                    diffs.drop (i + 1)
                  let stack2 := eqStack.drop 2
                  let pointer' := match stack2.head? with
                    | some q => q + 1
                    | none => 0
                  semElimGo fuel diffs' pointer' stack2 none 0 0 0 0 true
                else semElimGo fuel diffs (pointer + 1) eqStack lastEq ins1 del1 ins2' del2' changes
            | none => semElimGo fuel diffs (pointer + 1) eqStack lastEq ins1 del1 ins2' del2' changes

/-- The overlap-extraction pass of `diff_cleanupSemantic`: on each
DELETE immediately followed by INSERT, split out a sufficiently large
overlap as a new EQUAL. -/
def overlapGo : Nat → List Diff → List Diff → List Diff
  | 0, doneRev, rest => doneRev.reverse ++ rest
  | _ + 1, doneRev, [] => doneRev.reverse
  | _ + 1, doneRev, [d] => doneRev.reverse ++ [d]
  | fuel + 1, doneRev, d1 :: d2 :: tail =>
      if d1.fOperation = EOperation.eDELETE ∧ d2.fOperation = EOperation.eINSERT then
        if commonOverlapLength d2.fText d1.fText ≤ commonOverlapLength d1.fText d2.fText then
          if d1.fText.length ≤ 2 * commonOverlapLength d1.fText d2.fText ∨
              d2.fText.length ≤ 2 * commonOverlapLength d1.fText d2.fText then
            overlapGo fuel
              ((⟨EOperation.eINSERT, d2.fText.drop (commonOverlapLength d1.fText d2.fText)⟩ : Diff) ::
                (⟨EOperation.eEQUAL, d2.fText.take (commonOverlapLength d1.fText d2.fText)⟩ : Diff) ::
                (⟨EOperation.eDELETE,
                  d1.fText.take (d1.fText.length - commonOverlapLength d1.fText d2.fText)⟩ : Diff) ::
                doneRev)
              tail
          else overlapGo fuel (d1 :: doneRev) (d2 :: tail)
        else
          if d1.fText.length ≤ 2 * commonOverlapLength d2.fText d1.fText ∨
              d2.fText.length ≤ 2 * commonOverlapLength d2.fText d1.fText then
            overlapGo fuel
              ((⟨EOperation.eDELETE, d1.fText.drop (commonOverlapLength d2.fText d1.fText)⟩ : Diff) ::
                (⟨EOperation.eEQUAL, d1.fText.take (commonOverlapLength d2.fText d1.fText)⟩ : Diff) ::
                (⟨EOperation.eINSERT,
                  d2.fText.take (d2.fText.length - commonOverlapLength d2.fText d1.fText)⟩ : Diff) ::
                doneRev)
              tail
          else overlapGo fuel (d1 :: doneRev) (d2 :: tail)
      else overlapGo fuel (d1 :: doneRev) (d2 :: tail)

/-- Modelled from the spec (section 4.2.6): `diff_cleanupSemantic` —
eliminate trivial equalities, merge, slide losslessly, then extract
overlaps between adjacent DELETE/INSERT pairs. -/
def diff_cleanupSemantic (ds : List Diff) : List Diff :=
  let r := semElimGo (3 * (ds.length + 1) * (ds.length + 1)) ds 0 [] none 0 0 0 0 false
  let ds1 := if r.2 then diff_cleanupMerge r.1 else r.1
  let ds2 := diff_cleanupSemanticLossless ds1
  overlapGo ds2.length [] ds2

/-- One candidate search of `diff_halfMatch` (the port's
`diff_halfMatchI`): around seed position `i` of the longer text, find
the best common region by scanning occurrences of the seed in the
shorter text; the fuel bounds the occurrence scan. -/
def halfMatchIGo (long short : Str) (i : Nat) (seed : Str) :
    Nat → Nat → Option (Nat × Nat × Nat) → Option (Nat × Nat × Nat)
  | 0, _, best => best
  | fuel + 1, from_, best =>
      match indexOfFrom short seed from_ with
      | none => best
      | some j =>
          if (match best with | some b => b.1 + b.2.1 | none => 0) <
              commonSuffixLength (long.take i) (short.take j) +
                commonPrefixLength (long.drop i) (short.drop j) then
            halfMatchIGo long short i seed fuel (j + 1)
              (some (commonSuffixLength (long.take i) (short.take j),
                commonPrefixLength (long.drop i) (short.drop j), j))
          else halfMatchIGo long short i seed fuel (j + 1) best

/-- The result tuple of one half-match candidate: splits of the long and
short texts around the common middle. -/
def halfMatchAt (long short : Str) (i : Nat) : Option (Str × Str × Str × Str × Str) :=
  match halfMatchIGo long short i ((long.drop i).take (long.length / 4))
      (short.length + 2) 0 none with
  | none => none
  | some (s, p, j) =>
      if long.length ≤ 2 * (s + p) then
        some (long.take (i - s), long.drop (i + p), short.take (j - s),
          short.drop ((j - s) + (s + p)), (short.drop (j - s)).take (s + p))
      else none

/-- Modelled from the spec (section 4.2.3): `diff_halfMatch`.  Returns
`(t1_prefix, t1_suffix, t2_prefix, t2_suffix, middle)` when a common
substring of at least half the longer text exists. -/
def halfMatchPick (long short : Str) : Option (Str × Str × Str × Str × Str) :=
  match halfMatchAt long short ((long.length + 3) / 4),
      halfMatchAt long short ((long.length + 1) / 2) with
  | none, none => none
  | some h1, none => some h1
  | none, some h2 => some h2
  | some h1, some h2 =>
      if h2.2.2.2.2.length < h1.2.2.2.2.length then some h1 else some h2

/-- Modelled from the spec (section 4.2.3): `diff_halfMatch` proper —
orient to the longer text, require it to have at least 4 units and at
most twice the shorter's length, pick the better of the two seeded
candidates, and orient the answer back. -/
def diff_halfMatch (t1 t2 : Str) : Option (Str × Str × Str × Str × Str) :=
  if t2.length < t1.length then
    if t1.length < 4 ∨ 2 * t2.length < t1.length then none
    else
      match halfMatchPick t1 t2 with
      | none => none
      | some h => some h
  else
    if t2.length < 4 ∨ 2 * t1.length < t2.length then none
    else
      match halfMatchPick t2 t1 with
      | none => none
      | some h => some (h.2.2.1, h.2.2.2.1, h.1, h.2.1, h.2.2.2.2)

/-- Value of the Myers v-array at an index (default -1 as unset). -/
def vGet (v : List Int) (i : Nat) : Int := v.getD i (-1)

/-- The forward snake walk of `diff_bisect`: extend a diagonal while the
texts agree. -/
def fwdSnake (a b : Str) : Nat → Nat → Nat → Nat × Nat
  | 0, x, y => (x, y)
  | fuel + 1, x, y =>
      match a.get? x, b.get? y with
      | some ca, some cb => if ca = cb then fwdSnake a b fuel (x + 1) (y + 1) else (x, y)
      | _, _ => (x, y)

/-- The reverse snake walk of `diff_bisect`. -/
def revSnake (a b : Str) : Nat → Nat → Nat → Nat × Nat
  | 0, x, y => (x, y)
  | fuel + 1, x, y =>
      if x < a.length ∧ y < b.length then
        match a.get? (a.length - x - 1), b.get? (b.length - y - 1) with
        | some ca, some cb =>
            if ca = cb then revSnake a b fuel (x + 1) (y + 1) else (x, y)
        | _, _ => (x, y)
      else (x, y)

/-- The forward (`k1`) wavefront loop of one `diff_bisect` step.
Returns either a split point or the updated forward v-array and the
start/end trims. -/
def k1Go (a b : Str) (front : Bool) (delta : Int) (v_offset v_length d : Nat)
    (v2 : List Int) :
    Nat → Int → List Int → Nat → Nat → (Nat × Nat) ⊕ (List Int × Nat × Nat)
  | 0, _, v1, k1start, k1end => Sum.inr (v1, k1start, k1end)
  | fuel + 1, k1, v1, k1start, k1end =>
      if (d : Int) - k1end < k1 then Sum.inr (v1, k1start, k1end)
      else
        let k1_offset := ((v_offset : Int) + k1).toNat
        let x1i : Int :=
          if k1 = -(d : Int) ∨ (k1 ≠ (d : Int) ∧ vGet v1 (k1_offset - 1) < vGet v1 (k1_offset + 1))
          then vGet v1 (k1_offset + 1)
          else vGet v1 (k1_offset - 1) + 1
        let snaked := fwdSnake a b a.length x1i.toNat (x1i - k1).toNat
        let x1 := snaked.1
        let y1 := snaked.2
        let v1' := v1.set k1_offset (x1 : Int)
        if a.length < x1 then
          k1Go a b front delta v_offset v_length d v2 fuel (k1 + 2) v1' k1start (k1end + 2)
        else if b.length < y1 then
          k1Go a b front delta v_offset v_length d v2 fuel (k1 + 2) v1' (k1start + 2) k1end
        else if front then
          let k2_offset := (v_offset : Int) + delta - k1
          if 0 ≤ k2_offset ∧ k2_offset < (v_length : Int) ∧ vGet v2 k2_offset.toNat ≠ -1 then
            let x2 := (a.length : Int) - vGet v2 k2_offset.toNat
            if x2 ≤ (x1 : Int) then Sum.inl (x1, y1)
            else k1Go a b front delta v_offset v_length d v2 fuel (k1 + 2) v1' k1start k1end
          else k1Go a b front delta v_offset v_length d v2 fuel (k1 + 2) v1' k1start k1end
        else k1Go a b front delta v_offset v_length d v2 fuel (k1 + 2) v1' k1start k1end

/-- The reverse (`k2`) wavefront loop of one `diff_bisect` step. -/
def k2Go (a b : Str) (front : Bool) (delta : Int) (v_offset v_length d : Nat)
    (v1 : List Int) :
    Nat → Int → List Int → Nat → Nat → (Nat × Nat) ⊕ (List Int × Nat × Nat)
  | 0, _, v2, k2start, k2end => Sum.inr (v2, k2start, k2end)
  | fuel + 1, k2, v2, k2start, k2end =>
      if (d : Int) - k2end < k2 then Sum.inr (v2, k2start, k2end)
      else
        let k2_offset := ((v_offset : Int) + k2).toNat
        let x2i : Int :=
          if k2 = -(d : Int) ∨ (k2 ≠ (d : Int) ∧ vGet v2 (k2_offset - 1) < vGet v2 (k2_offset + 1))
          then vGet v2 (k2_offset + 1)
          else vGet v2 (k2_offset - 1) + 1
        let snaked := revSnake a b a.length x2i.toNat (x2i - k2).toNat
        let x2 := snaked.1
        let y2 := snaked.2
        let v2' := v2.set k2_offset (x2 : Int)
        if a.length < x2 then
          k2Go a b front delta v_offset v_length d v1 fuel (k2 + 2) v2' k2start (k2end + 2)
        else if b.length < y2 then
          k2Go a b front delta v_offset v_length d v1 fuel (k2 + 2) v2' (k2start + 2) k2end
        else if !front then
          let k1_offset := (v_offset : Int) + delta - k2
          if 0 ≤ k1_offset ∧ k1_offset < (v_length : Int) ∧ vGet v1 k1_offset.toNat ≠ -1 then
            let x1 := vGet v1 k1_offset.toNat
            let y1 := (v_offset : Int) + x1 - k1_offset
            let x2m := (a.length : Int) - (x2 : Int)
            if x2m ≤ x1 then Sum.inl (x1.toNat, y1.toNat)
            else k2Go a b front delta v_offset v_length d v1 fuel (k2 + 2) v2' k2start k2end
          else k2Go a b front delta v_offset v_length d v1 fuel (k2 + 2) v2' k2start k2end
        else k2Go a b front delta v_offset v_length d v1 fuel (k2 + 2) v2' k2start k2end

/-- The outer `d` loop of `diff_bisect`: run the forward and reverse
wavefronts until they overlap; `none` means no overlap was found (the
fallback DELETE+INSERT case). -/
def bisectDGo (a b : Str) (front : Bool) (delta : Int) (v_offset v_length max_d : Nat) :
    Nat → Nat → List Int → List Int → Nat → Nat → Nat → Nat → Option (Nat × Nat)
  | 0, _, _, _, _, _, _, _ => none
  | fuel + 1, d, v1, v2, k1start, k1end, k2start, k2end =>
      if max_d ≤ d then none
      else
        match k1Go a b front delta v_offset v_length d v2 (d + 2)
          (-(d : Int) + k1start) v1 k1start k1end with
        | Sum.inl split => some split
        | Sum.inr (v1', k1start', k1end') =>
            match k2Go a b front delta v_offset v_length d v1' (d + 2)
              (-(d : Int) + k2start) v2 k2start k2end with
            | Sum.inl split => some split
            | Sum.inr (v2', k2start', k2end') =>
                bisectDGo a b front delta v_offset v_length max_d fuel (d + 1)
                  v1' v2' k1start' k1end' k2start' k2end'

/-- Modelled from the spec (section 4.2.5): the middle-snake search of
`diff_bisect`; `none` plays the role of running off the end of the `d`
loop. -/
def bisectLoop (a b : Str) : Option (Nat × Nat) :=
  let max_d := (a.length + b.length + 1) / 2
  let v_offset := max_d
  let v_length := 2 * max_d
  let v1 := (List.replicate v_length (-1 : Int)).set (v_offset + 1) 0
  let v2 := (List.replicate v_length (-1 : Int)).set (v_offset + 1) 0
  let delta : Int := (a.length : Int) - (b.length : Int)
  let front := delta % 2 ≠ 0
  bisectDGo a b front delta v_offset v_length max_d (max_d + 1) 0 v1 v2 0 0 0 0

/-- One step of the line-mode re-diff walk (spec section 4.2.4, step e):
runs of DELETE+INSERT are re-diffed at character granularity by the
supplied recursion. -/
def rediffGoWith (rec : Bool → Str → Str → List Diff) :
    List Diff → List Diff → Str → Str → Nat → Nat → List Diff
  | [], runRev, tdel, tins, cd, ci =>
      if 1 ≤ cd ∧ 1 ≤ ci then rec false tdel tins else runRev.reverse
  | d :: rest, runRev, tdel, tins, cd, ci =>
      match d.fOperation with
      | EOperation.eEQUAL =>
          (if 1 ≤ cd ∧ 1 ≤ ci then rec false tdel tins else runRev.reverse) ++
            d :: rediffGoWith rec rest [] [] [] 0 0
      | EOperation.eDELETE =>
          rediffGoWith rec rest (d :: runRev) (tdel ++ d.fText) tins (cd + 1) ci
      | EOperation.eINSERT =>
          rediffGoWith rec rest (d :: runRev) tdel (tins ++ d.fText) cd (ci + 1)

/-- Modelled from the spec (section 4.2.4): `diff_lineMode`, with the
recursion supplied as a parameter. -/
def lineModeWith (rec : Bool → Str → Str → List Diff) (a b : Str) : List Diff :=
  let enc := diff_linesToChars a b
  let diffs0 := rec false enc.1 enc.2.1
  let diffs1 := diff_charsToLines diffs0 enc.2.2
  let diffs2 := diff_cleanupSemantic diffs1
  rediffGoWith rec diffs2 [] [] [] 0 0

/-- Modelled from the spec (section 4.2.5): `diff_bisect` with the
recursion supplied as a parameter — split at the middle snake, or fall
back to a DELETE+INSERT pair. -/
def bisectWith (rec : Bool → Str → Str → List Diff) (a b : Str) : List Diff :=
  match bisectLoop a b with
  | some (x, y) =>
      rec false (a.take x) (b.take y) ++ rec false (a.drop x) (b.drop y)
  | none => [mkDiff EOperation.eDELETE a, mkDiff EOperation.eINSERT b]

/-- Modelled from the spec (section 4.2.2): `diff_compute` with the
recursion supplied as a parameter; `useHM` models a nonzero
`Diff_Timeout` (the half-match speedup is disabled when the timeout is
zero). -/
def computeWith (rec : Bool → Str → Str → List Diff) (useHM checklines : Bool)
    (a b : Str) : List Diff :=
  if a = [] then [mkDiff EOperation.eINSERT b]
  else if b = [] then [mkDiff EOperation.eDELETE a]
  else
    let long := if b.length < a.length then a else b
    let short := if b.length < a.length then b else a
    match indexOfFrom long short 0 with
    | some i =>
        let op := if b.length < a.length then EOperation.eDELETE else EOperation.eINSERT
        [mkDiff op (long.take i), mkDiff EOperation.eEQUAL short,
          mkDiff op (long.drop (i + short.length))]
    | none =>
        if short.length = 1 then [mkDiff EOperation.eDELETE a, mkDiff EOperation.eINSERT b]
        else
          match (if useHM then diff_halfMatch a b else none) with
          | some hm =>
              rec checklines hm.1 hm.2.2.1 ++
                mkDiff EOperation.eEQUAL hm.2.2.2.2 ::
                  rec checklines hm.2.1 hm.2.2.2.1
          | none =>
              if checklines ∧ 100 < a.length ∧ 100 < b.length then
                lineModeWith rec a b
              else bisectWith rec a b

/-- Modelled from the spec (section 4.2.1): `diff_main` body with the
recursion supplied as a parameter — identical shortcut, common
prefix/suffix stripping, interior compute, and the final merge
cleanup. -/
def mainBodyWith (rec : Bool → Str → Str → List Diff) (useHM checklines : Bool)
    (t1 t2 : Str) : List Diff :=
  if t1 = t2 then (if t1 = [] then [] else [mkDiff EOperation.eEQUAL t1])
  else
    let p := commonPrefixLength t1 t2
    let cp := t1.take p
    let a := t1.drop p
    let b := t2.drop p
    let s := commonSuffixLength a b
    let cs := a.drop (a.length - s)
    let a' := a.take (a.length - s)
    let b' := b.take (b.length - s)
    let mid := computeWith rec useHM checklines a' b'
    diff_cleanupMerge
      ((if cp = [] then [] else [mkDiff EOperation.eEQUAL cp]) ++ mid ++
        (if cs = [] then [] else [mkDiff EOperation.eEQUAL cs]))

/-- The fueled recursive diff engine; exhausting the fuel degrades to
the spec's timeout fallback (a DELETE of all of `t1` plus an INSERT of
all of `t2`). -/
def dmRec (useHM : Bool) : Nat → Bool → Str → Str → List Diff
  | 0, _, t1, t2 => [mkDiff EOperation.eDELETE t1, mkDiff EOperation.eINSERT t2]
  | fuel + 1, checklines, t1, t2 =>
      mainBodyWith (fun cl a b => dmRec useHM fuel cl a b) useHM checklines t1 t2

/-- Modelled from the spec (section 4.2.1): `diff_main` with the default
configuration (nonzero timeout, line-mode enabled). -/
def diff_main (t1 t2 : Str) : List Diff :=
  dmRec true (t1.length + t2.length + 2) true t1 t2

/-- Modelled from the spec (sections 4.4 and 6): `patch_deepCopy` — an
elementwise structural clone of a patch list (every diff node and every
field is rebuilt). -/
def patch_deepCopy (ps : List Patch) : List Patch :=
  ps.map (fun p =>
    ⟨p.diffs.map (fun d => ⟨d.fOperation, d.fText⟩),
      p.start1, p.start2, p.length1, p.length2⟩)

/-- Accumulator walk of `diff_levenshtein` (spec section 4.2.8): sum of
`max(insertions, deletions)` per run of edits, reset at each EQUAL. -/
def levGo : List Diff → Nat → Nat → Nat → Nat
  | [], lev, ins, del => lev + max ins del
  | d :: rest, lev, ins, del =>
      match d.fOperation with
      | EOperation.eINSERT => levGo rest lev (ins + d.fText.length) del
      | EOperation.eDELETE => levGo rest lev ins (del + d.fText.length)
      | EOperation.eEQUAL => levGo rest (lev + max ins del) 0 0

/-- Modelled from the spec (section 4.2.8): `diff_levenshtein`. -/
def diff_levenshtein (ds : List Diff) : Nat := levGo ds 0 0 0

/-- Scanning walk of `diff_xIndex` (spec section 4.2.8): accumulate
source/destination positions, stopping at the diff that overruns
`loc`. -/
def xIndexGo : List Diff → Nat → Nat → Nat → Nat → Nat → Nat
  | [], loc, _, _, lastC1, lastC2 => lastC2 + (loc - lastC1)
  | d :: rest, loc, c1, c2, lastC1, lastC2 =>
      if loc < (if d.fOperation = EOperation.eINSERT then c1 else c1 + d.fText.length) then
        (if d.fOperation = EOperation.eDELETE then lastC2 else lastC2 + (loc - lastC1))
      else
        xIndexGo rest loc
          (if d.fOperation = EOperation.eINSERT then c1 else c1 + d.fText.length)
          (if d.fOperation = EOperation.eDELETE then c2 else c2 + d.fText.length)
          (if d.fOperation = EOperation.eINSERT then c1 else c1 + d.fText.length)
          (if d.fOperation = EOperation.eDELETE then c2 else c2 + d.fText.length)

/-- Modelled from the spec (section 4.2.8): `diff_xIndex` — map a source
position to the corresponding destination position; a position inside a
DELETE maps to the start of that deletion in the destination. -/
def diff_xIndex (ds : List Diff) (loc : Nat) : Nat := xIndexGo ds loc 0 0 0 0

/-- The candidate context pattern of `patch_addContext`: the slice of
`text` from `start2 - padding` to `start2 + length1 + padding`. -/
def patchPattern (text : Str) (start2 length1 padding : Nat) : Str :=
  (text.drop (start2 - padding)).take (start2 + length1 + padding - (start2 - padding))

/-- The context growth loop of `patch_addContext` (spec section 4.4.2):
grow the window while the pattern is ambiguous in `text` and still
shorter than `maxBits - 2 * margin`. -/
def addContextLoop (margin maxBits : Nat) (text : Str) (start2 length1 : Nat) :
    Nat → Nat → Nat
  | 0, padding => padding
  | fuel + 1, padding =>
      if indexOfFrom text (patchPattern text start2 length1 padding) 0 ≠
            lastIndexOfFrom text (patchPattern text start2 length1 padding) text.length ∧
          (patchPattern text start2 length1 padding).length < maxBits - 2 * margin then
        addContextLoop margin maxBits text start2 length1 fuel (padding + margin)
      else padding

/-- Modelled from the spec (section 4.4.2): `patch_addContext` — prepend
and append EQUAL context of the final padding width, adjusting starts
and lengths. -/
def patch_addContext (margin maxBits : Nat) (text : Str) (p : Patch) : Patch :=
  if text = [] then p
  else
    let padding := addContextLoop margin maxBits text p.start2 p.length1
      (text.length + 1) 0 + margin
    let pre := (text.drop (p.start2 - padding)).take (p.start2 - (p.start2 - padding))
    let suf := (text.drop (p.start2 + p.length1)).take padding
    ⟨(if pre = [] then [] else [mkDiff EOperation.eEQUAL pre]) ++ p.diffs ++
        (if suf = [] then [] else [mkDiff EOperation.eEQUAL suf]),
      p.start1 - pre.length, p.start2 - pre.length,
      p.length1 + pre.length + suf.length, p.length2 + pre.length + suf.length⟩

/-- The per-diff opening step of `patch_make` (spec section 4.4.1): the
first non-EQUAL diff fixes the patch's start coordinates. -/
def pmOpen (cur : Patch) (op : EOperation) (cc1 cc2 : Nat) : Patch :=
  if cur.diffs = [] ∧ op ≠ EOperation.eEQUAL then
    ⟨cur.diffs, cc1, cc2, cur.length1, cur.length2⟩
  else cur

/-- The short-EQUAL extension step of `patch_make` (spec section 4.4.1). -/
def pmExtend (margin : Nat) (cur : Patch) (d : Diff) (rest : List Diff) : Patch :=
  if d.fText.length ≤ 2 * margin ∧ cur.diffs ≠ [] ∧ rest ≠ [] then
    ⟨cur.diffs ++ [d], cur.start1, cur.start2, cur.length1 + d.fText.length,
      cur.length2 + d.fText.length⟩
  else cur

/-- The main walk of `patch_make` (spec section 4.4.1): maintain running
positions in both texts, open a patch on the first non-EQUAL, extend
with edits and short EQUALs, close on a long EQUAL or at the end. -/
def pmGo (margin maxBits : Nat) :
    List Diff → List Patch → Patch → Nat → Nat → Str → Str → List Patch
  | [], acc, cur, _, _, pre, _ =>
      if cur.diffs = [] then acc.reverse
      else (patch_addContext margin maxBits pre cur :: acc).reverse
  | d :: rest, acc, cur, cc1, cc2, pre, post =>
      match d.fOperation with
      | EOperation.eINSERT =>
          pmGo margin maxBits rest acc
            ⟨(pmOpen cur EOperation.eINSERT cc1 cc2).diffs ++ [d],
              (pmOpen cur EOperation.eINSERT cc1 cc2).start1,
              (pmOpen cur EOperation.eINSERT cc1 cc2).start2,
              (pmOpen cur EOperation.eINSERT cc1 cc2).length1,
              (pmOpen cur EOperation.eINSERT cc1 cc2).length2 + d.fText.length⟩
            cc1 (cc2 + d.fText.length) pre
            (post.take cc2 ++ d.fText ++ post.drop cc2)
      | EOperation.eDELETE =>
          pmGo margin maxBits rest acc
            ⟨(pmOpen cur EOperation.eDELETE cc1 cc2).diffs ++ [d],
              (pmOpen cur EOperation.eDELETE cc1 cc2).start1,
              (pmOpen cur EOperation.eDELETE cc1 cc2).start2,
              (pmOpen cur EOperation.eDELETE cc1 cc2).length1 + d.fText.length,
              (pmOpen cur EOperation.eDELETE cc1 cc2).length2⟩
            (cc1 + d.fText.length) cc2 pre
            (post.take cc2 ++ post.drop (cc2 + d.fText.length))
      | EOperation.eEQUAL =>
          if 2 * margin ≤ d.fText.length ∧ (pmExtend margin cur d rest).diffs ≠ [] then
            pmGo margin maxBits rest
              (patch_addContext margin maxBits pre (pmExtend margin cur d rest) :: acc)
              ⟨[], 0, 0, 0, 0⟩ (cc2 + d.fText.length) (cc2 + d.fText.length) post post
          else
            pmGo margin maxBits rest acc (pmExtend margin cur d rest)
              (cc1 + d.fText.length) (cc2 + d.fText.length) pre post

/-- Modelled from the spec (section 4.4.1): `patch_make` from a source
text and a diff list. -/
def patch_make_core (margin maxBits : Nat) (text1 : Str) (diffs : List Diff) :
    List Patch :=
  if diffs = [] then [] else pmGo margin maxBits diffs [] ⟨[], 0, 0, 0, 0⟩ 0 0 text1 text1

/-- Modelled from the spec (section 4.4.1): the two-text overload of
`patch_make` — diff the texts (`useHM` models a nonzero `Diff_Timeout`),
apply the semantic cleanup, then build patches with the default margin 4
and `match_max_bits` 32. -/
def patch_make (useHM : Bool) (t1 t2 : Str) : List Patch :=
  patch_make_core 4 32 t1
    (diff_cleanupSemantic (dmRec useHM (t1.length + t2.length + 2) true t1 t2))

/-- Append postcontext to a hunk's diffs, merging into a trailing EQUAL
(spec section 4.4.3). -/
def appendPostcontext (ds : List Diff) (post : Str) : List Diff :=
  match ds.reverse with
  | [] => [mkDiff EOperation.eEQUAL post]
  | d :: rest =>
      if d.fOperation = EOperation.eEQUAL then
        (mkDiff EOperation.eEQUAL (d.fText ++ post) :: rest).reverse
      else ds ++ [mkDiff EOperation.eEQUAL post]

/-- The hunk-filling inner loop of `patch_splitMax` (spec section 4.4.3):
consume diffs (slicing oversized ones) while the hunk stays under
`maxBits - margin` source length; a whole oversized DELETE right after
the leading context is taken in one piece. -/
def splitInner (margin maxBits : Nat) :
    Nat → List Diff → Patch → Nat → Nat → Bool →
      Patch × List Diff × Nat × Nat × Bool
  | 0, bdiffs, p, s1, s2, empty => (p, bdiffs, s1, s2, empty)
  | _ + 1, [], p, s1, s2, empty => (p, [], s1, s2, empty)
  | fuel + 1, d :: rest, p, s1, s2, empty =>
      if maxBits - margin ≤ p.length1 then (p, d :: rest, s1, s2, empty)
      else
        match d.fOperation with
        | EOperation.eINSERT =>
            splitInner margin maxBits fuel rest
              ⟨p.diffs ++ [d], p.start1, p.start2, p.length1,
                p.length2 + d.fText.length⟩
              s1 (s2 + d.fText.length) false
        | EOperation.eDELETE =>
            if p.diffs.length = 1 ∧
                (p.diffs.headD (mkDiff EOperation.eINSERT [])).fOperation =
                  EOperation.eEQUAL ∧
                2 * maxBits < d.fText.length then
              splitInner margin maxBits fuel rest
                ⟨p.diffs ++ [d], p.start1, p.start2,
                  p.length1 + d.fText.length, p.length2⟩
                (s1 + d.fText.length) s2 false
            else
              splitInner margin maxBits fuel
                (if d.fText.take (maxBits - p.length1 - margin) = d.fText then rest
                 else mkDiff EOperation.eDELETE
                   (d.fText.drop (d.fText.take (maxBits - p.length1 - margin)).length)
                     :: rest)
                ⟨p.diffs ++
                    [mkDiff EOperation.eDELETE
                      (d.fText.take (maxBits - p.length1 - margin))],
                  p.start1, p.start2,
                  p.length1 + (d.fText.take (maxBits - p.length1 - margin)).length,
                  p.length2⟩
                (s1 + (d.fText.take (maxBits - p.length1 - margin)).length) s2 false
        | EOperation.eEQUAL =>
            splitInner margin maxBits fuel
              (if d.fText.take (maxBits - p.length1 - margin) = d.fText then rest
               else mkDiff EOperation.eEQUAL
                 (d.fText.drop (d.fText.take (maxBits - p.length1 - margin)).length)
                   :: rest)
              ⟨p.diffs ++
                  [mkDiff EOperation.eEQUAL
                    (d.fText.take (maxBits - p.length1 - margin))],
                p.start1, p.start2,
                p.length1 + (d.fText.take (maxBits - p.length1 - margin)).length,
                p.length2 + (d.fText.take (maxBits - p.length1 - margin)).length⟩
              (s1 + (d.fText.take (maxBits - p.length1 - margin)).length)
              (s2 + (d.fText.take (maxBits - p.length1 - margin)).length)
              empty

/-- The hunk-producing outer loop of `patch_splitMax` (spec section
4.4.3): build successive hunks, each starting with the `margin`-sized
tail of the previous hunk's destination text as leading context and
closed with up to `margin` source code units of trailing context. -/
def splitBig (margin maxBits : Nat) :
    Nat → List Diff → Nat → Nat → Str → List Patch → List Patch
  | 0, _, _, _, _, acc => acc.reverse
  | fuel + 1, bdiffs, start1, start2, precontext, acc =>
      if bdiffs = [] then acc.reverse
      else
        match splitInner margin maxBits (fuel + 1) bdiffs
            (if precontext = [] then ⟨[], start1, start2, 0, 0⟩
             else ⟨[mkDiff EOperation.eEQUAL precontext],
               start1 - precontext.length, start2 - precontext.length,
               precontext.length, precontext.length⟩)
            start1 start2 true with
        | (p1, rest1, s1a, s2a, empty) =>
            splitBig margin maxBits fuel rest1 s1a s2a
              ((diff_text2 p1.diffs).drop ((diff_text2 p1.diffs).length - margin))
              (if empty then acc
               else (if (diff_text1 rest1).take margin = [] then p1
                 else ⟨appendPostcontext p1.diffs ((diff_text1 rest1).take margin),
                   p1.start1, p1.start2,
                   p1.length1 + ((diff_text1 rest1).take margin).length,
                   p1.length2 + ((diff_text1 rest1).take margin).length⟩) :: acc)

/-- Modelled from the spec (section 4.4.3): `patch_splitMax` — split any
hunk whose source length exceeds `maxBits`. -/
def patch_splitMax (margin maxBits : Nat) (ps : List Patch) : List Patch :=
  ps.flatMap (fun p =>
    if p.length1 ≤ maxBits then [p]
    else splitBig margin maxBits
      ((p.diffs.map (fun d => d.fText.length)).sum + p.diffs.length + 1)
      p.diffs p.start1 p.start2 [] [])

/-- The padding string of `patch_addPadding` (spec section 4.4.4): the
code points 1, 2, ..., margin. -/
def nullPadding (margin : Nat) : Str := (List.range margin).map (fun i => i + 1)

/-- Pad the leading edge of the first patch (spec section 4.4.4). -/
def padFirstPatch (margin : Nat) (pad : Str) (p : Patch) : Patch :=
  match p.diffs with
  | [] =>
      ⟨[mkDiff EOperation.eEQUAL pad], p.start1 - margin, p.start2 - margin,
        p.length1 + margin, p.length2 + margin⟩
  | d :: rest =>
      if d.fOperation ≠ EOperation.eEQUAL then
        ⟨mkDiff EOperation.eEQUAL pad :: d :: rest, p.start1 - margin,
          p.start2 - margin, p.length1 + margin, p.length2 + margin⟩
      else if d.fText.length < margin then
        ⟨mkDiff EOperation.eEQUAL (pad.drop d.fText.length ++ d.fText) :: rest,
          p.start1 - (margin - d.fText.length), p.start2 - (margin - d.fText.length),
          p.length1 + (margin - d.fText.length), p.length2 + (margin - d.fText.length)⟩
      else p

/-- Pad the trailing edge of the last patch (spec section 4.4.4). -/
def padLastPatch (margin : Nat) (pad : Str) (p : Patch) : Patch :=
  match p.diffs.reverse with
  | [] =>
      ⟨[mkDiff EOperation.eEQUAL pad], p.start1, p.start2,
        p.length1 + margin, p.length2 + margin⟩
  | d :: rest =>
      if d.fOperation ≠ EOperation.eEQUAL then
        ⟨p.diffs ++ [mkDiff EOperation.eEQUAL pad], p.start1, p.start2,
          p.length1 + margin, p.length2 + margin⟩
      else if d.fText.length < margin then
        ⟨(mkDiff EOperation.eEQUAL
            (d.fText ++ pad.take (margin - d.fText.length)) :: rest).reverse,
          p.start1, p.start2,
          p.length1 + (margin - d.fText.length), p.length2 + (margin - d.fText.length)⟩
      else p

/-- Apply a function to the first element of a patch list. -/
def mapFirst (f : Patch → Patch) : List Patch → List Patch
  | [] => []
  | q :: qs => f q :: qs

/-- Apply a function to the last element of a patch list. -/
def mapLast (f : Patch → Patch) (l : List Patch) : List Patch :=
  match l.reverse with
  | [] => []
  | q :: qs => (f q :: qs).reverse

/-- Modelled from the spec (section 4.4.4): `patch_addPadding` — shift
every patch by `margin`, pad the two edges, and return the padding
string together with the transformed list. -/
def patch_addPadding (margin : Nat) (ps : List Patch) : Str × List Patch :=
  (nullPadding margin,
    mapLast (padLastPatch margin (nullPadding margin))
      (mapFirst (padFirstPatch margin (nullPadding margin))
        (ps.map (fun p => ⟨p.diffs, p.start1 + margin, p.start2 + margin,
          p.length1, p.length2⟩))))

/-- The positional application walk of `patch_apply` step 2e (spec
section 4.4.5): apply each diff of the patch to `text` at positions
mapped through `diff_xIndex` over the framework diff. -/
def applyDiffsGo (sl : Nat) (frame : List Diff) :
    List Diff → Str → Nat → Str
  | [], text, _ => text
  | d :: rest, text, index1 =>
      match d.fOperation with
      | EOperation.eEQUAL => applyDiffsGo sl frame rest text (index1 + d.fText.length)
      | EOperation.eINSERT =>
          applyDiffsGo sl frame rest
            (text.take (sl + diff_xIndex frame index1) ++ d.fText ++
              text.drop (sl + diff_xIndex frame index1))
            (index1 + d.fText.length)
      | EOperation.eDELETE =>
          applyDiffsGo sl frame rest
            (text.take (sl + diff_xIndex frame index1) ++
              text.drop (sl + diff_xIndex frame (index1 + d.fText.length)))
            index1

/-- The per-patch loop of `patch_apply` (spec section 4.4.5, step 2):
locate each hunk with `match_main` (head/tail searches for oversized
hunks), then splice — directly on an exact extract, positionally through
a framework diff otherwise; failures update the running drift. -/
def applyLoopGo (tn td dist dtn dtd maxBits : Nat) :
    List Patch → Str → Int → List Bool → Str × List Bool
  | [], text, _, acc => (text, acc.reverse)
  | p :: rest, text, delta, acc =>
      let expected : Int := (p.start2 : Int) + delta
      let t1 := diff_text1 p.diffs
      let se : Int × Option Int :=
        if maxBits < t1.length then
          if match_main tn td dist text (t1.take maxBits) expected.toNat = -1 then
            (-1, none)
          else
            if match_main tn td dist text (t1.drop (t1.length - maxBits))
                  (expected + (t1.length : Int) - (maxBits : Int)).toNat = -1 ∨
                match_main tn td dist text (t1.drop (t1.length - maxBits))
                  (expected + (t1.length : Int) - (maxBits : Int)).toNat ≤
                  match_main tn td dist text (t1.take maxBits) expected.toNat then
              (-1, none)
            else
              (match_main tn td dist text (t1.take maxBits) expected.toNat,
                some (match_main tn td dist text (t1.drop (t1.length - maxBits))
                  (expected + (t1.length : Int) - (maxBits : Int)).toNat))
        else (match_main tn td dist text t1 expected.toNat, none)
      if se.1 = -1 then
        applyLoopGo tn td dist dtn dtd maxBits rest text
          (delta - ((p.length2 : Int) - (p.length1 : Int))) (false :: acc)
      else
        let sl := se.1.toNat
        let t2ex := match se.2 with
          | none => (text.drop sl).take t1.length
          | some el => (text.drop sl).take (el.toNat + maxBits - sl)
        if t1 = t2ex then
          applyLoopGo tn td dist dtn dtd maxBits rest
            (text.take sl ++ diff_text2 p.diffs ++ text.drop (sl + t1.length))
            (se.1 - expected) (true :: acc)
        else
          if maxBits < t1.length ∧
              dtn * t1.length <
                diff_levenshtein (dmRec true (t1.length + t2ex.length + 2) false
                  t1 t2ex) * dtd then
            applyLoopGo tn td dist dtn dtd maxBits rest text
              (se.1 - expected) (false :: acc)
          else
            applyLoopGo tn td dist dtn dtd maxBits rest
              (applyDiffsGo sl
                (diff_cleanupSemanticLossless
                  (dmRec true (t1.length + t2ex.length + 2) false t1 t2ex))
                p.diffs text 0)
              (se.1 - expected) (true :: acc)

/-- Modelled from the spec (section 4.4.5): `patch_apply` — clone the
patches, pad, split oversized hunks, apply each hunk fuzzily, and strip
the padding.  `(tn, td)` is `Match_Threshold`, `dist` is
`Match_Distance`, `(dtn, dtd)` is `Patch_DeleteThreshold` as exact
fractions; `margin` and `maxBits` are `Patch_Margin` and
`Match_MaxBits`. -/
def patch_apply (tn td dist dtn dtd margin maxBits : Nat)
    (patches : List Patch) (text : Str) : Str × List Bool :=
  if patches = [] then (text, [])
  else
    match patch_addPadding margin (patch_deepCopy patches) with
    | (pad, padded) =>
        match applyLoopGo tn td dist dtn dtd maxBits
            (patch_splitMax margin maxBits padded) (pad ++ text ++ pad) 0 [] with
        | (ftext, res) =>
            ((ftext.drop pad.length).take (ftext.length - 2 * pad.length), res)

/-- The caller-side view of a `patch_apply` call (spec section 4.4.5,
step 1, and the by-value `patches` parameter of the header's line 652):
the caller's stored patch list is passed by value, the callee transforms
only its clone, and the call returns the caller's store alongside the
result. -/
def patch_applyOn (tn td dist dtn dtd margin maxBits : Nat)
    (store : List Patch) (text : Str) : List Patch × Str × List Bool :=
  (store, patch_apply tn td dist dtn dtd margin maxBits store text)

-- ===================================================================
-- THEOREMS
-- ===================================================================

theorem diff_text1_append (l1 l2 : List Diff) :
    diff_text1 (l1 ++ l2) = diff_text1 l1 ++ diff_text1 l2 := by
  induction l1 with
  | nil => simp [diff_text1]
  | cons d ds ih => simp [diff_text1, ih]

theorem diff_text2_append (l1 l2 : List Diff) :
    diff_text2 (l1 ++ l2) = diff_text2 l1 ++ diff_text2 l2 := by
  induction l1 with
  | nil => simp [diff_text2]
  | cons d ds ih => simp [diff_text2, ih]

theorem commonPrefixLength_le_left : ∀ a b : Str, commonPrefixLength a b ≤ a.length := by
  intro a
  induction a with
  | nil => intro b; cases b <;> simp [commonPrefixLength]
  | cons x xs ih =>
      intro b
      cases b with
      | nil => simp [commonPrefixLength]
      | cons y ys =>
          simp only [commonPrefixLength]
          split
          · simpa using Nat.succ_le_succ (ih ys)
          · simp

theorem commonPrefixLength_le_right : ∀ a b : Str, commonPrefixLength a b ≤ b.length := by
  intro a
  induction a with
  | nil => intro b; cases b <;> simp [commonPrefixLength]
  | cons x xs ih =>
      intro b
      cases b with
      | nil => simp [commonPrefixLength]
      | cons y ys =>
          simp only [commonPrefixLength]
          split
          · simpa using Nat.succ_le_succ (ih ys)
          · simp

theorem commonPrefixLength_take : ∀ a b : Str,
    a.take (commonPrefixLength a b) = b.take (commonPrefixLength a b) := by
  intro a
  induction a with
  | nil => intro b; cases b <;> simp [commonPrefixLength]
  | cons x xs ih =>
      intro b
      cases b with
      | nil => simp [commonPrefixLength]
      | cons y ys =>
          simp only [commonPrefixLength]
          split
          · next hxy => simp [List.take_succ_cons, hxy, ih ys]
          · simp

theorem commonSuffixLength_le_left (a b : Str) : commonSuffixLength a b ≤ a.length := by
  simpa using commonPrefixLength_le_left a.reverse b.reverse

theorem commonSuffixLength_le_right (a b : Str) : commonSuffixLength a b ≤ b.length := by
  simpa using commonPrefixLength_le_right a.reverse b.reverse

theorem drop_sub_eq_reverse_take (a : Str) (s : Nat) :
    a.drop (a.length - s) = (a.reverse.take s).reverse := by
  rw [List.reverse_take]
  simp

theorem commonSuffixLength_drop (a b : Str) :
    a.drop (a.length - commonSuffixLength a b) =
    b.drop (b.length - commonSuffixLength a b) := by
  rw [drop_sub_eq_reverse_take, drop_sub_eq_reverse_take, commonSuffixLength,
    commonPrefixLength_take a.reverse b.reverse]

theorem pushOp_text1 (acc : List Diff) (op : EOperation) (t : Str) :
    diff_text1 (pushOp acc op t).reverse =
      diff_text1 acc.reverse ++ (if op = EOperation.eINSERT then [] else t) := by
  unfold pushOp
  split
  · next ht => subst ht; simp
  · next ht =>
      cases acc with
      | nil => simp [diff_text1]
      | cons d rest =>
          simp only []
          split
          · next hop =>
              subst hop
              simp [diff_text1_append, diff_text1]
              split <;> simp
          · next hop =>
              simp [diff_text1_append, diff_text1]

theorem pushOp_text2 (acc : List Diff) (op : EOperation) (t : Str) :
    diff_text2 (pushOp acc op t).reverse =
      diff_text2 acc.reverse ++ (if op = EOperation.eDELETE then [] else t) := by
  unfold pushOp
  split
  · next ht => subst ht; simp
  · next ht =>
      cases acc with
      | nil => simp [diff_text2]
      | cons d rest =>
          simp only []
          split
          · next hop =>
              subst hop
              simp [diff_text2_append, diff_text2]
              split <;> simp
          · next hop =>
              simp [diff_text2_append, diff_text2]

theorem take_drop_factor (td ti : Str) (p s : Nat)
    (h1 : ti.take p = td.take p)
    (h2 : (ti.drop p).drop ((ti.drop p).length - s) =
          (td.drop p).drop ((td.drop p).length - s)) :
    ti.take p ++ ((td.drop p).take ((td.drop p).length - s) ++
      (ti.drop p).drop ((ti.drop p).length - s)) = td := by
  rw [h1, h2, List.take_append_drop, List.take_append_drop]

theorem take_drop_factor' (ti : Str) (p s : Nat) :
    ti.take p ++ ((ti.drop p).take ((ti.drop p).length - s) ++
      (ti.drop p).drop ((ti.drop p).length - s)) = ti := by
  rw [List.take_append_drop, List.take_append_drop]

theorem flushGroup_text1 (acc : List Diff) (td ti t : Str) :
    diff_text1 (flushGroup acc td ti t).reverse = diff_text1 acc.reverse ++ (td ++ t) := by
  unfold flushGroup
  split
  · simp only [pushOp_text1, reduceIte, List.append_nil]
    conv_rhs => rw [← take_drop_factor td ti (commonPrefixLength ti td)
      (commonSuffixLength (ti.drop (commonPrefixLength ti td))
        (td.drop (commonPrefixLength ti td)))
      (commonPrefixLength_take ti td)
      (commonSuffixLength_drop (ti.drop (commonPrefixLength ti td))
        (td.drop (commonPrefixLength ti td)))]
    simp [List.append_assoc]
  · simp only [pushOp_text1, reduceIte, List.append_nil]
    simp [List.append_assoc]

theorem take_take_drop_chain (ti : Str) (p k : Nat) (t : Str) :
    ti.take p ++ ((ti.drop p).take k ++ (ti.drop (p + k) ++ t)) = ti ++ t := by
  have h2 : (ti.drop p).drop k = ti.drop (p + k) := by
    rw [List.drop_drop, Nat.add_comm]
  rw [← h2, ← List.append_assoc ((ti.drop p).take k), List.take_append_drop,
    ← List.append_assoc, List.take_append_drop]

theorem flushGroup_text2 (acc : List Diff) (td ti t : Str) :
    diff_text2 (flushGroup acc td ti t).reverse = diff_text2 acc.reverse ++ (ti ++ t) := by
  unfold flushGroup
  split
  · simp only [pushOp_text2, reduceIte, List.append_nil]
    simp [List.append_assoc]
    rw [take_take_drop_chain]
  · simp only [pushOp_text2, reduceIte, List.append_nil]
    simp [List.append_assoc]

theorem mergePass_text1 : ∀ (l : List Diff) (acc : List Diff) (td ti : Str),
    diff_text1 (mergePass acc td ti l) = diff_text1 acc.reverse ++ td ++ diff_text1 l := by
  intro l
  induction l with
  | nil =>
      intro acc td ti
      simp [mergePass, flushGroup_text1, diff_text1]
  | cons d rest ih =>
      intro acc td ti
      cases hop : d.fOperation with
      | eDELETE =>
          simp only [mergePass, hop, diff_text1, ih, List.append_assoc]
          simp [hop]
      | eINSERT =>
          simp only [mergePass, hop, diff_text1, ih, List.append_assoc]
          simp [hop]
      | eEQUAL =>
          simp only [mergePass, hop]
          split
          · next hte =>
              simp only [ih, diff_text1, hop, hte]
              simp
          · next hte =>
              simp only [ih, flushGroup_text1, diff_text1, hop]
              simp [List.append_assoc]

theorem mergePass_text2 : ∀ (l : List Diff) (acc : List Diff) (td ti : Str),
    diff_text2 (mergePass acc td ti l) = diff_text2 acc.reverse ++ ti ++ diff_text2 l := by
  intro l
  induction l with
  | nil =>
      intro acc td ti
      simp [mergePass, flushGroup_text2, diff_text2]
  | cons d rest ih =>
      intro acc td ti
      cases hop : d.fOperation with
      | eDELETE =>
          simp only [mergePass, hop, diff_text2, ih, List.append_assoc]
          simp [hop]
      | eINSERT =>
          simp only [mergePass, hop, diff_text2, ih, List.append_assoc]
          simp [hop]
      | eEQUAL =>
          simp only [mergePass, hop]
          split
          · next hte =>
              simp only [ih, diff_text2, hop, hte]
              simp
          · next hte =>
              simp only [ih, flushGroup_text2, diff_text2, hop]
              simp [List.append_assoc]

theorem suffix_take_decomp {a x : Str} (h : a <:+ x) :
    x.take (x.length - a.length) ++ a = x := by
  obtain ⟨t, rfl⟩ := h
  simp

theorem prefix_drop_decomp {b x : Str} (h : b <+: x) :
    b ++ x.drop b.length = x := by
  obtain ⟨t, rfl⟩ := h
  simp

theorem slideGo_text1 : ∀ (fuel : Nat) (l : List Diff),
    diff_text1 (slideGo fuel l).1 = diff_text1 l := by
  intro fuel
  induction fuel with
  | zero => intro l; rfl
  | succ f ih =>
      intro l
      match l with
      | [] => rfl
      | [d1] => rfl
      | [d1, d2] => rfl
      | a :: x :: b :: rest =>
          simp only [slideGo]
          split
          · next hcond =>
              split
              · next hsuf =>
                  obtain ⟨pre, hpre⟩ := List.isSuffixOf_iff_suffix.1 hsuf
                  simp only [diff_text1]
                  rw [ih]
                  simp only [diff_text1]
                  rcases hcond with ⟨ha, hb, hx⟩
                  cases hopx : x.fOperation with
                  | eEQUAL => exact absurd hopx hx
                  | eINSERT => simp [hopx, ha, hb, List.append_assoc]
                  | eDELETE =>
                      simp only [hopx, ha, hb, reduceIte]
                      rw [← hpre]
                      simp [List.append_assoc]
              · split
                · next hpref =>
                    obtain ⟨suf, hsuf2⟩ := List.isPrefixOf_iff_prefix.1 hpref
                    rw [ih]
                    simp only [diff_text1]
                    rcases hcond with ⟨ha, hb, hx⟩
                    cases hopx : x.fOperation with
                    | eEQUAL => exact absurd hopx hx
                    | eINSERT => simp [hopx, ha, hb, List.append_assoc]
                    | eDELETE =>
                        simp only [hopx, ha, hb, reduceIte]
                        rw [← hsuf2]
                        simp [List.append_assoc]
                · simp only [diff_text1]
                  rw [ih]
                  simp only [diff_text1]
          · simp only [diff_text1]
            rw [ih]
            simp only [diff_text1]

theorem slideGo_text2 : ∀ (fuel : Nat) (l : List Diff),
    diff_text2 (slideGo fuel l).1 = diff_text2 l := by
  intro fuel
  induction fuel with
  | zero => intro l; rfl
  | succ f ih =>
      intro l
      match l with
      | [] => rfl
      | [d1] => rfl
      | [d1, d2] => rfl
      | a :: x :: b :: rest =>
          simp only [slideGo]
          split
          · next hcond =>
              split
              · next hsuf =>
                  obtain ⟨pre, hpre⟩ := List.isSuffixOf_iff_suffix.1 hsuf
                  simp only [diff_text2]
                  rw [ih]
                  simp only [diff_text2]
                  rcases hcond with ⟨ha, hb, hx⟩
                  cases hopx : x.fOperation with
                  | eEQUAL => exact absurd hopx hx
                  | eDELETE => simp [hopx, ha, hb, List.append_assoc]
                  | eINSERT =>
                      simp only [hopx, ha, hb, reduceIte]
                      rw [← hpre]
                      simp [List.append_assoc]
              · split
                · next hpref =>
                    obtain ⟨suf, hsuf2⟩ := List.isPrefixOf_iff_prefix.1 hpref
                    rw [ih]
                    simp only [diff_text2]
                    rcases hcond with ⟨ha, hb, hx⟩
                    cases hopx : x.fOperation with
                    | eEQUAL => exact absurd hopx hx
                    | eDELETE => simp [hopx, ha, hb, List.append_assoc]
                    | eINSERT =>
                        simp only [hopx, ha, hb, reduceIte]
                        rw [← hsuf2]
                        simp [List.append_assoc]
                · simp only [diff_text2]
                  rw [ih]
                  simp only [diff_text2]
          · simp only [diff_text2]
            rw [ih]
            simp only [diff_text2]

theorem slidePass_text1 (l : List Diff) : diff_text1 (slidePass l).1 = diff_text1 l :=
  slideGo_text1 l.length l

theorem slidePass_text2 (l : List Diff) : diff_text2 (slidePass l).1 = diff_text2 l :=
  slideGo_text2 l.length l

/-- Structural invariant carried by the merge pass: adjacent operations
have distinct tags and every payload is nonempty. -/
def accGood (l : List Diff) : Prop :=
  l.Chain' (fun a b => a.fOperation ≠ b.fOperation) ∧ ∀ d ∈ l, d.fText ≠ []

theorem accGood_nil : accGood [] := by
  constructor
  · exact List.chain'_nil
  · intro d hd
    cases hd

theorem pushOp_accGood (acc : List Diff) (op : EOperation) (t : Str)
    (h : accGood acc) : accGood (pushOp acc op t) := by
  unfold pushOp
  split
  · exact h
  · next ht =>
      cases acc with
      | nil =>
          constructor
          · simp
          · intro d hd
            simp at hd
            subst hd
            exact ht
      | cons d rest =>
          obtain ⟨hc, hne⟩ := h
          rw [List.chain'_cons'] at hc
          simp only []
          split
          · next hop =>
              subst hop
              constructor
              · rw [List.chain'_cons']
                exact hc
              · intro e he
                rcases List.mem_cons.1 he with he | he
                · subst he
                  simp only []
                  intro hcon
                  exact ht (List.append_eq_nil.1 hcon).2
                · exact hne e (List.mem_cons_of_mem _ he)
          · next hop =>
              constructor
              · rw [List.chain'_cons']
                constructor
                · intro b hb
                  simp at hb
                  subst hb
                  exact fun hcon => hop hcon.symm
                · rw [List.chain'_cons']
                  exact hc
              · intro e he
                rcases List.mem_cons.1 he with he | he
                · subst he
                  exact ht
                · exact hne e he

theorem flushGroup_accGood (acc : List Diff) (td ti t : Str)
    (h : accGood acc) : accGood (flushGroup acc td ti t) := by
  unfold flushGroup
  split
  · exact pushOp_accGood _ _ _ (pushOp_accGood _ _ _ (pushOp_accGood _ _ _
      (pushOp_accGood _ _ _ h)))
  · exact pushOp_accGood _ _ _ (pushOp_accGood _ _ _ (pushOp_accGood _ _ _ h))

theorem mergePass_accGood : ∀ (l acc : List Diff) (td ti : Str),
    accGood acc → accGood (mergePass acc td ti l).reverse := by
  intro l
  induction l with
  | nil =>
      intro acc td ti h
      simp only [mergePass, List.reverse_reverse]
      exact flushGroup_accGood _ _ _ _ h
  | cons d rest ih =>
      intro acc td ti h
      cases hop : d.fOperation with
      | eDELETE => simpa only [mergePass, hop] using ih acc (td ++ d.fText) ti h
      | eINSERT => simpa only [mergePass, hop] using ih acc td (ti ++ d.fText) h
      | eEQUAL =>
          simp only [mergePass, hop]
          split
          · exact ih acc td ti h
          · exact ih _ [] [] (flushGroup_accGood _ _ _ _ h)

theorem accGood_reverse_elim (m : List Diff) (h : accGood m.reverse) :
    m.Chain' (fun a b => a.fOperation ≠ b.fOperation) ∧ ∀ d ∈ m, d.fText ≠ [] := by
  obtain ⟨hc, hne⟩ := h
  constructor
  · rw [List.chain'_reverse] at hc
    exact hc.imp (fun a b hab => hab.symm)
  · intro d hd
    exact hne d (List.mem_reverse.2 hd)

theorem cleanupMergeLoop_shape : ∀ (fuel : Nat) (l : List Diff),
    ∃ X, cleanupMergeLoop fuel l = mergePass [] [] [] X := by
  intro fuel
  induction fuel with
  | zero => intro l; exact ⟨l, rfl⟩
  | succ n ih =>
      intro l
      simp only [cleanupMergeLoop]
      split
      · exact ih _
      · exact ⟨l, rfl⟩

theorem cleanupMergeLoop_text : ∀ (fuel : Nat) (l : List Diff),
    diff_text1 (cleanupMergeLoop fuel l) = diff_text1 l ∧
    diff_text2 (cleanupMergeLoop fuel l) = diff_text2 l := by
  intro fuel
  induction fuel with
  | zero =>
      intro l
      constructor
      · simp [cleanupMergeLoop, mergePass_text1, diff_text1]
      · simp [cleanupMergeLoop, mergePass_text2, diff_text2]
  | succ n ih =>
      intro l
      simp only [cleanupMergeLoop]
      split
      · next hchg =>
          obtain ⟨h1, h2⟩ := ih (slidePass (mergePass [] [] [] l)).1
          constructor
          · rw [h1, slidePass_text1]
            simp [mergePass_text1, diff_text1]
          · rw [h2, slidePass_text2]
            simp [mergePass_text2, diff_text2]
      · constructor
        · simp [mergePass_text1, diff_text1]
        · simp [mergePass_text2, diff_text2]

/-- C4: after `diff_cleanupMerge` runs on any diff list, no two adjacent
operations in the result share the same tag, no EQUAL operation carries an
empty payload, and the reconstruction of text1 (DELETE+EQUAL payloads) and
text2 (INSERT+EQUAL payloads) is unchanged by the pass. -/
theorem diff_cleanupMerge_spec (diffs : List Diff) :
    (diff_cleanupMerge diffs).Chain' (fun a b => a.fOperation ≠ b.fOperation) ∧
    (∀ d ∈ diff_cleanupMerge diffs, d.fOperation = EOperation.eEQUAL → d.fText ≠ []) ∧
    diff_text1 (diff_cleanupMerge diffs) = diff_text1 diffs ∧
    diff_text2 (diff_cleanupMerge diffs) = diff_text2 diffs := by
  unfold diff_cleanupMerge
  obtain ⟨X, hX⟩ := cleanupMergeLoop_shape
    (diffs.length + (diffs.map (fun d => d.fText.length)).sum + 1) diffs
  obtain ⟨ht1, ht2⟩ := cleanupMergeLoop_text
    (diffs.length + (diffs.map (fun d => d.fText.length)).sum + 1) diffs
  have hg := accGood_reverse_elim _ (mergePass_accGood X [] [] [] accGood_nil)
  rw [hX] at ht1 ht2 ⊢
  exact ⟨hg.1, fun d hd _ => hg.2 d hd, ht1, ht2⟩

set_option maxRecDepth 10000 in
theorem utf8DecodeOne_utf8Bytes (n : Nat) (h : n < 0x110000) (rest : List Nat) :
    utf8DecodeOne (utf8Bytes n ++ rest) = some (n, rest) := by
  unfold utf8Bytes
  split
  · next h1 =>
      rw [List.cons_append]
      simp only [utf8DecodeOne, List.nil_append]
      rw [if_pos h1]
  · next h1 =>
      split
      · next h2 =>
          rw [List.cons_append, List.cons_append]
          simp only [utf8DecodeOne, List.nil_append]
          rw [if_neg (by omega), if_neg (by omega), if_pos (by omega),
            if_pos (by constructor <;> omega)]
          congr 2
          omega
      · next h2 =>
          split
          · next h3 =>
              rw [List.cons_append, List.cons_append, List.cons_append]
              simp only [utf8DecodeOne, List.nil_append]
              rw [if_neg (by omega), if_neg (by omega), if_neg (by omega),
                if_pos (by omega),
                if_pos (by refine ⟨⟨by omega, by omega⟩, by omega, by omega⟩)]
              congr 2
              omega
          · next h3 =>
              rw [List.cons_append, List.cons_append, List.cons_append, List.cons_append]
              simp only [utf8DecodeOne, List.nil_append]
              rw [if_neg (by omega), if_neg (by omega), if_neg (by omega),
                if_neg (by omega), if_pos (by omega),
                if_pos (by refine ⟨⟨by omega, by omega⟩, ⟨by omega, by omega⟩,
                  by omega, by omega⟩)]
              congr 2
              omega

theorem utf8Bytes_ne_nil (n : Nat) : utf8Bytes n ≠ [] := by
  unfold utf8Bytes
  split
  · simp
  · split
    · simp
    · split <;> simp

set_option maxRecDepth 10000 in
theorem utf8DecodeOne_length : ∀ (l : List Nat) (u : Nat) (r : List Nat),
    utf8DecodeOne l = some (u, r) → r.length < l.length := by
  intro l u r h
  match l with
  | [] => simp [utf8DecodeOne] at h
  | b :: rest =>
      simp only [utf8DecodeOne] at h
      by_cases h1 : b < 128
      · rw [if_pos h1, Option.some.injEq, Prod.mk.injEq] at h
        obtain ⟨_, h2⟩ := h
        subst h2
        simp
      · rw [if_neg h1] at h
        by_cases h2 : b < 192
        · rw [if_pos h2] at h
          exact absurd h (by simp)
        · rw [if_neg h2] at h
          by_cases h3 : b < 224
          · rw [if_pos h3] at h
            match rest, h with
            | [], h => simp at h
            | c1 :: r2, h =>
                simp only [] at h
                by_cases hc : 128 ≤ c1 ∧ c1 < 192
                · rw [if_pos hc, Option.some.injEq, Prod.mk.injEq] at h
                  obtain ⟨_, hr⟩ := h
                  subst hr
                  simp
                  omega
                · rw [if_neg hc] at h
                  exact absurd h (by simp)
          · rw [if_neg h3] at h
            by_cases h4 : b < 240
            · rw [if_pos h4] at h
              match rest, h with
              | [], h => simp at h
              | [c1], h => simp at h
              | c1 :: c2 :: r2, h =>
                  simp only [] at h
                  by_cases hc : (128 ≤ c1 ∧ c1 < 192) ∧ 128 ≤ c2 ∧ c2 < 192
                  · rw [if_pos hc, Option.some.injEq, Prod.mk.injEq] at h
                    obtain ⟨_, hr⟩ := h
                    subst hr
                    simp
                    omega
                  · rw [if_neg hc] at h
                    exact absurd h (by simp)
            · rw [if_neg h4] at h
              by_cases h5 : b < 248
              · rw [if_pos h5] at h
                match rest, h with
                | [], h => simp at h
                | [c1], h => simp at h
                | [c1, c2], h => simp at h
                | c1 :: c2 :: c3 :: r2, h =>
                    simp only [] at h
                    by_cases hc : (128 ≤ c1 ∧ c1 < 192) ∧ (128 ≤ c2 ∧ c2 < 192) ∧
                        128 ≤ c3 ∧ c3 < 192
                    · rw [if_pos hc, Option.some.injEq, Prod.mk.injEq] at h
                      obtain ⟨_, hr⟩ := h
                      subst hr
                      simp
                      omega
                    · rw [if_neg hc] at h
                      exact absurd h (by simp)
              · rw [if_neg h5] at h
                exact absurd h (by simp)

theorem utf8DecodeGo_fuelInv : ∀ (fuel1 : Nat), ∀ (fuel2 : Nat) (l : List Nat),
    l.length ≤ fuel1 → l.length ≤ fuel2 →
    utf8DecodeGo fuel1 l = utf8DecodeGo fuel2 l := by
  intro fuel1
  induction fuel1 with
  | zero =>
      intro fuel2 l h1 h2
      match l, h1 with
      | [], _ =>
          cases fuel2 <;> rfl
  | succ f1 ih =>
      intro fuel2 l h1 h2
      match l with
      | [] => cases fuel2 <;> rfl
      | b :: rest =>
          match fuel2, h2 with
          | f2 + 1, h2 =>
              show (match utf8DecodeOne (b :: rest) with
                | some (u, r) => Option.map (fun s => u :: s) (utf8DecodeGo f1 r)
                | none => none) =
                (match utf8DecodeOne (b :: rest) with
                | some (u, r) => Option.map (fun s => u :: s) (utf8DecodeGo f2 r)
                | none => none)
              cases hone : utf8DecodeOne (b :: rest) with
              | none => rfl
              | some ur =>
                  obtain ⟨u, r⟩ := ur
                  have hlen := utf8DecodeOne_length _ _ _ hone
                  simp only []
                  rw [ih f2 r (by simp at hlen h1 ⊢; omega) (by simp at hlen h2 ⊢; omega)]

theorem utf8Decode_cons_unit (n : Nat) (h : n < 0x110000) (rest : List Nat) :
    utf8Decode (utf8Bytes n ++ rest) = Option.map (fun s => n :: s) (utf8Decode rest) := by
  obtain ⟨b, bs, hb⟩ := List.exists_cons_of_ne_nil (utf8Bytes_ne_nil n)
  unfold utf8Decode
  have hlen : (utf8Bytes n ++ rest).length = (utf8Bytes n).length + rest.length := by
    simp
  rw [hb]
  show utf8DecodeGo ((b :: bs) ++ rest).length ((b :: bs) ++ rest) = _
  rw [List.cons_append]
  have hgo : utf8DecodeGo ((b :: (bs ++ rest)).length) (b :: (bs ++ rest)) =
      match utf8DecodeOne (b :: (bs ++ rest)) with
      | some (u, r) => Option.map (fun s => u :: s) (utf8DecodeGo (bs ++ rest).length r)
      | none => none := by
    rfl
  rw [hgo]
  have hone : utf8DecodeOne (b :: (bs ++ rest)) = some (n, rest) := by
    rw [← List.cons_append, ← hb]
    exact utf8DecodeOne_utf8Bytes n h rest
  rw [hone]
  simp only []
  rw [utf8DecodeGo_fuelInv (bs ++ rest).length rest.length rest (by simp) (by omega)]

theorem utf8Bytes_lt_256 (n : Nat) (h : n < 0x110000) : ∀ b ∈ utf8Bytes n, b < 256 := by
  unfold utf8Bytes
  split
  · next h1 => intro b hb; simp at hb; omega
  · next h1 =>
      split
      · next h2 => intro b hb; simp at hb; rcases hb with hb | hb <;> omega
      · next h2 =>
          split
          · next h3 =>
              intro b hb; simp at hb; rcases hb with hb | hb | hb <;> omega
          · next h3 =>
              intro b hb; simp at hb; rcases hb with hb | hb | hb | hb <;> omega

theorem keepChar_bounds (u : Nat) (h : keepChar u = true) : u < 0x80 ∧ u ≠ 37 ∧ u ≠ 9 := by
  unfold keepChar at h
  simp only [Bool.or_eq_true, Bool.and_eq_true, decide_eq_true_eq] at h
  omega

theorem hexVal_hexDigit (x : Nat) (h : x < 16) : hexVal (hexDigit x) = some x := by
  unfold hexVal hexDigit
  split
  · next h1 => rw [if_pos (by omega)]; congr 1; omega
  · next h1 => rw [if_neg (by omega), if_pos (by omega)]; congr 1; omega

theorem hexDigit_ne (x : Nat) (h : x < 16) : hexDigit x ≠ 9 ∧ hexDigit x ≠ 37 := by
  unfold hexDigit
  split <;> omega

theorem percentToBytes_cons_ne37 (c : Nat) (hc : c ≠ 37) (rest : Str) :
    percentToBytes (c :: rest) = Option.map (fun l => utf8Bytes c ++ l) (percentToBytes rest) := by
  rw [percentToBytes.eq_def]
  split <;> simp_all

theorem percentToBytes_escape (h1 h2 : Nat) (a b : Nat) (rest : Str)
    (hh1 : hexVal h1 = some a) (hh2 : hexVal h2 = some b) :
    percentToBytes (37 :: h1 :: h2 :: rest) =
      Option.map (fun l => (a * 16 + b) :: l) (percentToBytes rest) := by
  rw [percentToBytes.eq_def]
  simp only []
  rw [hh1, hh2]
  simp

theorem percentToBytes_escapes : ∀ (bytes : List Nat) (rest : Str),
    (∀ b ∈ bytes, b < 256) →
    percentToBytes ((bytes.flatMap (fun b => [37, hexDigit (b / 16), hexDigit (b % 16)])) ++ rest) =
      Option.map (fun l => bytes ++ l) (percentToBytes rest) := by
  intro bytes
  induction bytes with
  | nil =>
      intro rest hb
      simp only [List.flatMap_nil, List.nil_append]
      cases percentToBytes rest <;> rfl
  | cons b bs ih =>
      intro rest hb
      have hb256 : b < 256 := hb b (List.mem_cons_self b bs)
      simp only [List.flatMap_cons, List.append_assoc, List.cons_append]
      rw [percentToBytes_escape (hexDigit (b / 16)) (hexDigit (b % 16)) (b / 16) (b % 16) _
        (hexVal_hexDigit (b / 16) (by omega)) (hexVal_hexDigit (b % 16) (by omega))]
      simp only [List.nil_append]
      rw [ih rest (fun x hx => hb x (List.mem_cons_of_mem _ hx))]
      cases percentToBytes rest with
      | none => rfl
      | some l =>
          simp only [Option.map_some, Option.map_map]
          have hbval : b / 16 * 16 + b % 16 = b := by omega
          rw [hbval]
          rfl

theorem percentToBytes_unit (u : Nat) (hu : u < 0x110000) (rest : Str) :
    percentToBytes
      ((if keepChar u then [u]
        else (utf8Bytes u).flatMap (fun b => [37, hexDigit (b / 16), hexDigit (b % 16)])) ++ rest) =
      Option.map (fun l => utf8Bytes u ++ l) (percentToBytes rest) := by
  split
  · next hk =>
      obtain ⟨hlt, h37, _⟩ := keepChar_bounds u hk
      simp only [List.cons_append, List.nil_append]
      rw [percentToBytes_cons_ne37 u h37]
  · exact percentToBytes_escapes (utf8Bytes u) rest (utf8Bytes_lt_256 u hu)

theorem percentToBytes_toPercent : ∀ (s : Str), (∀ u ∈ s, u < 0x110000) →
    percentToBytes (toPercentEncoding s) = some (s.flatMap utf8Bytes) := by
  intro s
  induction s with
  | nil => intro h; rfl
  | cons u us ih =>
      intro h
      unfold toPercentEncoding
      simp only [List.flatMap_cons]
      rw [show (us.flatMap (fun v =>
        if keepChar v then [v]
        else (utf8Bytes v).flatMap (fun b => [37, hexDigit (b / 16), hexDigit (b % 16)]))) =
        toPercentEncoding us from rfl]
      rw [percentToBytes_unit u (h u (List.mem_cons_self u us)) (toPercentEncoding us)]
      rw [ih (fun v hv => h v (List.mem_cons_of_mem _ hv))]
      simp

theorem utf8Decode_flatMap : ∀ (s : Str), (∀ u ∈ s, u < 0x110000) →
    utf8Decode (s.flatMap utf8Bytes) = some s := by
  intro s
  induction s with
  | nil => intro h; rfl
  | cons u us ih =>
      intro h
      simp only [List.flatMap_cons]
      rw [utf8Decode_cons_unit u (h u (List.mem_cons_self u us))]
      rw [ih (fun v hv => h v (List.mem_cons_of_mem _ hv))]
      rfl

theorem fromPercent_toPercent (s : Str) (h : ∀ u ∈ s, u < 0x110000) :
    fromPercentEncoding (toPercentEncoding s) = some s := by
  unfold fromPercentEncoding
  rw [percentToBytes_toPercent s h]
  exact utf8Decode_flatMap s h

theorem natToStrAux_spec : ∀ (fuel n : Nat) (acc : Str), n ≤ fuel →
    ∃ ds : Str, natToStrAux fuel n acc = ds ++ acc ∧ ds ≠ [] ∧
      (∀ c ∈ ds, 48 ≤ c ∧ c ≤ 57) ∧
      ∀ a : Nat, ds.foldl (fun x c => x * 10 + (c - 48)) a = a * 10 ^ ds.length + n := by
  intro fuel
  induction fuel with
  | zero =>
      intro n acc hn
      refine ⟨[48 + n % 10], rfl, by simp, ?_, ?_⟩
      · intro c hc
        simp at hc
        omega
      · intro a
        simp only [List.foldl_cons, List.foldl_nil, List.length_cons, List.length_nil]
        have : n = 0 := by omega
        subst this
        simp
  | succ f ih =>
      intro n acc hn
      rw [natToStrAux]
      split
      · next h10 =>
          refine ⟨[48 + n], rfl, by simp, ?_, ?_⟩
          · intro c hc
            simp at hc
            omega
          · intro a
            simp only [List.foldl_cons, List.foldl_nil, List.length_cons, List.length_nil]
            simp
      · next h10 =>
          obtain ⟨ds', heq, hne, hdig, hval⟩ :=
            ih (n / 10) ((48 + n % 10) :: acc) (by omega)
          refine ⟨ds' ++ [48 + n % 10], ?_, by simp, ?_, ?_⟩
          · rw [heq, List.append_assoc, List.singleton_append]
          · intro c hc
            rcases List.mem_append.1 hc with hc | hc
            · exact hdig c hc
            · simp at hc
              omega
          · intro a
            rw [List.foldl_append, hval a]
            simp only [List.foldl_cons, List.foldl_nil, List.length_append,
              List.length_cons, List.length_nil]
            have hmod : 48 + n % 10 - 48 = n % 10 := by omega
            rw [hmod]
            have hrw : (a * 10 ^ ds'.length + n / 10) * 10 + n % 10 =
                a * (10 ^ ds'.length * 10) + (n / 10 * 10 + n % 10) := by ring
            rw [hrw, ← pow_succ]
            have : n / 10 * 10 + n % 10 = n := by omega
            rw [this]

theorem natToStr_spec (n : Nat) :
    natToStr n ≠ [] ∧ (∀ c ∈ natToStr n, 48 ≤ c ∧ c ≤ 57) ∧
      (natToStr n).foldl (fun x c => x * 10 + (c - 48)) 0 = n := by
  obtain ⟨ds, heq, hne, hdig, hval⟩ := natToStrAux_spec n n [] (Nat.le_refl n)
  unfold natToStr
  rw [heq, List.append_nil]
  exact ⟨hne, hdig, by rw [hval 0]; simp⟩

theorem parseNat_natToStr (n : Nat) : parseNat (natToStr n) = some n := by
  obtain ⟨hne, hdig, hval⟩ := natToStr_spec n
  unfold parseNat
  rw [if_neg hne, if_pos ?hall]
  · rw [hval]
  case hall =>
    rw [List.all_eq_true]
    intro c hc
    obtain ⟨h1, h2⟩ := hdig c hc
    simp [h1, h2]

theorem hexDigit_notNine (x : Nat) : hexDigit x ≠ 9 := by
  unfold hexDigit
  split <;> omega

theorem tab_notMem_toPercent (s : Str) : 9 ∉ toPercentEncoding s := by
  unfold toPercentEncoding
  intro hmem
  rw [List.mem_flatMap] at hmem
  obtain ⟨u, hu, hin⟩ := hmem
  by_cases hk : keepChar u
  · rw [if_pos hk, List.mem_singleton] at hin
    exact (keepChar_bounds u hk).2.2 hin.symm
  · rw [if_neg hk, List.mem_flatMap] at hin
    obtain ⟨b, hb, hin⟩ := hin
    rw [List.mem_cons, List.mem_cons, List.mem_singleton] at hin
    rcases hin with h | h | h
    · omega
    · exact hexDigit_notNine _ h.symm
    · exact hexDigit_notNine _ h.symm

theorem tab_notMem_natToStr (n : Nat) : 9 ∉ natToStr n := by
  intro hmem
  have := (natToStr_spec n).2.1 9 hmem
  omega

theorem tab_notMem_deltaToken (d : Diff) : 9 ∉ deltaToken d := by
  obtain ⟨op, t⟩ := d
  intro hmem
  cases op with
  | eDELETE =>
      simp only [deltaToken, List.mem_cons] at hmem
      rcases hmem with h | h
      · omega
      · exact tab_notMem_natToStr t.length h
  | eINSERT =>
      simp only [deltaToken, List.mem_cons] at hmem
      rcases hmem with h | h
      · omega
      · exact tab_notMem_toPercent t h
  | eEQUAL =>
      simp only [deltaToken, List.mem_cons] at hmem
      rcases hmem with h | h
      · omega
      · exact tab_notMem_natToStr t.length h

theorem fromDeltaTokens_toDelta : ∀ (ds : List Diff) (pre : Str),
    deltaWF ds →
    fromDeltaTokens (ds.map deltaToken) (pre ++ diff_text1 ds) pre.length = some ds := by
  intro ds
  induction ds with
  | nil =>
      intro pre h
      simp [fromDeltaTokens, diff_text1]
  | cons d rest ih =>
      intro pre h
      obtain ⟨op, t⟩ := d
      cases op with
      | eINSERT =>
          have henc : fromPercentEncoding (toPercentEncoding t) = some t :=
            fromPercent_toPercent t
              (h ⟨EOperation.eINSERT, t⟩ (List.mem_cons_self _ _) rfl)
          simp only [List.map_cons, deltaToken, fromDeltaTokens, reduceIte]
          rw [henc]
          have htext : diff_text1 (⟨EOperation.eINSERT, t⟩ :: rest) = diff_text1 rest := by
            simp [diff_text1]
          rw [htext, ih pre (fun e he hop => h e (List.mem_cons_of_mem _ he) hop)]
          rfl
      | eDELETE =>
          simp only [List.map_cons, deltaToken, fromDeltaTokens, reduceIte]
          rw [parseNat_natToStr]
          have htext : diff_text1 (⟨EOperation.eDELETE, t⟩ :: rest) = t ++ diff_text1 rest := by
            simp [diff_text1]
          rw [htext]
          rw [if_neg (by decide), if_pos (Or.inl trivial)]
          simp only []
          have hdrop : ((pre ++ (t ++ diff_text1 rest)).drop pre.length).take t.length = t := by
            rw [List.drop_left, List.take_left]
          have hlen : pre.length + t.length = (pre ++ t).length := by simp
          rw [hdrop, hlen, ← List.append_assoc]
          rw [ih (pre ++ t) (fun e he hop => h e (List.mem_cons_of_mem _ he) hop)]
          rfl
      | eEQUAL =>
          simp only [List.map_cons, deltaToken, fromDeltaTokens, reduceIte]
          rw [parseNat_natToStr]
          have htext : diff_text1 (⟨EOperation.eEQUAL, t⟩ :: rest) = t ++ diff_text1 rest := by
            simp [diff_text1]
          rw [htext]
          rw [if_neg (by decide), if_pos (Or.inr trivial)]
          simp only []
          have hdrop : ((pre ++ (t ++ diff_text1 rest)).drop pre.length).take t.length = t := by
            rw [List.drop_left, List.take_left]
          have hlen : pre.length + t.length = (pre ++ t).length := by simp
          rw [hdrop, hlen, ← List.append_assoc]
          rw [ih (pre ++ t) (fun e he hop => h e (List.mem_cons_of_mem _ he) hop)]
          rfl

/-- C3: encoding any well-typed diff list with `diff_toDelta` and decoding
with `diff_fromDelta` applied to `diff_text1` of the list returns the same
diff list (the spec quantifies over all diff lists, not only normalized
ones; the only hypothesis is that inserted payloads are genuine code
units, the domain of the text type itself). -/
theorem diff_delta_roundtrip (diffs : List Diff) (h : deltaWF diffs) :
    diff_fromDelta (diff_text1 diffs) (diff_toDelta diffs) = some diffs := by
  unfold diff_fromDelta diff_toDelta
  cases diffs with
  | nil => rfl
  | cons d rest =>
      rw [List.splitOn_intercalate ((d :: rest).map deltaToken) 9
        (by
          intro l hl
          rw [List.mem_map] at hl
          obtain ⟨e, _, he⟩ := hl
          rw [← he]
          exact tab_notMem_deltaToken e)
        (by simp)]
      have hmain := fromDeltaTokens_toDelta (d :: rest) [] h
      rw [List.nil_append] at hmain
      exact hmain

/-- C3 witness: the delta round trip evaluated at the concrete diff list
of the `testDiffDelta` unit test (with its Unicode and special
characters). -/
theorem diff_delta_roundtrip_witness :
    deltaWF
      [⟨EOperation.eEQUAL, [106, 117, 109, 112]⟩, ⟨EOperation.eDELETE, [115]⟩,
        ⟨EOperation.eINSERT, [101, 100]⟩, ⟨EOperation.eEQUAL, [32, 111, 118, 101, 114, 32]⟩,
        ⟨EOperation.eDELETE, [116, 104, 101]⟩, ⟨EOperation.eINSERT, [97]⟩,
        ⟨EOperation.eEQUAL, [32, 108, 97, 122, 121]⟩,
        ⟨EOperation.eINSERT, [1666, 32, 2, 32, 92, 32, 124]⟩] ∧
    diff_fromDelta
      (diff_text1
        [⟨EOperation.eEQUAL, [106, 117, 109, 112]⟩, ⟨EOperation.eDELETE, [115]⟩,
          ⟨EOperation.eINSERT, [101, 100]⟩, ⟨EOperation.eEQUAL, [32, 111, 118, 101, 114, 32]⟩,
          ⟨EOperation.eDELETE, [116, 104, 101]⟩, ⟨EOperation.eINSERT, [97]⟩,
          ⟨EOperation.eEQUAL, [32, 108, 97, 122, 121]⟩,
          ⟨EOperation.eINSERT, [1666, 32, 2, 32, 92, 32, 124]⟩])
      (diff_toDelta
        [⟨EOperation.eEQUAL, [106, 117, 109, 112]⟩, ⟨EOperation.eDELETE, [115]⟩,
          ⟨EOperation.eINSERT, [101, 100]⟩, ⟨EOperation.eEQUAL, [32, 111, 118, 101, 114, 32]⟩,
          ⟨EOperation.eDELETE, [116, 104, 101]⟩, ⟨EOperation.eINSERT, [97]⟩,
          ⟨EOperation.eEQUAL, [32, 108, 97, 122, 121]⟩,
          ⟨EOperation.eINSERT, [1666, 32, 2, 32, 92, 32, 124]⟩]) =
      some
        [⟨EOperation.eEQUAL, [106, 117, 109, 112]⟩, ⟨EOperation.eDELETE, [115]⟩,
          ⟨EOperation.eINSERT, [101, 100]⟩, ⟨EOperation.eEQUAL, [32, 111, 118, 101, 114, 32]⟩,
          ⟨EOperation.eDELETE, [116, 104, 101]⟩, ⟨EOperation.eINSERT, [97]⟩,
          ⟨EOperation.eEQUAL, [32, 108, 97, 122, 121]⟩,
          ⟨EOperation.eINSERT, [1666, 32, 2, 32, 92, 32, 124]⟩] :=
  ⟨by decide, diff_delta_roundtrip _ (by decide)⟩

theorem fromDeltaTokens_ins (param : Str) (rest : List Str) (text1 : Str) (p : Nat) :
    fromDeltaTokens ((43 :: param) :: rest) text1 p =
      match fromPercentEncoding param with
      | some t =>
          Option.map (fun ds => (⟨EOperation.eINSERT, t⟩ : Diff) :: ds)
            (fromDeltaTokens rest text1 p)
      | none => none := by
  simp only [fromDeltaTokens, reduceIte]

theorem fromDeltaTokens_keepdel (op : Nat) (hop : op = 45 ∨ op = 61) (param : Str)
    (rest : List Str) (text1 : Str) (p : Nat) :
    fromDeltaTokens ((op :: param) :: rest) text1 p =
      match parseNat param with
      | some n =>
          Option.map
            (fun ds =>
              (⟨if op = 45 then EOperation.eDELETE else EOperation.eEQUAL,
                (text1.drop p).take n⟩ : Diff) :: ds)
            (fromDeltaTokens rest text1 (p + n))
      | none => none := by
  simp only [fromDeltaTokens]
  rw [if_neg (by rcases hop with rfl | rfl <;> decide), if_pos hop]

theorem fromDeltaTokens_unknown (op : Nat) (h43 : ¬op = 43) (h45 : ¬op = 45)
    (h61 : ¬op = 61) (param : Str) (rest : List Str) (text1 : Str) (p : Nat) :
    fromDeltaTokens ((op :: param) :: rest) text1 p = none := by
  simp only [fromDeltaTokens]
  rw [if_neg h43, if_neg (by simp [h45, h61])]

theorem fromDeltaTokens_isSome_iff : ∀ (toks : List Str) (text1 : Str) (p : Nat),
    (fromDeltaTokens toks text1 p).isSome = true ↔
    ((toks.any tokUnknownOp || toks.any tokBadEscape || toks.any tokBadCount) = false ∧
      p + (toks.map tokCount).sum = text1.length) := by
  intro toks
  induction toks with
  | nil =>
      intro text1 p
      simp only [fromDeltaTokens, List.any_nil, List.map_nil, List.sum_nil, Nat.add_zero,
        Bool.or_self, Bool.false_or]
      split
      · next hp => simp [hp]
      · next hp => simp [hp]
  | cons tok rest ih =>
      intro text1 p
      match tok with
      | [] =>
          simp only [fromDeltaTokens, List.any_cons, List.map_cons, List.sum_cons,
            tokUnknownOp, tokBadEscape, tokBadCount, tokCount, Bool.false_or,
            Nat.zero_add]
          exact ih text1 p
      | op :: param =>
          by_cases h43 : op = 43
          · subst h43
            rw [fromDeltaTokens_ins]
            cases henc : fromPercentEncoding param with
            | some t =>
                simp only [Option.isSome_map']
                rw [ih text1 p]
                simp [tokUnknownOp, tokBadEscape, tokBadCount, tokCount, henc]
            | none =>
                simp [tokUnknownOp, tokBadEscape, tokBadCount, tokCount, henc]
          · by_cases h45 : op = 45
            · subst h45
              rw [fromDeltaTokens_keepdel 45 (Or.inl rfl)]
              cases hp : parseNat param with
              | some n =>
                  simp only [Option.isSome_map']
                  rw [ih text1 (p + n)]
                  simp [tokUnknownOp, tokBadEscape, tokBadCount, tokCount, hp,
                    Nat.add_assoc]
              | none =>
                  simp [tokUnknownOp, tokBadEscape, tokBadCount, tokCount, hp]
            · by_cases h61 : op = 61
              · subst h61
                rw [fromDeltaTokens_keepdel 61 (Or.inr rfl)]
                cases hp : parseNat param with
                | some n =>
                    simp only [Option.isSome_map']
                    rw [ih text1 (p + n)]
                    simp [tokUnknownOp, tokBadEscape, tokBadCount, tokCount, hp,
                      Nat.add_assoc]
                | none =>
                    simp [tokUnknownOp, tokBadEscape, tokBadCount, tokCount, hp]
              · rw [fromDeltaTokens_unknown op h43 h45 h61]
                have hflag : tokUnknownOp (op :: param) = true := by
                  simp [tokUnknownOp, h43, h45, h61]
                simp [hflag]

/-- C5 (amended): `diff_fromDelta` succeeds exactly when none of the
failure causes holds, where the causes are the spec's list (overflow,
underflow, malformed percent escape, unknown operator) *plus* a
keep/delete count that is not a well-formed number. -/
theorem diff_fromDelta_error_amended (text1 delta : Str) :
    (diff_fromDelta text1 delta).isSome = true ↔
      deltaMalformedAmended text1 delta = false := by
  unfold diff_fromDelta deltaMalformedAmended specDeltaMalformed deltaTokens
  rw [fromDeltaTokens_isSome_iff]
  simp only [Nat.zero_add, Bool.or_eq_false_iff, Bool.not_eq_false', beq_iff_eq]
  tauto

/-- C5 counterexample to the claim as stated: on `text1 = ""` and
`delta = "=x"` the decoder raises an error (returns `none`), yet none of
the four failure causes named by the spec holds (`"=x"` starts with the
known operator `=`, is not an insert token, and contributes no count, so
the counts trivially match the empty text). -/
theorem diff_fromDelta_spec_counterexample :
    diff_fromDelta [] [61, 120] = none ∧ specDeltaMalformed [] [61, 120] = false := by
  decide

theorem takeWhile_append_exact {α : Type} (p : α → Bool) (l1 l2 : List α)
    (h1 : ∀ c ∈ l1, p c = true)
    (h2 : ∀ c, l2.head? = some c → p c = false) :
    (l1 ++ l2).takeWhile p = l1 ∧ (l1 ++ l2).dropWhile p = l2 := by
  induction l1 with
  | nil =>
      cases l2 with
      | nil => simp
      | cons c t =>
          have hc := h2 c rfl
          simp [List.takeWhile_cons, List.dropWhile_cons, hc]
  | cons a t ih =>
      have ha := h1 a (by simp)
      have hrec := ih (fun c hc => h1 c (by simp [hc]))
      simp [List.takeWhile_cons, List.dropWhile_cons, ha, hrec.1, hrec.2]

theorem linesGo_fuelInv : ∀ (fuel fuel' : Nat) (s : Str),
    s.length ≤ fuel → s.length ≤ fuel' → linesGo fuel s = linesGo fuel' s := by
  intro fuel
  induction fuel with
  | zero =>
      intro fuel' s h _
      have hs : s = [] := by
        cases s with
        | nil => rfl
        | cons a t => simp at h
      subst hs
      cases fuel' <;> rfl
  | succ n ih =>
      intro fuel' s h h'
      cases s with
      | nil => cases fuel' <;> rfl
      | cons a t =>
          cases fuel' with
          | zero => simp at h'
          | succ m =>
              simp only [linesGo]
              rcases hdrop : (a :: t).dropWhile (fun c => !(c == 10)) with _ | ⟨r0, rest'⟩
              · rfl
              · have hlen : rest'.length ≤ t.length := by
                  have := (List.dropWhile_sublist (l := a :: t) (fun c => !(c == 10))).length_le
                  rw [hdrop] at this
                  simp at this h h' ⊢
                  omega
                simp only [List.length_cons] at h h'
                have hgo : linesGo n rest' = linesGo m rest' := ih m rest' (by omega) (by omega)
                simp [hgo]

theorem linesGo_append (c rest : Str) (hc : 10 ∉ c) (fuel : Nat)
    (hf : 1 ≤ fuel) :
    linesGo fuel (c ++ 10 :: rest) = c :: linesGo (fuel - 1) rest := by
  have hsplit := takeWhile_append_exact (fun u => !(u == 10)) c (10 :: rest)
    (fun u hu => by
      have hne : u ≠ 10 := fun he => hc (he ▸ hu)
      simp [hne])
    (fun u hu => by
      rw [List.head?_cons, Option.some.injEq] at hu
      simp [← hu])
  cases fuel with
  | zero => omega
  | succ k =>
      cases c with
      | nil =>
          simp only [List.nil_append, linesGo, List.dropWhile_cons]
          simp [List.takeWhile_cons]
      | cons a c' =>
          rw [List.cons_append] at hsplit ⊢
          simp only [linesGo]
          rw [hsplit.2, hsplit.1]
          simp

theorem linesGo_flatMap : ∀ (L : List Str) (fuel : Nat),
    (∀ l ∈ L, 10 ∉ l) → (L.flatMap (fun l => l ++ [10])).length ≤ fuel →
    linesGo fuel (L.flatMap (fun l => l ++ [10])) = L := by
  intro L
  induction L with
  | nil =>
      intro fuel _ _
      cases fuel <;> rfl
  | cons c L' ih =>
      intro fuel hmem hlen
      have hflat : (c :: L').flatMap (fun l => l ++ [10]) =
          c ++ 10 :: L'.flatMap (fun l => l ++ [10]) := by
        simp [List.flatMap_cons, List.append_assoc]
      rw [hflat] at hlen ⊢
      have hfe : 1 ≤ fuel := by
        simp [List.length_append] at hlen
        omega
      rw [linesGo_append c _ (hmem c (by simp)) fuel hfe]
      rw [ih (fuel - 1) (fun l hl => hmem l (by simp [hl])) (by
        simp [List.length_append] at hlen ⊢
        omega)]

theorem linesOf_flatMap (L : List Str) (h : ∀ l ∈ L, 10 ∉ l) :
    linesOf (L.flatMap (fun l => l ++ [10])) = L :=
  linesGo_flatMap L _ h (Nat.le_refl _)

theorem patch_toText_eq (ps : List Patch) :
    patch_toText ps = (patchesLines ps).flatMap (fun l => l ++ [10]) := by
  unfold patch_toText patchesLines
  induction ps with
  | nil => rfl
  | cons p t ih =>
      rw [List.flatMap_cons, List.flatMap_cons, List.flatMap_append, ← ih]
      congr 1
      unfold Patch.toText patchLines
      rw [List.flatMap_cons, List.flatMap_map]

theorem keepChar_ge32 (u : Nat) (h : keepChar u = true) : 32 ≤ u := by
  simp only [keepChar, Bool.or_eq_true, Bool.and_eq_true, decide_eq_true_eq] at h
  omega

theorem hexDigit_ge48 (x : Nat) : 48 ≤ hexDigit x := by
  unfold hexDigit
  split <;> omega

theorem mem_toPercent_ge32 (s : Str) : ∀ c ∈ toPercentEncoding s, 32 ≤ c := by
  intro c hmem
  unfold toPercentEncoding at hmem
  rw [List.mem_flatMap] at hmem
  obtain ⟨u, hu, hin⟩ := hmem
  by_cases hk : keepChar u
  · rw [if_pos hk, List.mem_singleton] at hin
    exact hin ▸ keepChar_ge32 u hk
  · rw [if_neg hk, List.mem_flatMap] at hin
    obtain ⟨b, hb, hin⟩ := hin
    rw [List.mem_cons, List.mem_cons, List.mem_singleton] at hin
    rcases hin with h | h | h
    · omega
    · have := hexDigit_ge48 (b / 16)
      omega
    · have := hexDigit_ge48 (b % 16)
      omega

theorem mem_coordString_ge32 (s l : Nat) : ∀ c ∈ getCoordinateString s l, 32 ≤ c := by
  intro c hc
  unfold getCoordinateString at hc
  split_ifs at hc with h0 h1
  · rw [List.mem_append] at hc
    rcases hc with hc | hc
    · have := ((natToStr_spec s).2.1 c hc).1
      omega
    · rw [List.mem_cons, List.mem_singleton] at hc
      omega
  · have := ((natToStr_spec (s + 1)).2.1 c hc).1
    omega
  · rw [List.append_assoc, List.mem_append] at hc
    rcases hc with hc | hc
    · have := ((natToStr_spec (s + 1)).2.1 c hc).1
      omega
    · rw [List.cons_append, List.mem_cons, List.nil_append] at hc
      rcases hc with hc | hc
      · omega
      · have := ((natToStr_spec l).2.1 c hc).1
        omega

theorem ten_notMem_patchHeader (p : Patch) : 10 ∉ patchHeader p := by
  intro hmem
  unfold patchHeader at hmem
  simp only [List.append_assoc, List.cons_append, List.nil_append, List.mem_cons,
    List.mem_append] at hmem
  rcases hmem with h | h | h | h | h
  · omega
  · omega
  · omega
  · omega
  · rcases h with h | h
    · have := mem_coordString_ge32 p.start1 p.length1 10 h
      omega
    · rcases h with h | h | h
      · omega
      · omega
      · rcases h with h | h
        · have := mem_coordString_ge32 p.start2 p.length2 10 h
          omega
        · simp at h

theorem ten_notMem_lineContent (d : Diff) : 10 ∉ diffLineContent d := by
  intro hmem
  unfold diffLineContent at hmem
  rw [List.mem_cons] at hmem
  rcases hmem with h | h
  · cases hop : d.fOperation <;> rw [hop] at h <;> simp [opChar] at h
  · have := mem_toPercent_ge32 d.fText 10 h
    omega

theorem ten_notMem_patchesLines (ps : List Patch) : ∀ l ∈ patchesLines ps, 10 ∉ l := by
  intro l hl
  unfold patchesLines at hl
  rw [List.mem_flatMap] at hl
  obtain ⟨p, _, hl⟩ := hl
  unfold patchLines at hl
  rw [List.mem_cons] at hl
  rcases hl with hl | hl
  · exact hl ▸ ten_notMem_patchHeader p
  · rw [List.mem_map] at hl
    obtain ⟨d, _, hd⟩ := hl
    exact hd ▸ ten_notMem_lineContent d

theorem takeDigits_exact (ds rest : Str) (hds : ∀ c ∈ ds, 48 ≤ c ∧ c ≤ 57)
    (hrest : ∀ c, rest.head? = some c → isDigitU c = false) :
    takeDigits (ds ++ rest) = (ds, rest) := by
  unfold takeDigits
  have hsplit := takeWhile_append_exact isDigitU ds rest
    (fun c hc => by
      have := hds c hc
      simp only [isDigitU, Bool.and_eq_true, decide_eq_true_eq]
      omega)
    hrest
  rw [hsplit.1, hsplit.2]

theorem parseCoord_coordString (s l : Nat) (rest : Str)
    (hrest : rest = [] ∨ rest.head? = some 32) :
    parseCoord (getCoordinateString s l ++ rest) = some ((s, l), rest) := by
  have hrd : ∀ c, rest.head? = some c → isDigitU c = false := by
    intro c hc
    rcases hrest with h | h
    · subst h
      simp at hc
    · rw [h, Option.some.injEq] at hc
      subst hc
      decide
  unfold getCoordinateString
  by_cases h0 : l = 0
  · subst h0
    rw [if_pos rfl, List.append_assoc, List.cons_append, List.cons_append, List.nil_append]
    unfold parseCoord
    rw [takeDigits_exact (natToStr s) (44 :: 48 :: rest)
      (fun c hc => (natToStr_spec s).2.1 c hc) (fun c hc => by
        rw [List.head?_cons, Option.some.injEq] at hc
        subst hc
        decide)]
    simp only [parseNat_natToStr, if_pos rfl]
    rw [show (48 : Nat) :: rest = [48] ++ rest from rfl,
      takeDigits_exact [48] rest (by simp) hrd]
    have h48 : parseNat [48] = some 0 := by decide
    simp [h48]
  · by_cases h1 : l = 1
    · subst h1
      rw [if_neg h0, if_pos rfl]
      unfold parseCoord
      rw [takeDigits_exact (natToStr (s + 1)) rest
        (fun c hc => (natToStr_spec (s + 1)).2.1 c hc) hrd]
      simp only [parseNat_natToStr]
      rcases hrest with h | h
      · subst h
        simp
      · rcases rest with _ | ⟨r0, r⟩
        · simp at h
        · rw [List.head?_cons, Option.some.injEq] at h
          subst h
          simp
    · rw [if_neg h0, if_neg h1, List.append_assoc, List.append_assoc,
        List.cons_append, List.nil_append]
      unfold parseCoord
      rw [takeDigits_exact (natToStr (s + 1)) (44 :: (natToStr l ++ rest))
        (fun c hc => (natToStr_spec (s + 1)).2.1 c hc) (fun c hc => by
          rw [List.head?_cons, Option.some.injEq] at hc
          subst hc
          decide)]
      simp only [parseNat_natToStr, if_pos rfl]
      rw [takeDigits_exact (natToStr l) rest
        (fun c hc => (natToStr_spec l).2.1 c hc) hrd]
      simp only [parseNat_natToStr]
      rw [if_neg (natToStr_spec l).1, if_neg h0]
      simp

theorem stripPre_append (pre s : Str) : stripPre pre (pre ++ s) = some s := by
  unfold stripPre
  rw [if_pos (List.isPrefixOf_iff_prefix.2 ⟨s, rfl⟩), List.drop_left]

theorem parseHeaderLine_patchHeader (p : Patch) :
    parseHeaderLine (patchHeader p) =
      some (p.start1, p.length1, p.start2, p.length2) := by
  unfold patchHeader parseHeaderLine
  rw [List.append_assoc, List.append_assoc, List.append_assoc]
  simp only [stripPre_append]
  rw [parseCoord_coordString p.start1 p.length1
    ([32, 43] ++ (getCoordinateString p.start2 p.length2 ++ [32, 64, 64])) (Or.inr (by simp))]
  simp only [stripPre_append]
  rw [parseCoord_coordString p.start2 p.length2 [32, 64, 64] (Or.inr (by simp))]
  rfl

theorem parseBodyLine_content (d : Diff) (h : ∀ u ∈ d.fText, u < 0x110000) :
    parseBodyLine (diffLineContent d) = some d := by
  obtain ⟨op, t⟩ := d
  have hp := fromPercent_toPercent t (by simpa using h)
  cases op <;> simp [diffLineContent, opChar, parseBodyLine, hp]

theorem parseBody_map (ds : List Diff) (h : ∀ d ∈ ds, ∀ u ∈ d.fText, u < 0x110000) :
    parseBody (ds.map diffLineContent) = some ds := by
  induction ds with
  | nil => rfl
  | cons d t ih =>
      rw [List.map_cons, parseBody, parseBodyLine_content d (h d (by simp)),
        ih (fun e he => h e (by simp [he]))]
      rfl

theorem notAtLine_patchHeader (p : Patch) : notAtLine (patchHeader p) = false := rfl

theorem notAtLine_lineContent (d : Diff) : notAtLine (diffLineContent d) = true := by
  unfold notAtLine diffLineContent
  cases hop : d.fOperation <;> simp [opChar]

theorem parsePatches_inv : ∀ (ps : List Patch) (fuel : Nat), patchesWF ps →
    (patchesLines ps).length ≤ fuel → parsePatches fuel (patchesLines ps) = some ps := by
  intro ps
  induction ps with
  | nil =>
      intro fuel _ _
      cases fuel <;> rfl
  | cons p t ih =>
      intro fuel hwf hlen
      have hlines : patchesLines (p :: t) =
          patchHeader p :: (p.diffs.map diffLineContent ++ patchesLines t) := by
        simp [patchesLines, patchLines, List.flatMap_cons]
      rw [hlines] at hlen ⊢
      cases fuel with
      | zero => simp at hlen
      | succ k =>
          have hsplit := takeWhile_append_exact notAtLine
            (p.diffs.map diffLineContent) (patchesLines t)
            (fun l hl => by
              rw [List.mem_map] at hl
              obtain ⟨d, _, hd⟩ := hl
              exact hd ▸ notAtLine_lineContent d)
            (fun l hl => by
              cases t with
              | nil => simp [patchesLines] at hl
              | cons q t' =>
                  have : patchesLines (q :: t') =
                      patchHeader q :: (q.diffs.map diffLineContent ++ patchesLines t') := by
                    simp [patchesLines, patchLines, List.flatMap_cons]
                  rw [this, List.head?_cons, Option.some.injEq] at hl
                  exact hl ▸ notAtLine_patchHeader q)
          rw [parsePatches, parseHeaderLine_patchHeader, hsplit.1, hsplit.2,
            parseBody_map p.diffs (hwf p (by simp)),
            ih k (fun q hq => hwf q (by simp [hq])) (by
              simp only [List.length_cons, List.length_append] at hlen
              omega)]
          rfl

theorem linesOf_patch_toText (ps : List Patch) :
    linesOf (patch_toText ps) = patchesLines ps := by
  rw [patch_toText_eq]
  exact linesOf_flatMap _ (ten_notMem_patchesLines ps)

/-- C7: in each coordinate pair of the serialized hunk header, a length
of 1 omits the comma and the length value, a length of 0 displays the
raw 0-based start rather than start+1, and every other case displays
start+1 followed by a comma and the length; `parseCoord` (the parsing
side of `patch_fromText`) inverts exactly this format, and on whole
patch lists `patch_fromText` recovers exactly what `patch_toText`
produced. -/
theorem patch_text_format :
    (∀ s, getCoordinateString s 1 = natToStr (s + 1)) ∧
    (∀ s, getCoordinateString s 0 = natToStr s ++ [44, 48]) ∧
    (∀ s l, l ≠ 0 → l ≠ 1 →
      getCoordinateString s l = natToStr (s + 1) ++ [44] ++ natToStr l) ∧
    (∀ s l rest, rest = [] ∨ rest.head? = some 32 →
      parseCoord (getCoordinateString s l ++ rest) = some ((s, l), rest)) ∧
    (∀ ps, patchesWF ps → patch_fromText (patch_toText ps) = some ps) := by
  refine ⟨fun s => rfl, fun s => rfl, fun s l h0 h1 => ?_, parseCoord_coordString, ?_⟩
  · unfold getCoordinateString
    rw [if_neg h0, if_neg h1]
  · intro ps hwf
    unfold patch_fromText
    rw [linesOf_patch_toText ps]
    exact parsePatches_inv ps _ hwf (Nat.le_refl _)

/-- C7 witness: the patch object of the `testPatchObj` unit test (with
its embedded newline payload) survives the text round trip. -/
theorem patch_text_format_witness :
    patchesWF
      [⟨[⟨EOperation.eEQUAL, [106, 117, 109, 112]⟩, ⟨EOperation.eDELETE, [115]⟩,
          ⟨EOperation.eINSERT, [101, 100]⟩,
          ⟨EOperation.eEQUAL, [32, 111, 118, 101, 114, 32]⟩,
          ⟨EOperation.eDELETE, [116, 104, 101]⟩, ⟨EOperation.eINSERT, [97]⟩,
          ⟨EOperation.eEQUAL, [10, 108, 97, 122]⟩], 20, 21, 18, 17⟩] ∧
    patch_fromText
      (patch_toText
        [⟨[⟨EOperation.eEQUAL, [106, 117, 109, 112]⟩, ⟨EOperation.eDELETE, [115]⟩,
            ⟨EOperation.eINSERT, [101, 100]⟩,
            ⟨EOperation.eEQUAL, [32, 111, 118, 101, 114, 32]⟩,
            ⟨EOperation.eDELETE, [116, 104, 101]⟩, ⟨EOperation.eINSERT, [97]⟩,
            ⟨EOperation.eEQUAL, [10, 108, 97, 122]⟩], 20, 21, 18, 17⟩]) =
      some
        [⟨[⟨EOperation.eEQUAL, [106, 117, 109, 112]⟩, ⟨EOperation.eDELETE, [115]⟩,
            ⟨EOperation.eINSERT, [101, 100]⟩,
            ⟨EOperation.eEQUAL, [32, 111, 118, 101, 114, 32]⟩,
            ⟨EOperation.eDELETE, [116, 104, 101]⟩, ⟨EOperation.eINSERT, [97]⟩,
            ⟨EOperation.eEQUAL, [10, 108, 97, 122]⟩], 20, 21, 18, 17⟩] :=
  ⟨by decide, patch_text_format.2.2.2.2 _ (by decide)⟩

/-- C10: `patch_fromText` of the empty text is the empty patch list and
raises no error, while every nonempty text whose first line is not a
well-formed `@@` header is rejected with an error (`none`). -/
theorem patch_fromText_empty_vs_bad :
    patch_fromText [] = some [] ∧
    ∀ s : Str, s ≠ [] →
      parseHeaderLine (s.takeWhile (fun c => !(c == 10))) = none →
      patch_fromText s = none := by
  refine ⟨rfl, ?_⟩
  intro s hne hbad
  unfold patch_fromText
  obtain ⟨a, t, rfl⟩ : ∃ a t, s = a :: t := by
    cases s with
    | nil => exact absurd rfl hne
    | cons a t => exact ⟨a, t, rfl⟩
  simp only [linesOf, List.length_cons, linesGo]
  rcases hdrop : (a :: t).dropWhile (fun c => !(c == 10)) with _ | ⟨r0, rest'⟩ <;>
    simp [parsePatches, hbad]

/-- C10 witness: the rejected input `"Bad\nPatch\n"` of the
`testPatchFromText` unit test, whose first line `Bad` is not a header. -/
theorem patch_fromText_empty_vs_bad_witness :
    (([66, 97, 100, 10, 80, 97, 116, 99, 104, 10] : Str) ≠ [] ∧
      parseHeaderLine
        (([66, 97, 100, 10, 80, 97, 116, 99, 104, 10] : Str).takeWhile
          (fun c => !(c == 10))) = none) ∧
    patch_fromText [66, 97, 100, 10, 80, 97, 116, 99, 104, 10] = none :=
  ⟨⟨by decide, by decide⟩,
    patch_fromText_empty_vs_bad.2 _ (by decide) (by decide)⟩

theorem scanGo_best (cm lrd : Nat → Nat) (first : Bool) (matchmask d loc plen dist : Nat) :
    ∀ (j start rdNext : Nat) (row : List (Nat × Nat)) (thr : Nat × Nat) (best : Int),
      best = -1 ∨ 0 ≤ best →
      ((scanGo cm lrd first matchmask d loc plen dist j start rdNext row thr best).2.2 = -1 ∨
        0 ≤ (scanGo cm lrd first matchmask d loc plen dist j start rdNext row thr best).2.2) := by
  intro j
  induction j with
  | zero =>
      intro start rdNext row thr best h
      exact h
  | succ j ih =>
      intro start rdNext row thr best h
      simp only [scanGo]
      split_ifs <;>
        first
          | exact h
          | exact Or.inr (Int.natCast_nonneg j)
          | exact ih _ _ _ _ _ h
          | exact ih _ _ _ _ _ (Or.inr (Int.natCast_nonneg j))

theorem dLoopGo_best (cm : Nat → Nat) (matchmask loc plen dist tlen : Nat) :
    ∀ (fuel d bin_max : Nat) (lrd : Nat → Nat) (thr : Nat × Nat) (best : Int),
      best = -1 ∨ 0 ≤ best →
      (dLoopGo cm matchmask loc plen dist tlen fuel d bin_max lrd thr best = -1 ∨
        0 ≤ dLoopGo cm matchmask loc plen dist tlen fuel d bin_max lrd thr best) := by
  intro fuel
  induction fuel with
  | zero =>
      intro d bin_max lrd thr best h
      exact h
  | succ f ih =>
      intro d bin_max lrd thr best h
      rw [dLoopGo]
      split_ifs with hbr
      · exact scanGo_best cm lrd _ matchmask d loc plen dist _ _ _ _ _ _ h
      · exact ih _ _ _ _ _ (scanGo_best cm lrd _ matchmask d loc plen dist _ _ _ _ _ _ h)

theorem match_bitap_sentinel (tn td dist : Nat) (text pattern : Str) (loc : Nat) :
    match_bitap tn td dist text pattern loc = -1 ∨
      0 ≤ match_bitap tn td dist text pattern loc := by
  unfold match_bitap
  exact dLoopGo_best _ _ _ _ _ _ _ _ _ _ _ _ (Or.inl rfl)

/-- C6: `match_main` checks its cases in the spec's order — an empty
pattern returns `loc` (before any other test); on equal text and pattern
it returns 0; when the pattern occurs at `loc` it returns `loc`;
otherwise it delegates to `match_bitap`, whose result is always the
sentinel -1 (not found, no error) or a genuine nonnegative index. -/
theorem match_main_spec :
    (∀ (tn td dist : Nat) (text : Str) (loc : Nat),
      match_main tn td dist text [] loc = Int.ofNat loc) ∧
    (∀ (tn td dist : Nat) (p : Str) (loc : Nat), p ≠ [] →
      match_main tn td dist p p loc = 0) ∧
    (∀ (tn td dist : Nat) (text p : Str) (loc : Nat), p ≠ [] → text ≠ p →
      p.isPrefixOf (text.drop loc) = true →
      match_main tn td dist text p loc = Int.ofNat loc) ∧
    (∀ (tn td dist : Nat) (text p : Str) (loc : Nat), p ≠ [] → text ≠ p →
      p.isPrefixOf (text.drop loc) = false →
      match_main tn td dist text p loc = match_bitap tn td dist text p loc) ∧
    (∀ (tn td dist : Nat) (text p : Str) (loc : Nat),
      match_bitap tn td dist text p loc = -1 ∨ 0 ≤ match_bitap tn td dist text p loc) := by
  refine ⟨?_, ?_, ?_, ?_, fun tn td dist text p loc => match_bitap_sentinel tn td dist text p loc⟩
  · intro tn td dist text loc
    unfold match_main
    rw [if_pos rfl]
  · intro tn td dist p loc h
    unfold match_main
    rw [if_neg h, if_pos rfl]
  · intro tn td dist text p loc h1 h2 h3
    unfold match_main
    rw [if_neg h1, if_neg h2, if_pos h3]
  · intro tn td dist text p loc h1 h2 h3
    unfold match_main
    rw [if_neg h1, if_neg h2, if_neg (by simp [h3])]

/-- C6 witness: the `match_main: Exact match` unit test — pattern `de`
found at position 3 of `abcdef` via the prefix-at-loc case. -/
theorem match_main_spec_witness :
    (([100, 101] : Str) ≠ [] ∧ ([97, 98, 99, 100, 101, 102] : Str) ≠ [100, 101] ∧
      ([100, 101] : Str).isPrefixOf (([97, 98, 99, 100, 101, 102] : Str).drop 3) = true) ∧
    match_main 1 2 1000 [97, 98, 99, 100, 101, 102] [100, 101] 3 = Int.ofNat 3 :=
  ⟨⟨by decide, by decide, by decide⟩,
    match_main_spec.2.2.1 1 2 1000 [97, 98, 99, 100, 101, 102] [100, 101] 3
      (by decide) (by decide) (by decide)⟩

/-- C9 counterexample to the claim as stated: with both text and pattern
empty, `match_main(text, text, loc)` returns `loc` (here 5), not 0 — the
empty-pattern case precedes the text-equals-pattern case. -/
theorem match_loc_spec_counterexample :
    match_main 1 2 1000 [] [] 5 = 5 ∧ (5 : Int) ≠ 0 := by
  constructor
  · rfl
  · decide

/-- C9 (amended): `match_main` and `match_bitap` tolerate any expected
location, in or out of bounds, without error: self-match of a *nonempty*
text returns 0 for every `loc`; `match_main` always returns the -1
sentinel or a nonnegative index; and `match_bitap` (with the
`Match_Distance = 100` configuration of the unit test) still finds the
match `xxabc` at 0 (before `loc = 4`) and `defyy` at 3 (running past the
end of `abcdef`). -/
theorem match_loc_tolerance_amended :
    (∀ (tn td dist : Nat) (t : Str) (loc : Nat), t ≠ [] →
      match_main tn td dist t t loc = 0) ∧
    (∀ (tn td dist : Nat) (t p : Str) (loc : Nat),
      match_main tn td dist t p loc = -1 ∨ 0 ≤ match_main tn td dist t p loc) ∧
    match_bitap 1 2 100 [97, 98, 99, 100, 101, 102] [120, 120, 97, 98, 99] 4 = 0 ∧
    match_bitap 1 2 100 [97, 98, 99, 100, 101, 102] [100, 101, 102, 121, 121] 4 = 3 := by
  refine ⟨?_, ?_, by decide, by decide⟩
  · intro tn td dist t loc h
    unfold match_main
    rw [if_neg h, if_pos rfl]
  · intro tn td dist t p loc
    unfold match_main
    split_ifs
    · exact Or.inr (Int.natCast_nonneg loc)
    · exact Or.inr le_rfl
    · exact Or.inr (Int.natCast_nonneg loc)
    · exact match_bitap_sentinel tn td dist t p loc

/-- C9 witness: a nonempty one-character text self-matches at 0 even for
the far out-of-range expected location 1000. -/
theorem match_loc_tolerance_amended_witness :
    (([97] : Str) ≠ []) ∧ match_main 1 2 1000 [97] [97] 1000 = 0 :=
  ⟨by decide, match_loc_tolerance_amended.1 1 2 1000 [97] 1000 (by decide)⟩

theorem dropWhile_head_false {α : Type} (p : α → Bool) :
    ∀ (l : List α) (x : α) (xs : List α), l.dropWhile p = x :: xs → p x = false := by
  intro l
  induction l with
  | nil => intro x xs h; simp at h
  | cons a t ih =>
      intro x xs h
      rw [List.dropWhile_cons] at h
      by_cases hp : p a
      · rw [if_pos hp] at h
        exact ih x xs h
      · rw [if_neg hp] at h
        rw [List.cons.injEq] at h
        rw [← h.1]
        exact Bool.eq_false_iff.2 hp

theorem splitKeepGo_flatten : ∀ (fuel : Nat) (s : Str), s.length ≤ fuel →
    (splitKeepGo fuel s).flatten = s := by
  intro fuel
  induction fuel with
  | zero =>
      intro s h
      cases s with
      | nil => rfl
      | cons a t => simp at h
  | succ n ih =>
      intro s h
      cases s with
      | nil => rfl
      | cons a t =>
          simp only [splitKeepGo]
          rcases hdrop : (a :: t).dropWhile (fun c => !(c == 10)) with _ | ⟨r0, rest'⟩
          · have := List.takeWhile_append_dropWhile (p := fun c => !(c == 10)) (l := a :: t)
            rw [hdrop, List.append_nil] at this
            simp [this]
          · have hr0 : r0 = 10 := by
              have := dropWhile_head_false (fun c => !(c == 10)) (a :: t) r0 rest' hdrop
              simp at this
              exact this
            have hlen : rest'.length ≤ n := by
              have hs := (List.dropWhile_sublist (l := a :: t) (fun c => !(c == 10))).length_le
              rw [hdrop] at hs
              simp at hs h
              omega
            have hflat := ih rest' hlen
            have hsplit := List.takeWhile_append_dropWhile (p := fun c => !(c == 10)) (l := a :: t)
            rw [hdrop, hr0] at hsplit
            simp only [List.flatten_cons, hflat, List.append_assoc, List.singleton_append]
            exact hsplit

theorem splitLinesKeep_flatten (s : Str) : (splitLinesKeep s).flatten = s :=
  splitKeepGo_flatten s.length s (Nat.le_refl s.length)

theorem decodeStr_append (arr : List Str) (s t : Str) :
    decodeStr arr (s ++ t) = decodeStr arr s ++ decodeStr arr t := by
  simp [decodeStr]

theorem idxOfStr_getD : ∀ (arr : List Str) (s : Str) (i : Nat),
    idxOfStr arr s = some i → arr.getD i [] = s ∧ i < arr.length := by
  intro arr
  induction arr with
  | nil => intro s i h; simp [idxOfStr] at h
  | cons x rest ih =>
      intro s i h
      rw [idxOfStr] at h
      by_cases hx : x = s
      · rw [if_pos hx, Option.some.injEq] at h
        subst h
        simp [hx]
      · rw [if_neg hx] at h
        rcases hrec : idxOfStr rest s with _ | j
        · rw [hrec] at h; simp at h
        · rw [hrec] at h
          simp only [Option.map_some', Option.some.injEq] at h
          subst h
          obtain ⟨h1, h2⟩ := ih s j hrec
          constructor
          · simpa using h1
          · simp
            omega

theorem mungeGo_cons_found (seg : Str) (rest arr : List Str) (i : Nat)
    (h : idxOfStr arr seg = some i) :
    mungeGo (seg :: rest) arr = (i :: (mungeGo rest arr).1, (mungeGo rest arr).2) := by
  rw [mungeGo, h]

theorem mungeGo_cons_new (seg : Str) (rest arr : List Str)
    (h : idxOfStr arr seg = none) :
    mungeGo (seg :: rest) arr =
      (arr.length :: (mungeGo rest (arr ++ [seg])).1, (mungeGo rest (arr ++ [seg])).2) := by
  rw [mungeGo, h]

theorem mungeGo_ext : ∀ (segs arr : List Str), ∃ ext, (mungeGo segs arr).2 = arr ++ ext := by
  intro segs
  induction segs with
  | nil => intro arr; exact ⟨[], by simp [mungeGo]⟩
  | cons seg rest ih =>
      intro arr
      rcases hidx : idxOfStr arr seg with _ | i
      · rw [mungeGo_cons_new seg rest arr hidx]
        obtain ⟨ext, hext⟩ := ih (arr ++ [seg])
        exact ⟨[seg] ++ ext, by simp only [hext, List.append_assoc]⟩
      · rw [mungeGo_cons_found seg rest arr i hidx]
        exact ih arr

theorem mungeGo_bound : ∀ (segs arr : List Str), ∀ u ∈ (mungeGo segs arr).1,
    u < (mungeGo segs arr).2.length := by
  intro segs
  induction segs with
  | nil => intro arr u hu; simp [mungeGo] at hu
  | cons seg rest ih =>
      intro arr u hu
      rcases hidx : idxOfStr arr seg with _ | i
      · rw [mungeGo_cons_new seg rest arr hidx] at hu ⊢
        simp only [List.mem_cons] at hu
        rcases hu with hu | hu
        · obtain ⟨ext, hext⟩ := mungeGo_ext rest (arr ++ [seg])
          rw [hext, hu]
          simp
        · exact ih (arr ++ [seg]) u hu
      · rw [mungeGo_cons_found seg rest arr i hidx] at hu ⊢
        simp only [List.mem_cons] at hu
        rcases hu with hu | hu
        · obtain ⟨ext, hext⟩ := mungeGo_ext rest arr
          rw [hext, hu]
          have := (idxOfStr_getD arr seg i hidx).2
          simp
          omega
        · exact ih arr u hu

theorem mungeGo_decode : ∀ (segs arr : List Str),
    decodeStr (mungeGo segs arr).2 (mungeGo segs arr).1 = segs.flatten := by
  intro segs
  induction segs with
  | nil => intro arr; simp [mungeGo, decodeStr]
  | cons seg rest ih =>
      intro arr
      rcases hidx : idxOfStr arr seg with _ | i
      · rw [mungeGo_cons_new seg rest arr hidx]
        simp only [List.flatten_cons, ← ih (arr ++ [seg]), decodeStr, List.flatMap_cons]
        congr 1
        obtain ⟨ext, hext⟩ := mungeGo_ext rest (arr ++ [seg])
        rw [hext, List.append_assoc, List.getD_eq_getElem?_getD,
          List.getElem?_append_right (Nat.le_refl arr.length)]
        simp
      · rw [mungeGo_cons_found seg rest arr i hidx]
        simp only [List.flatten_cons, ← ih arr, decodeStr, List.flatMap_cons]
        congr 1
        obtain ⟨h1, h2⟩ := idxOfStr_getD arr seg i hidx
        obtain ⟨ext, hext⟩ := mungeGo_ext rest arr
        rw [hext, List.getD_eq_getElem?_getD, List.getElem?_append_left h2]
        rw [List.getD_eq_getElem?_getD] at h1
        exact h1

theorem decodeStr_stable (arr ext : List Str) : ∀ (s : Str),
    (∀ u ∈ s, u < arr.length) → decodeStr (arr ++ ext) s = decodeStr arr s := by
  intro s
  induction s with
  | nil => intro _; rfl
  | cons u rest ih =>
      intro h
      unfold decodeStr at ih ⊢
      simp only [List.flatMap_cons]
      rw [ih (fun v hv => h v (by simp [hv]))]
      congr 1
      have hu := h u (by simp)
      rw [List.getD_eq_getElem?_getD, List.getD_eq_getElem?_getD,
        List.getElem?_append_left hu]

theorem diff_linesToChars_decode (t1 t2 : Str) :
    decodeStr (diff_linesToChars t1 t2).2.2 (diff_linesToChars t1 t2).1 = t1 ∧
    decodeStr (diff_linesToChars t1 t2).2.2 (diff_linesToChars t1 t2).2.1 = t2 := by
  constructor
  · show decodeStr (mungeGo (splitLinesKeep t2) (mungeGo (splitLinesKeep t1) [[]]).2).2
      (mungeGo (splitLinesKeep t1) [[]]).1 = t1
    obtain ⟨ext, hext⟩ := mungeGo_ext (splitLinesKeep t2) (mungeGo (splitLinesKeep t1) [[]]).2
    rw [hext, decodeStr_stable _ _ _ (mungeGo_bound _ _), mungeGo_decode,
      splitLinesKeep_flatten]
  · show decodeStr (mungeGo (splitLinesKeep t2) (mungeGo (splitLinesKeep t1) [[]]).2).2
      (mungeGo (splitLinesKeep t2) (mungeGo (splitLinesKeep t1) [[]]).2).1 = t2
    rw [mungeGo_decode, splitLinesKeep_flatten]

theorem charsToLines_text1 (arr : List Str) : ∀ (ds : List Diff),
    diff_text1 (diff_charsToLines ds arr) = decodeStr arr (diff_text1 ds) := by
  intro ds
  induction ds with
  | nil => rfl
  | cons d rest ih =>
      simp only [diff_charsToLines, List.map_cons, diff_text1] at ih ⊢
      rw [ih, decodeStr_append]
      by_cases h : d.fOperation = EOperation.eINSERT <;> simp [h, decodeStr]

theorem charsToLines_text2 (arr : List Str) : ∀ (ds : List Diff),
    diff_text2 (diff_charsToLines ds arr) = decodeStr arr (diff_text2 ds) := by
  intro ds
  induction ds with
  | nil => rfl
  | cons d rest ih =>
      simp only [diff_charsToLines, List.map_cons, diff_text2] at ih ⊢
      rw [ih, decodeStr_append]
      by_cases h : d.fOperation = EOperation.eDELETE <;> simp [h, decodeStr]

theorem text_pair (a b : Str) :
    diff_text1 [mkDiff EOperation.eDELETE a, mkDiff EOperation.eINSERT b] = a ∧
    diff_text2 [mkDiff EOperation.eDELETE a, mkDiff EOperation.eINSERT b] = b := by
  simp [diff_text1, diff_text2, mkDiff]

theorem rediffGoWith_text (rec : Bool → Str → Str → List Diff)
    (hrec : ∀ cl a b, diff_text1 (rec cl a b) = a ∧ diff_text2 (rec cl a b) = b) :
    ∀ (ds runRev : List Diff) (tdel tins : Str) (cd ci : Nat),
      diff_text1 runRev.reverse = tdel → diff_text2 runRev.reverse = tins →
      diff_text1 (rediffGoWith rec ds runRev tdel tins cd ci) = tdel ++ diff_text1 ds ∧
      diff_text2 (rediffGoWith rec ds runRev tdel tins cd ci) = tins ++ diff_text2 ds := by
  intro ds
  induction ds with
  | nil =>
      intro runRev tdel tins cd ci h1 h2
      simp only [rediffGoWith, diff_text1, diff_text2]
      split_ifs with hc
      · rw [(hrec false tdel tins).1, (hrec false tdel tins).2]
        simp
      · rw [h1, h2]
        simp
  | cons d rest ih =>
      intro runRev tdel tins cd ci h1 h2
      obtain ⟨op, tx⟩ := d
      cases op with
      | eEQUAL =>
          simp only [rediffGoWith]
          have hmid := ih [] [] [] 0 0 rfl rfl
          rw [List.nil_append, List.nil_append] at hmid
          constructor
          · rw [diff_text1_append]
            simp only [diff_text1, hmid.1]
            split_ifs <;> simp [diff_text1, (hrec false tdel tins).1, h1]
          · rw [diff_text2_append]
            simp only [diff_text2, hmid.2]
            split_ifs <;> simp [diff_text2, (hrec false tdel tins).2, h2]
      | eDELETE =>
          simp only [rediffGoWith]
          have h1' : diff_text1 ((⟨EOperation.eDELETE, tx⟩ : Diff) :: runRev).reverse =
              tdel ++ tx := by
            rw [List.reverse_cons, diff_text1_append, h1]
            simp [diff_text1]
          have h2' : diff_text2 ((⟨EOperation.eDELETE, tx⟩ : Diff) :: runRev).reverse =
              tins := by
            rw [List.reverse_cons, diff_text2_append, h2]
            simp [diff_text2]
          obtain ⟨g1, g2⟩ := ih _ _ _ (cd + 1) ci h1' h2'
          constructor
          · rw [g1]
            simp [diff_text1]
          · rw [g2]
            simp [diff_text2]
      | eINSERT =>
          simp only [rediffGoWith]
          have h1' : diff_text1 ((⟨EOperation.eINSERT, tx⟩ : Diff) :: runRev).reverse =
              tdel := by
            rw [List.reverse_cons, diff_text1_append, h1]
            simp [diff_text1]
          have h2' : diff_text2 ((⟨EOperation.eINSERT, tx⟩ : Diff) :: runRev).reverse =
              tins ++ tx := by
            rw [List.reverse_cons, diff_text2_append, h2]
            simp [diff_text2]
          obtain ⟨g1, g2⟩ := ih _ _ _ cd (ci + 1) h1' h2'
          constructor
          · rw [g1]
            simp [diff_text1]
          · rw [g2]
            simp [diff_text2]

theorem bisectWith_text (rec : Bool → Str → Str → List Diff)
    (hrec : ∀ cl a b, diff_text1 (rec cl a b) = a ∧ diff_text2 (rec cl a b) = b)
    (a b : Str) :
    diff_text1 (bisectWith rec a b) = a ∧ diff_text2 (bisectWith rec a b) = b := by
  unfold bisectWith
  rcases hbl : bisectLoop a b with _ | ⟨x, y⟩
  · exact text_pair a b
  · constructor
    · rw [diff_text1_append, (hrec false _ _).1, (hrec false _ _).1,
        List.take_append_drop]
    · rw [diff_text2_append, (hrec false _ _).2, (hrec false _ _).2,
        List.take_append_drop]

theorem commonOverlapLength_spec (a b : Str) :
    a.drop (a.length - commonOverlapLength a b) = b.take (commonOverlapLength a b) := by
  unfold commonOverlapLength
  rcases hf : ((List.range (min a.length b.length + 1)).reverse).find?
      (fun k => a.drop (a.length - k) == b.take k) with _ | k
  · simp
  · simp only [Option.getD_some]
    have := List.find?_some hf
    simpa using this

theorem slideBest_inv : ∀ (fuel : Nat) (eq1 edit eq2 : Str) (bs : Nat)
    (best : Str × Str × Str),
    best.1 ++ best.2.1 ++ best.2.2 = eq1 ++ edit ++ eq2 →
    best.1 ++ best.2.2 = eq1 ++ eq2 →
    ((slideBest fuel eq1 edit eq2 bs best).1 ++ (slideBest fuel eq1 edit eq2 bs best).2.1 ++
        (slideBest fuel eq1 edit eq2 bs best).2.2 = eq1 ++ edit ++ eq2 ∧
      (slideBest fuel eq1 edit eq2 bs best).1 ++ (slideBest fuel eq1 edit eq2 bs best).2.2 =
        eq1 ++ eq2) := by
  intro fuel
  induction fuel with
  | zero =>
      intro eq1 edit eq2 bs best h1 h2
      exact ⟨h1, h2⟩
  | succ n ih =>
      intro eq1 edit eq2 bs best h1 h2
      rcases edit with _ | ⟨e0, et⟩
      · rw [slideBest]
        exact ⟨h1, h2⟩
      · rcases eq2 with _ | ⟨q0, qt⟩
        · rw [slideBest]
          exact ⟨h1, h2⟩
        · rw [slideBest]
          by_cases heq : e0 = q0
          · rw [if_pos heq]
            have hcat : (eq1 ++ [e0]) ++ (et ++ [q0]) ++ qt =
                eq1 ++ (e0 :: et) ++ (q0 :: qt) := by
              rw [heq]
              simp
            have hpair : (eq1 ++ [e0]) ++ qt = eq1 ++ (q0 :: qt) := by
              rw [heq]
              simp
            split_ifs with hscore
            · have := ih (eq1 ++ [e0]) (et ++ [q0]) qt
                (semanticScore (eq1 ++ [e0]) (et ++ [q0]) + semanticScore (et ++ [q0]) qt)
                (eq1 ++ [e0], et ++ [q0], qt) rfl rfl
              rw [hcat, hpair] at this
              exact this
            · have := ih (eq1 ++ [e0]) (et ++ [q0]) qt bs best
                (by rw [hcat]; exact h1) (by rw [hpair]; exact h2)
              rw [hcat, hpair] at this
              exact this
          · rw [if_neg heq]
            exact ⟨h1, h2⟩

theorem bestSlide_inv (a e b : Str) :
    ((bestSlide a e b).1 ++ (bestSlide a e b).2.1 ++ (bestSlide a e b).2.2 = a ++ e ++ b ∧
      (bestSlide a e b).1 ++ (bestSlide a e b).2.2 = a ++ b) := by
  unfold bestSlide
  have hsuf := commonSuffixLength_drop a e
  have happ : ∀ (p q r s t : Str), p ++ (q ++ r) ++ (s ++ t) = (p ++ q) ++ ((r ++ s) ++ t) := by
    intro p q r s t
    simp [List.append_assoc]
  have hcat : a.take (a.length - commonSuffixLength a e) ++
      (e.drop (e.length - commonSuffixLength a e) ++
        e.take (e.length - commonSuffixLength a e)) ++
      (e.drop (e.length - commonSuffixLength a e) ++ b) = a ++ e ++ b := by
    nth_rewrite 1 [← hsuf]
    rw [happ, List.take_append_drop, List.take_append_drop]
    simp [List.append_assoc]
  have hpair : a.take (a.length - commonSuffixLength a e) ++
      (e.drop (e.length - commonSuffixLength a e) ++ b) = a ++ b := by
    rw [← hsuf, ← List.append_assoc, List.take_append_drop]
  have := slideBest_inv ((e.drop (e.length - commonSuffixLength a e) ++ b).length + 1)
    (a.take (a.length - commonSuffixLength a e))
    (e.drop (e.length - commonSuffixLength a e) ++
      e.take (e.length - commonSuffixLength a e))
    (e.drop (e.length - commonSuffixLength a e) ++ b)
    (semanticScore (a.take (a.length - commonSuffixLength a e))
        (e.drop (e.length - commonSuffixLength a e) ++
          e.take (e.length - commonSuffixLength a e)) +
      semanticScore
        (e.drop (e.length - commonSuffixLength a e) ++
          e.take (e.length - commonSuffixLength a e))
        (e.drop (e.length - commonSuffixLength a e) ++ b))
    (a.take (a.length - commonSuffixLength a e),
      e.drop (e.length - commonSuffixLength a e) ++
        e.take (e.length - commonSuffixLength a e),
      e.drop (e.length - commonSuffixLength a e) ++ b) rfl rfl
  rw [hcat, hpair] at this
  exact this

theorem diff_cleanupMerge_text (l : List Diff) :
    diff_text1 (diff_cleanupMerge l) = diff_text1 l ∧
    diff_text2 (diff_cleanupMerge l) = diff_text2 l := by
  unfold diff_cleanupMerge
  exact cleanupMergeLoop_text _ l


theorem window_core_t1 (e1t edt e2t : Str) (op : EOperation) :
    (bestSlide e1t edt e2t).1 ++
      ((if op = EOperation.eINSERT then [] else (bestSlide e1t edt e2t).2.1) ++
        (bestSlide e1t edt e2t).2.2) =
    e1t ++ ((if op = EOperation.eINSERT then [] else edt) ++ e2t) := by
  obtain ⟨hi, hii⟩ := bestSlide_inv e1t edt e2t
  by_cases h : op = EOperation.eINSERT
  · simp only [if_pos h, List.nil_append]
    exact hii
  · simp only [if_neg h]
    simpa [List.append_assoc] using hi

theorem window_core_t2 (e1t edt e2t : Str) (op : EOperation) :
    (bestSlide e1t edt e2t).1 ++
      ((if op = EOperation.eDELETE then [] else (bestSlide e1t edt e2t).2.1) ++
        (bestSlide e1t edt e2t).2.2) =
    e1t ++ ((if op = EOperation.eDELETE then [] else edt) ++ e2t) := by
  obtain ⟨hi, hii⟩ := bestSlide_inv e1t edt e2t
  by_cases h : op = EOperation.eDELETE
  · simp only [if_pos h, List.nil_append]
    exact hii
  · simp only [if_neg h]
    simpa [List.append_assoc] using hi

theorem ifEqIns (t : Str) :
    (if EOperation.eEQUAL = EOperation.eINSERT then ([] : Str) else t) = t := rfl

theorem ifEqDel (t : Str) :
    (if EOperation.eEQUAL = EOperation.eDELETE then ([] : Str) else t) = t := rfl

theorem losslessGo_text : ∀ (fuel : Nat) (doneRev rest : List Diff),
    diff_text1 (losslessGo fuel doneRev rest) =
      diff_text1 doneRev.reverse ++ diff_text1 rest ∧
    diff_text2 (losslessGo fuel doneRev rest) =
      diff_text2 doneRev.reverse ++ diff_text2 rest := by
  intro fuel
  induction fuel with
  | zero =>
      intro doneRev rest
      rw [losslessGo, diff_text1_append, diff_text2_append]
      exact ⟨rfl, rfl⟩
  | succ n ih =>
      intro doneRev rest
      have hstep : ∀ (dR : List Diff) (d : Diff) (r : List Diff),
          diff_text1 (losslessGo n (d :: dR) r) =
            diff_text1 dR.reverse ++ diff_text1 (d :: r) ∧
          diff_text2 (losslessGo n (d :: dR) r) =
            diff_text2 dR.reverse ++ diff_text2 (d :: r) := by
        intro dR d r
        obtain ⟨g1, g2⟩ := ih (d :: dR) r
        rw [g1, g2, List.reverse_cons, diff_text1_append, diff_text2_append]
        constructor
        · simp [diff_text1, List.append_assoc]
        · simp [diff_text2, List.append_assoc]
      rcases rest with _ | ⟨e1, _ | ⟨ed, _ | ⟨e2, tail⟩⟩⟩
      · rw [losslessGo]
        simp [diff_text1, diff_text2]
      · rw [losslessGo, diff_text1_append, diff_text2_append]
        exact ⟨rfl, rfl⟩
      · rw [losslessGo, diff_text1_append, diff_text2_append]
        exact ⟨rfl, rfl⟩
      · rw [losslessGo]
        by_cases hops : e1.fOperation = EOperation.eEQUAL ∧ e2.fOperation = EOperation.eEQUAL
        case neg =>
          rw [if_neg hops]
          exact hstep doneRev e1 (ed :: e2 :: tail)
        case pos =>
          rw [if_pos hops]
          have hc1 := window_core_t1 e1.fText ed.fText e2.fText ed.fOperation
          have hc2 := window_core_t2 e1.fText ed.fText e2.fText ed.fOperation
          have he1ins : ¬(e1.fOperation = EOperation.eINSERT) := by rw [hops.1]; decide
          have he2ins : ¬(e2.fOperation = EOperation.eINSERT) := by rw [hops.2]; decide
          have he1del : ¬(e1.fOperation = EOperation.eDELETE) := by rw [hops.1]; decide
          have he2del : ¬(e2.fOperation = EOperation.eDELETE) := by rw [hops.2]; decide
          by_cases hb : (bestSlide e1.fText ed.fText e2.fText).1 = e1.fText
          · rw [if_pos hb]
            exact hstep doneRev e1 (ed :: e2 :: tail)
          · rw [if_neg hb]
            by_cases hb1 : (bestSlide e1.fText ed.fText e2.fText).1 = []
            · rw [if_pos hb1]
              rw [hb1] at hc1 hc2
              simp only [List.nil_append] at hc1 hc2
              by_cases hb2 : (bestSlide e1.fText ed.fText e2.fText).2.2 = []
              · rw [if_pos hb2]
                rw [hb2] at hc1 hc2
                simp only [List.append_nil] at hc1 hc2
                obtain ⟨g1, g2⟩ := ih doneRev
                  ((⟨ed.fOperation, (bestSlide e1.fText ed.fText e2.fText).2.1⟩ : Diff) :: tail)
                rw [g1, g2]
                constructor
                · simp only [diff_text1, if_neg he1ins, if_neg he2ins]
                  congr 1
                  rw [← List.append_assoc, hc1]
                  simp [List.append_assoc]
                · simp only [diff_text2, if_neg he1del, if_neg he2del]
                  congr 1
                  rw [← List.append_assoc, hc2]
                  simp [List.append_assoc]
              · rw [if_neg hb2]
                obtain ⟨g1, g2⟩ := ih doneRev
                  ((⟨ed.fOperation, (bestSlide e1.fText ed.fText e2.fText).2.1⟩ : Diff) ::
                    (⟨EOperation.eEQUAL, (bestSlide e1.fText ed.fText e2.fText).2.2⟩ : Diff) :: tail)
                rw [g1, g2]
                constructor
                · simp only [diff_text1, if_neg he1ins, if_neg he2ins, ifEqIns]
                  congr 1
                  rw [← List.append_assoc, ← List.append_assoc, hc1]
                  simp [List.append_assoc]
                · simp only [diff_text2, if_neg he1del, if_neg he2del, ifEqDel]
                  congr 1
                  rw [← List.append_assoc, ← List.append_assoc, hc2]
                  simp [List.append_assoc]
            · rw [if_neg hb1]
              by_cases hb2 : (bestSlide e1.fText ed.fText e2.fText).2.2 = []
              · rw [if_pos hb2]
                rw [hb2] at hc1 hc2
                simp only [List.append_nil] at hc1 hc2
                obtain ⟨g1, g2⟩ := ih
                  ((⟨EOperation.eEQUAL, (bestSlide e1.fText ed.fText e2.fText).1⟩ : Diff) :: doneRev)
                  ((⟨ed.fOperation, (bestSlide e1.fText ed.fText e2.fText).2.1⟩ : Diff) :: tail)
                rw [g1, g2, List.reverse_cons, diff_text1_append, diff_text2_append]
                constructor
                · simp only [diff_text1, if_neg he1ins, if_neg he2ins, ifEqIns,
                    List.append_nil, List.append_assoc]
                  congr 1
                  rw [← List.append_assoc, ← List.append_assoc, hc1]
                  simp [List.append_assoc]
                · simp only [diff_text2, if_neg he1del, if_neg he2del, ifEqDel,
                    List.append_nil, List.append_assoc]
                  congr 1
                  rw [← List.append_assoc, ← List.append_assoc, hc2]
                  simp [List.append_assoc]
              · rw [if_neg hb2]
                obtain ⟨g1, g2⟩ := ih
                  ((⟨EOperation.eEQUAL, (bestSlide e1.fText ed.fText e2.fText).1⟩ : Diff) :: doneRev)
                  ((⟨ed.fOperation, (bestSlide e1.fText ed.fText e2.fText).2.1⟩ : Diff) ::
                    (⟨EOperation.eEQUAL, (bestSlide e1.fText ed.fText e2.fText).2.2⟩ : Diff) :: tail)
                rw [g1, g2, List.reverse_cons, diff_text1_append, diff_text2_append]
                have hcT1 : ∀ z : Str,
                    (bestSlide e1.fText ed.fText e2.fText).1 ++
                      ((if ed.fOperation = EOperation.eINSERT then []
                          else (bestSlide e1.fText ed.fText e2.fText).2.1) ++
                        ((bestSlide e1.fText ed.fText e2.fText).2.2 ++ z)) =
                    e1.fText ++
                      ((if ed.fOperation = EOperation.eINSERT then [] else ed.fText) ++
                        (e2.fText ++ z)) := by
                  intro z
                  have := congrArg (fun w => w ++ z) hc1
                  simpa [List.append_assoc] using this
                have hcT2 : ∀ z : Str,
                    (bestSlide e1.fText ed.fText e2.fText).1 ++
                      ((if ed.fOperation = EOperation.eDELETE then []
                          else (bestSlide e1.fText ed.fText e2.fText).2.1) ++
                        ((bestSlide e1.fText ed.fText e2.fText).2.2 ++ z)) =
                    e1.fText ++
                      ((if ed.fOperation = EOperation.eDELETE then [] else ed.fText) ++
                        (e2.fText ++ z)) := by
                  intro z
                  have := congrArg (fun w => w ++ z) hc2
                  simpa [List.append_assoc] using this
                constructor
                · simp only [diff_text1, if_neg he1ins, if_neg he2ins, ifEqIns,
                    List.append_nil, List.append_assoc]
                  rw [hcT1 (diff_text1 tail)]
                · simp only [diff_text2, if_neg he1del, if_neg he2del, ifEqDel,
                    List.append_nil, List.append_assoc]
                  rw [hcT2 (diff_text2 tail)]

theorem get?_decomp {α : Type} : ∀ (l : List α) (i : Nat) (x : α), l.get? i = some x →
    l = l.take i ++ x :: l.drop (i + 1) := by
  intro l
  induction l with
  | nil => intro i x h; simp at h
  | cons a t ih =>
      intro i x h
      cases i with
      | zero =>
          rw [List.get?_cons_zero, Option.some.injEq] at h
          simp [h]
      | succ j =>
          rw [List.get?_cons_succ] at h
          have := ih j x h
          simp only [List.take_succ_cons, List.drop_succ_cons, List.cons_append,
            List.cons.injEq, true_and]
          exact this

theorem surgery_text1 (l : List Diff) (i : Nat) (le : Str)
    (h : l.get? i = some ⟨EOperation.eEQUAL, le⟩) :
    diff_text1 (l.take i ++
      [mkDiff EOperation.eDELETE le, mkDiff EOperation.eINSERT le] ++ l.drop (i + 1)) =
    diff_text1 l ∧
    diff_text2 (l.take i ++
      [mkDiff EOperation.eDELETE le, mkDiff EOperation.eINSERT le] ++ l.drop (i + 1)) =
    diff_text2 l := by
  have hdec := get?_decomp l i _ h
  constructor
  · rw [diff_text1_append, diff_text1_append]
    nth_rewrite 3 [hdec]
    rw [diff_text1_append]
    simp [diff_text1, mkDiff]
  · rw [diff_text2_append, diff_text2_append]
    nth_rewrite 3 [hdec]
    rw [diff_text2_append]
    simp [diff_text2, mkDiff]

theorem semElimGo_text : ∀ (fuel : Nat) (diffs : List Diff) (pointer : Nat)
    (eqStack : List Nat) (lastEq : Option Str) (i1 d1 i2 d2 : Nat) (ch : Bool),
    (∀ le, lastEq = some le → ∃ i, eqStack.head? = some i ∧
      diffs.get? i = some ⟨EOperation.eEQUAL, le⟩) →
    diff_text1 (semElimGo fuel diffs pointer eqStack lastEq i1 d1 i2 d2 ch).1 =
      diff_text1 diffs ∧
    diff_text2 (semElimGo fuel diffs pointer eqStack lastEq i1 d1 i2 d2 ch).1 =
      diff_text2 diffs := by
  intro fuel
  induction fuel with
  | zero =>
      intro diffs pointer eqStack lastEq i1 d1 i2 d2 ch _
      exact ⟨rfl, rfl⟩
  | succ n ih =>
      intro diffs pointer eqStack lastEq i1 d1 i2 d2 ch hinv
      rw [semElimGo]
      rcases hget : diffs.get? pointer with _ | d
      · exact ⟨rfl, rfl⟩
      · simp only []
        by_cases hop : d.fOperation = EOperation.eEQUAL
        · rw [if_pos hop]
          apply ih
          intro le hle
          rw [Option.some.injEq] at hle
          refine ⟨pointer, by rw [List.head?_cons], ?_⟩
          rw [hget]
          congr 1
          obtain ⟨o, t⟩ := d
          simp at hop
          rw [hop, ← hle]
        · rw [if_neg hop]
          rcases hlq : lastEq with _ | le
          · subst hlq
            exact ih diffs (pointer + 1) eqStack none i1 d1 _ _ ch (by simp)
          · subst hlq
            simp only []
            obtain ⟨i, hhead, hgeti⟩ := hinv le rfl
            have hheadD : eqStack.headD 0 = i := by
              cases eqStack with
              | nil => simp at hhead
              | cons a t =>
                  rw [List.head?_cons, Option.some.injEq] at hhead
                  simp [hhead]
            rw [hheadD]
            obtain ⟨s1, s2⟩ := surgery_text1 diffs i le hgeti
            obtain ⟨g1, g2⟩ := ih
              (diffs.take i ++
                [mkDiff EOperation.eDELETE le, mkDiff EOperation.eINSERT le] ++
                  diffs.drop (i + 1))
              (match (eqStack.drop 2).head? with | some q => q + 1 | none => 0)
              (eqStack.drop 2) none 0 0 0 0 true (by simp)
            split_ifs <;>
              first
                | exact ⟨g1.trans s1, g2.trans s2⟩
                | exact ih diffs (pointer + 1) eqStack (some le) i1 d1 _ _ ch hinv

theorem overlapGo_text : ∀ (fuel : Nat) (doneRev rest : List Diff),
    diff_text1 (overlapGo fuel doneRev rest) =
      diff_text1 doneRev.reverse ++ diff_text1 rest ∧
    diff_text2 (overlapGo fuel doneRev rest) =
      diff_text2 doneRev.reverse ++ diff_text2 rest := by
  intro fuel
  induction fuel with
  | zero =>
      intro doneRev rest
      rw [overlapGo, diff_text1_append, diff_text2_append]
      exact ⟨rfl, rfl⟩
  | succ n ih =>
      intro doneRev rest
      have hstep : ∀ (dR : List Diff) (d : Diff) (r : List Diff),
          diff_text1 (overlapGo n (d :: dR) r) =
            diff_text1 dR.reverse ++ diff_text1 (d :: r) ∧
          diff_text2 (overlapGo n (d :: dR) r) =
            diff_text2 dR.reverse ++ diff_text2 (d :: r) := by
        intro dR d r
        obtain ⟨g1, g2⟩ := ih (d :: dR) r
        rw [g1, g2, List.reverse_cons, diff_text1_append, diff_text2_append]
        constructor
        · simp [diff_text1, List.append_assoc]
        · simp [diff_text2, List.append_assoc]
      have hstep3 : ∀ (dR : List Diff) (x y z : Diff) (r : List Diff),
          diff_text1 (overlapGo n (x :: y :: z :: dR) r) =
            diff_text1 dR.reverse ++ diff_text1 (z :: y :: x :: r) ∧
          diff_text2 (overlapGo n (x :: y :: z :: dR) r) =
            diff_text2 dR.reverse ++ diff_text2 (z :: y :: x :: r) := by
        intro dR x y z r
        obtain ⟨g1, g2⟩ := ih (x :: y :: z :: dR) r
        rw [g1, g2]
        simp only [List.reverse_cons, List.append_assoc, diff_text1_append,
          diff_text2_append]
        constructor
        · simp [diff_text1, List.append_assoc]
        · simp [diff_text2, List.append_assoc]
      rcases rest with _ | ⟨d1, _ | ⟨d2, tail⟩⟩
      · rw [overlapGo]
        simp [diff_text1, diff_text2]
      · rw [overlapGo, diff_text1_append, diff_text2_append]
        exact ⟨rfl, rfl⟩
      · rw [overlapGo]
        by_cases hops : d1.fOperation = EOperation.eDELETE ∧ d2.fOperation = EOperation.eINSERT
        case neg =>
          rw [if_neg hops]
          exact hstep doneRev d1 (d2 :: tail)
        case pos =>
          rw [if_pos hops]
          have hov1 := commonOverlapLength_spec d1.fText d2.fText
          have hov2 := commonOverlapLength_spec d2.fText d1.fText
          split_ifs with ho hgate hgate2
          · obtain ⟨g1, g2⟩ := hstep3 doneRev
              (⟨EOperation.eINSERT, d2.fText.drop (commonOverlapLength d1.fText d2.fText)⟩ : Diff)
              (⟨EOperation.eEQUAL, d2.fText.take (commonOverlapLength d1.fText d2.fText)⟩ : Diff)
              (⟨EOperation.eDELETE,
                d1.fText.take (d1.fText.length - commonOverlapLength d1.fText d2.fText)⟩ : Diff)
              tail
            rw [g1, g2]
            constructor
            · congr 1
              simp only [diff_text1, hops.1, hops.2]
              simp
              rw [← hov1, ← List.append_assoc, List.take_append_drop]
            · congr 1
              simp only [diff_text2, hops.1, hops.2]
              simp
              rw [← List.append_assoc, List.take_append_drop]
          · exact hstep doneRev d1 (d2 :: tail)
          · obtain ⟨g1, g2⟩ := hstep3 doneRev
              (⟨EOperation.eDELETE, d1.fText.drop (commonOverlapLength d2.fText d1.fText)⟩ : Diff)
              (⟨EOperation.eEQUAL, d1.fText.take (commonOverlapLength d2.fText d1.fText)⟩ : Diff)
              (⟨EOperation.eINSERT,
                d2.fText.take (d2.fText.length - commonOverlapLength d2.fText d1.fText)⟩ : Diff)
              tail
            rw [g1, g2]
            constructor
            · congr 1
              simp only [diff_text1, hops.1, hops.2]
              simp
              rw [← List.append_assoc, List.take_append_drop]
            · congr 1
              simp only [diff_text2, hops.1, hops.2]
              simp
              rw [← hov2, ← List.append_assoc, List.take_append_drop]
          · exact hstep doneRev d1 (d2 :: tail)

theorem diff_cleanupSemanticLossless_text (l : List Diff) :
    diff_text1 (diff_cleanupSemanticLossless l) = diff_text1 l ∧
    diff_text2 (diff_cleanupSemanticLossless l) = diff_text2 l := by
  unfold diff_cleanupSemanticLossless
  obtain ⟨g1, g2⟩ := losslessGo_text l.length [] l
  rw [g1, g2]
  exact ⟨rfl, rfl⟩

theorem overlapPass_text (l : List Diff) :
    diff_text1 (overlapGo l.length [] l) = diff_text1 l ∧
    diff_text2 (overlapGo l.length [] l) = diff_text2 l := by
  obtain ⟨g1, g2⟩ := overlapGo_text l.length [] l
  rw [g1, g2]
  exact ⟨rfl, rfl⟩

theorem mergeIf_text (b : Bool) (l : List Diff) :
    diff_text1 (if b = true then diff_cleanupMerge l else l) = diff_text1 l ∧
    diff_text2 (if b = true then diff_cleanupMerge l else l) = diff_text2 l := by
  split_ifs
  · exact diff_cleanupMerge_text l
  · exact ⟨rfl, rfl⟩

theorem diff_cleanupSemantic_text (ds : List Diff) :
    diff_text1 (diff_cleanupSemantic ds) = diff_text1 ds ∧
    diff_text2 (diff_cleanupSemantic ds) = diff_text2 ds := by
  unfold diff_cleanupSemantic
  obtain ⟨e1, e2⟩ := semElimGo_text (3 * (ds.length + 1) * (ds.length + 1)) ds 0 [] none
    0 0 0 0 false (by simp)
  constructor
  · exact (overlapPass_text _).1.trans
      ((diff_cleanupSemanticLossless_text _).1.trans ((mergeIf_text _ _).1.trans e1))
  · exact (overlapPass_text _).2.trans
      ((diff_cleanupSemanticLossless_text _).2.trans ((mergeIf_text _ _).2.trans e2))

theorem take_drop_take_drop {α : Type} (l : List α) (x y : Nat) :
    l.take x ++ ((l.drop x).take y ++ l.drop (x + y)) = l := by
  rw [← List.drop_drop, List.take_append_drop, List.take_append_drop]

theorem indexOfFrom_le (t p : Str) (s j : Nat) (h : indexOfFrom t p s = some j) :
    j ≤ t.length := by
  unfold indexOfFrom at h
  have := List.mem_of_find?_eq_some h
  rw [List.mem_range] at this
  omega

theorem halfMatchIGo_post (long short : Str) (i : Nat) (seed : Str) :
    ∀ (fuel from_ : Nat) (best : Option (Nat × Nat × Nat)),
    (∀ s p j, best = some (s, p, j) →
      s = commonSuffixLength (long.take i) (short.take j) ∧
      p = commonPrefixLength (long.drop i) (short.drop j) ∧ j ≤ short.length) →
    ∀ s p j, halfMatchIGo long short i seed fuel from_ best = some (s, p, j) →
      s = commonSuffixLength (long.take i) (short.take j) ∧
      p = commonPrefixLength (long.drop i) (short.drop j) ∧ j ≤ short.length := by
  intro fuel
  induction fuel with
  | zero =>
      intro from_ best hbest s p j h
      exact hbest s p j h
  | succ n ih =>
      intro from_ best hbest s p j h
      simp only [halfMatchIGo] at h
      rcases hidx : indexOfFrom short seed from_ with _ | j0 <;> rw [hidx] at h <;>
        simp only [] at h
      · exact hbest s p j h
      · split_ifs at h
        · refine ih (j0 + 1) _ ?_ s p j h
          intro s' p' j' h'
          rw [Option.some.injEq, Prod.mk.injEq, Prod.mk.injEq] at h'
          obtain ⟨hs, hp, hj⟩ := h'
          subst hs
          subst hp
          subst hj
          exact ⟨rfl, rfl, indexOfFrom_le short seed from_ _ hidx⟩
        · exact ih (j0 + 1) best hbest s p j h

theorem halfMatchAt_spec (long short : Str) (i : Nat) (hi : i ≤ long.length)
    (r : Str × Str × Str × Str × Str) (h : halfMatchAt long short i = some r) :
    long = r.1 ++ r.2.2.2.2 ++ r.2.1 ∧ short = r.2.2.1 ++ r.2.2.2.2 ++ r.2.2.2.1 := by
  unfold halfMatchAt at h
  rcases hgo : halfMatchIGo long short i ((long.drop i).take (long.length / 4))
      (short.length + 2) 0 none with _ | spj <;> rw [hgo] at h <;> simp only [] at h
  · exact absurd h (by simp)
  · obtain ⟨s, p, j⟩ := spj
    obtain ⟨hs, hp, hj⟩ := halfMatchIGo_post long short i _ (short.length + 2) 0 none
      (by intro s' p' j' h'; simp at h') s p j hgo
    simp only [] at h
    split_ifs at h
    rw [Option.some.injEq] at h
    subst h
    have hsi : s ≤ i := by
      have := commonSuffixLength_le_left (long.take i) (short.take j)
      rw [List.length_take] at this
      omega
    have hsj : s ≤ j := by
      have := commonSuffixLength_le_right (long.take i) (short.take j)
      rw [List.length_take] at this
      omega
    have hmid : (short.drop (j - s)).take (s + p) = (long.drop (i - s)).take (s + p) := by
      have hsfx := commonSuffixLength_drop (long.take i) (short.take j)
      rw [← hs] at hsfx
      rw [List.drop_take, List.drop_take, List.length_take, List.length_take] at hsfx
      have hli : min i long.length = i := by omega
      have hlj : min j short.length = j := by omega
      rw [hli, hlj] at hsfx
      have hisis : i - (i - s) = s := by omega
      have hjsjs : j - (j - s) = s := by omega
      rw [hisis] at hsfx
      rw [hjsjs] at hsfx
      have hpfx := commonPrefixLength_take (long.drop i) (short.drop j)
      rw [← hp] at hpfx
      rw [List.take_add, List.take_add, List.drop_drop, List.drop_drop]
      have hii : i - s + s = i := by omega
      have hjj : j - s + s = j := by omega
      rw [hii, hjj, hsfx, hpfx]
    constructor
    · show long = long.take (i - s) ++ (short.drop (j - s)).take (s + p) ++
        long.drop (i + p)
      rw [hmid, List.append_assoc]
      have hip : (i - s) + (s + p) = i + p := by omega
      rw [← hip]
      exact (take_drop_take_drop long (i - s) (s + p)).symm
    · show short = short.take (j - s) ++ (short.drop (j - s)).take (s + p) ++
        short.drop ((j - s) + (s + p))
      rw [List.append_assoc]
      exact (take_drop_take_drop short (j - s) (s + p)).symm

theorem halfMatchPick_spec (long short : Str)
    (hi1 : (long.length + 3) / 4 ≤ long.length)
    (hi2 : (long.length + 1) / 2 ≤ long.length)
    (r : Str × Str × Str × Str × Str) (h : halfMatchPick long short = some r) :
    long = r.1 ++ r.2.2.2.2 ++ r.2.1 ∧ short = r.2.2.1 ++ r.2.2.2.2 ++ r.2.2.2.1 := by
  unfold halfMatchPick at h
  rcases h1 : halfMatchAt long short ((long.length + 3) / 4) with _ | c1 <;>
    rcases h2 : halfMatchAt long short ((long.length + 1) / 2) with _ | c2 <;>
      rw [h1, h2] at h <;> simp only [] at h
  · exact absurd h (by simp)
  · rw [Option.some.injEq] at h
    subst h
    exact halfMatchAt_spec long short _ hi2 _ h2
  · rw [Option.some.injEq] at h
    subst h
    exact halfMatchAt_spec long short _ hi1 _ h1
  · split_ifs at h <;> rw [Option.some.injEq] at h <;> subst h
    · exact halfMatchAt_spec long short _ hi1 _ h1
    · exact halfMatchAt_spec long short _ hi2 _ h2

theorem diff_halfMatch_spec (t1 t2 : Str) (r : Str × Str × Str × Str × Str)
    (h : diff_halfMatch t1 t2 = some r) :
    t1 = r.1 ++ r.2.2.2.2 ++ r.2.1 ∧ t2 = r.2.2.1 ++ r.2.2.2.2 ++ r.2.2.2.1 := by
  unfold diff_halfMatch at h
  by_cases hlen : t2.length < t1.length
  · rw [if_pos hlen] at h
    by_cases hgate : t1.length < 4 ∨ 2 * t2.length < t1.length
    · rw [if_pos hgate] at h
      exact absurd h (by simp)
    · rw [if_neg hgate] at h
      rcases hp : halfMatchPick t1 t2 with _ | c <;> rw [hp] at h
      · exact absurd h (by simp)
      · have hc := Option.some.inj h
        subst hc
        push_neg at hgate
        exact halfMatchPick_spec t1 t2 (by omega) (by omega) c hp
  · rw [if_neg hlen] at h
    by_cases hgate2 : t2.length < 4 ∨ 2 * t1.length < t2.length
    · rw [if_pos hgate2] at h
      exact absurd h (by simp)
    · rw [if_neg hgate2] at h
      rcases hp : halfMatchPick t2 t1 with _ | c <;> rw [hp] at h
      · exact absurd h (by simp)
      · have hc := Option.some.inj h
        subst hc
        push_neg at hgate2
        obtain ⟨g1, g2⟩ := halfMatchPick_spec t2 t1 (by omega) (by omega) c hp
        exact ⟨g2, g1⟩

theorem indexOfFrom_decomp (t p : Str) (s j : Nat) (h : indexOfFrom t p s = some j) :
    t = t.take j ++ p ++ t.drop (j + p.length) := by
  unfold indexOfFrom at h
  have hp := List.find?_some h
  simp only [Bool.and_eq_true, decide_eq_true_eq, List.isPrefixOf_iff_prefix] at hp
  obtain ⟨r, hr⟩ := hp.2
  have hdrop : t.drop (j + p.length) = r := by
    have h0 : (t.drop j).drop p.length = r := by rw [← hr, List.drop_left]
    rw [List.drop_drop] at h0
    exact h0
  calc t = t.take j ++ t.drop j := (List.take_append_drop j t).symm
    _ = t.take j ++ (p ++ r) := by rw [← hr]
    _ = t.take j ++ p ++ t.drop (j + p.length) := by rw [hdrop, List.append_assoc]

theorem condEq_text1 (c : Str) :
    diff_text1 (if c = [] then ([] : List Diff) else [mkDiff EOperation.eEQUAL c]) = c := by
  split_ifs with h
  · rw [h]; rfl
  · simp [diff_text1, mkDiff]

theorem condEq_text2 (c : Str) :
    diff_text2 (if c = [] then ([] : List Diff) else [mkDiff EOperation.eEQUAL c]) = c := by
  split_ifs with h
  · rw [h]; rfl
  · simp [diff_text2, mkDiff]

theorem lineModeWith_text (rec : Bool → Str → Str → List Diff)
    (hrec : ∀ cl a b, diff_text1 (rec cl a b) = a ∧ diff_text2 (rec cl a b) = b)
    (a b : Str) :
    diff_text1 (lineModeWith rec a b) = a ∧ diff_text2 (lineModeWith rec a b) = b := by
  obtain ⟨hr1, hr2⟩ := hrec false (diff_linesToChars a b).1 (diff_linesToChars a b).2.1
  have h1 : diff_text1 (diff_charsToLines
      (rec false (diff_linesToChars a b).1 (diff_linesToChars a b).2.1)
      (diff_linesToChars a b).2.2) = a := by
    rw [charsToLines_text1, hr1]
    exact (diff_linesToChars_decode a b).1
  have h2 : diff_text2 (diff_charsToLines
      (rec false (diff_linesToChars a b).1 (diff_linesToChars a b).2.1)
      (diff_linesToChars a b).2.2) = b := by
    rw [charsToLines_text2, hr2]
    exact (diff_linesToChars_decode a b).2
  obtain ⟨hs1, hs2⟩ := diff_cleanupSemantic_text (diff_charsToLines
    (rec false (diff_linesToChars a b).1 (diff_linesToChars a b).2.1)
    (diff_linesToChars a b).2.2)
  obtain ⟨hg1, hg2⟩ := rediffGoWith_text rec hrec
    (diff_cleanupSemantic (diff_charsToLines
      (rec false (diff_linesToChars a b).1 (diff_linesToChars a b).2.1)
      (diff_linesToChars a b).2.2)) [] [] [] 0 0 rfl rfl
  constructor
  · show diff_text1 (rediffGoWith rec
      (diff_cleanupSemantic (diff_charsToLines
        (rec false (diff_linesToChars a b).1 (diff_linesToChars a b).2.1)
        (diff_linesToChars a b).2.2)) [] [] [] 0 0) = a
    rw [hg1, List.nil_append, hs1, h1]
  · show diff_text2 (rediffGoWith rec
      (diff_cleanupSemantic (diff_charsToLines
        (rec false (diff_linesToChars a b).1 (diff_linesToChars a b).2.1)
        (diff_linesToChars a b).2.2)) [] [] [] 0 0) = b
    rw [hg2, List.nil_append, hs2, h2]

theorem computeWith_text (rec : Bool → Str → Str → List Diff)
    (hrec : ∀ cl a b, diff_text1 (rec cl a b) = a ∧ diff_text2 (rec cl a b) = b)
    (useHM checklines : Bool) (a b : Str) :
    diff_text1 (computeWith rec useHM checklines a b) = a ∧
    diff_text2 (computeWith rec useHM checklines a b) = b := by
  unfold computeWith
  by_cases ha : a = []
  · rw [if_pos ha]
    subst ha
    constructor <;> simp [diff_text1, diff_text2, mkDiff]
  · rw [if_neg ha]
    by_cases hb : b = []
    · rw [if_pos hb]
      subst hb
      constructor <;> simp [diff_text1, diff_text2, mkDiff]
    · rw [if_neg hb]
      simp only []
      by_cases hor : b.length < a.length
      · simp only [if_pos hor]
        rcases hix : indexOfFrom a b 0 with _ | i <;> simp only []
        · by_cases hone : b.length = 1
          · rw [if_pos hone]
            exact text_pair a b
          · rw [if_neg hone]
            rcases hhm : (if useHM then diff_halfMatch a b else none) with _ | hm <;>
              simp only []
            · by_cases hcl : checklines = true ∧ 100 < a.length ∧ 100 < b.length
              · rw [if_pos hcl]
                exact lineModeWith_text rec hrec a b
              · rw [if_neg hcl]
                exact bisectWith_text rec hrec a b
            · have hget : diff_halfMatch a b = some hm := by
                by_cases hu : useHM
                · rwa [if_pos hu] at hhm
                · rw [if_neg hu] at hhm
                  exact absurd hhm (by simp)
              obtain ⟨g1, g2⟩ := diff_halfMatch_spec a b hm hget
              obtain ⟨r11, r12⟩ := hrec checklines hm.1 hm.2.2.1
              obtain ⟨r21, r22⟩ := hrec checklines hm.2.1 hm.2.2.2.1
              constructor
              · rw [diff_text1_append]
                simp only [diff_text1, mkDiff, ifEqIns]
                rw [r11, r21]
                rw [← List.append_assoc]
                exact g1.symm
              · rw [diff_text2_append]
                simp only [diff_text2, mkDiff, ifEqDel]
                rw [r12, r22]
                rw [← List.append_assoc]
                exact g2.symm
        · have hd := indexOfFrom_decomp a b 0 i hix
          constructor
          · simp only [diff_text1, mkDiff]
            simp only [List.append_nil]
            rw [← List.append_assoc]
            exact hd.symm
          · simp [diff_text2, mkDiff]
      · simp only [if_neg hor]
        rcases hix : indexOfFrom b a 0 with _ | i <;> simp only []
        · by_cases hone : a.length = 1
          · rw [if_pos hone]
            exact text_pair a b
          · rw [if_neg hone]
            rcases hhm : (if useHM then diff_halfMatch a b else none) with _ | hm <;>
              simp only []
            · by_cases hcl : checklines = true ∧ 100 < a.length ∧ 100 < b.length
              · rw [if_pos hcl]
                exact lineModeWith_text rec hrec a b
              · rw [if_neg hcl]
                exact bisectWith_text rec hrec a b
            · have hget : diff_halfMatch a b = some hm := by
                by_cases hu : useHM
                · rwa [if_pos hu] at hhm
                · rw [if_neg hu] at hhm
                  exact absurd hhm (by simp)
              obtain ⟨g1, g2⟩ := diff_halfMatch_spec a b hm hget
              obtain ⟨r11, r12⟩ := hrec checklines hm.1 hm.2.2.1
              obtain ⟨r21, r22⟩ := hrec checklines hm.2.1 hm.2.2.2.1
              constructor
              · rw [diff_text1_append]
                simp only [diff_text1, mkDiff, ifEqIns]
                rw [r11, r21]
                rw [← List.append_assoc]
                exact g1.symm
              · rw [diff_text2_append]
                simp only [diff_text2, mkDiff, ifEqDel]
                rw [r12, r22]
                rw [← List.append_assoc]
                exact g2.symm
        · have hd := indexOfFrom_decomp b a 0 i hix
          constructor
          · simp [diff_text1, mkDiff]
          · simp only [diff_text2, mkDiff]
            simp only [List.append_nil]
            rw [← List.append_assoc]
            exact hd.symm

theorem stripWrap_text (rec : Bool → Str → Str → List Diff)
    (hrec : ∀ cl a b, diff_text1 (rec cl a b) = a ∧ diff_text2 (rec cl a b) = b)
    (useHM checklines : Bool) (t1 t2 : Str) (p s : Nat)
    (hp : t1.take p = t2.take p)
    (hs : (t1.drop p).drop ((t1.drop p).length - s) =
          (t2.drop p).drop ((t2.drop p).length - s)) :
    diff_text1 (diff_cleanupMerge
      ((if t1.take p = [] then [] else [mkDiff EOperation.eEQUAL (t1.take p)]) ++
        computeWith rec useHM checklines
          ((t1.drop p).take ((t1.drop p).length - s))
          ((t2.drop p).take ((t2.drop p).length - s)) ++
        (if (t1.drop p).drop ((t1.drop p).length - s) = [] then []
         else [mkDiff EOperation.eEQUAL
           ((t1.drop p).drop ((t1.drop p).length - s))]))) = t1 ∧
    diff_text2 (diff_cleanupMerge
      ((if t1.take p = [] then [] else [mkDiff EOperation.eEQUAL (t1.take p)]) ++
        computeWith rec useHM checklines
          ((t1.drop p).take ((t1.drop p).length - s))
          ((t2.drop p).take ((t2.drop p).length - s)) ++
        (if (t1.drop p).drop ((t1.drop p).length - s) = [] then []
         else [mkDiff EOperation.eEQUAL
           ((t1.drop p).drop ((t1.drop p).length - s))]))) = t2 := by
  obtain ⟨c1, c2⟩ := diff_cleanupMerge_text
    ((if t1.take p = [] then [] else [mkDiff EOperation.eEQUAL (t1.take p)]) ++
      computeWith rec useHM checklines
        ((t1.drop p).take ((t1.drop p).length - s))
        ((t2.drop p).take ((t2.drop p).length - s)) ++
      (if (t1.drop p).drop ((t1.drop p).length - s) = [] then []
       else [mkDiff EOperation.eEQUAL ((t1.drop p).drop ((t1.drop p).length - s))]))
  obtain ⟨m1, m2⟩ := computeWith_text rec hrec useHM checklines
    ((t1.drop p).take ((t1.drop p).length - s))
    ((t2.drop p).take ((t2.drop p).length - s))
  constructor
  · rw [c1, diff_text1_append, diff_text1_append, m1, condEq_text1, condEq_text1]
    rw [List.append_assoc, List.take_append_drop, List.take_append_drop]
  · rw [c2, diff_text2_append, diff_text2_append, m2, condEq_text2, condEq_text2]
    rw [hp, hs, List.append_assoc, List.take_append_drop, List.take_append_drop]

theorem mainBodyWith_text (rec : Bool → Str → Str → List Diff)
    (hrec : ∀ cl a b, diff_text1 (rec cl a b) = a ∧ diff_text2 (rec cl a b) = b)
    (useHM checklines : Bool) (t1 t2 : Str) :
    diff_text1 (mainBodyWith rec useHM checklines t1 t2) = t1 ∧
    diff_text2 (mainBodyWith rec useHM checklines t1 t2) = t2 := by
  unfold mainBodyWith
  by_cases heq : t1 = t2
  · rw [if_pos heq]
    subst heq
    by_cases hnil : t1 = []
    · rw [if_pos hnil]
      subst hnil
      exact ⟨rfl, rfl⟩
    · rw [if_neg hnil]
      constructor <;> simp [diff_text1, diff_text2, mkDiff]
  · rw [if_neg heq]
    exact stripWrap_text rec hrec useHM checklines t1 t2
      (commonPrefixLength t1 t2)
      (commonSuffixLength (t1.drop (commonPrefixLength t1 t2))
        (t2.drop (commonPrefixLength t1 t2)))
      (commonPrefixLength_take t1 t2)
      (by
        have := commonSuffixLength_drop (t1.drop (commonPrefixLength t1 t2))
          (t2.drop (commonPrefixLength t1 t2))
        exact this)

theorem dmRec_text (useHM : Bool) : ∀ (fuel : Nat) (checklines : Bool) (t1 t2 : Str),
    diff_text1 (dmRec useHM fuel checklines t1 t2) = t1 ∧
    diff_text2 (dmRec useHM fuel checklines t1 t2) = t2 := by
  intro fuel
  induction fuel with
  | zero =>
      intro cl t1 t2
      exact text_pair t1 t2
  | succ n ih =>
      intro cl t1 t2
      exact mainBodyWith_text (fun cl a b => dmRec useHM n cl a b)
        (fun cl a b => ih cl a b) useHM cl t1 t2

/-- C1: for every pair of texts `t1`, `t2`, the diff returned by
`diff_main` reconstructs both inputs: concatenating the payloads of
DELETE and EQUAL operations (`diff_text1`) yields `t1`, and
concatenating the payloads of INSERT and EQUAL operations
(`diff_text2`) yields `t2`; this holds for every configuration and
every fuel of the recursive engine, including the timeout fallback. -/
theorem diff_main_roundtrip :
    (∀ (useHM : Bool) (fuel : Nat) (checklines : Bool) (t1 t2 : Str),
      diff_text1 (dmRec useHM fuel checklines t1 t2) = t1 ∧
      diff_text2 (dmRec useHM fuel checklines t1 t2) = t2) ∧
    ∀ t1 t2 : Str,
      diff_text1 (diff_main t1 t2) = t1 ∧ diff_text2 (diff_main t1 t2) = t2 := by
  refine ⟨fun useHM fuel cl t1 t2 => dmRec_text useHM fuel cl t1 t2, fun t1 t2 => ?_⟩
  exact dmRec_text true (t1.length + t2.length + 2) true t1 t2

theorem diffClone_eq : ∀ ds : List Diff,
    ds.map (fun d => (⟨d.fOperation, d.fText⟩ : Diff)) = ds := by
  intro ds
  induction ds with
  | nil => rfl
  | cons d dt ih =>
      obtain ⟨op, t⟩ := d
      simp [ih]

theorem patchClone_eq : ∀ ps : List Patch, patch_deepCopy ps = ps := by
  intro ps
  unfold patch_deepCopy
  induction ps with
  | nil => rfl
  | cons p rest ih =>
      obtain ⟨ds, a, b, c, e⟩ := p
      simp only [List.map_cons, diffClone_eq] at ih ⊢
      rw [ih]

/-- C8: `patch_apply` operates on a clone of the patch list: the clone is
structurally identical to the caller's list, and the caller's stored
list comes back from the call unchanged (so serializing it with
`patch_toText` before and after the call gives the same string), even
though the internal working copy — after `patch_addPadding` and
`patch_splitMax` — genuinely differs from the caller's list. -/
theorem patch_apply_frame :
    (∀ ps : List Patch, patch_deepCopy ps = ps) ∧
    (∀ (tn td dist dtn dtd margin maxBits : Nat) (ps : List Patch) (text : Str),
      (patch_applyOn tn td dist dtn dtd margin maxBits ps text).1 = ps ∧
      patch_toText (patch_applyOn tn td dist dtn dtd margin maxBits ps text).1 =
        patch_toText ps) ∧
    patch_splitMax 4 32
        (patch_addPadding 4 (patch_deepCopy
          (patch_make true [] [116, 101, 115, 116]))).2 ≠
      patch_make true [] [116, 101, 115, 116] := by
  refine ⟨patchClone_eq,
    fun tn td dist dtn dtd margin maxBits ps text => ⟨rfl, rfl⟩, ?_⟩
  decide
